import Mathlib

/-!
# Merkle DAG builder (`dag.go`): embedding and verification

The Go package `merkledag` turns a tree of files and directories into
hash-addressed objects, writes them into a key-value store and returns a root
digest.  This file embeds `dag.go` in Lean and proves properties of it.

Conventions of the embedding

* A byte is a natural number (the code never computes with byte values).  A
  Go `[]byte` that is only read, written into the accumulator or handed to the
  store is a `List Byte` (`ByteSeq`).  The content `file.Bytes()` and the
  field `Data` of an object are what `json.Marshal` looks at, and it encodes
  a `nil` slice as `null` and an empty slice that is not `nil` as `""`: they
  are a `ByteSlice`, the `nil` slice or a slice with its bytes.  A `Links`
  slice is a list: the code builds it from `nil` by `append`, so it is `nil`
  exactly when it is empty; likewise a `Hash`, the value of `h.Sum(nil)`.
* The reported size `Size()` of a node is a `uint64`; `int`, the type of
  `Link.Size`, has 64 bits.  The conversion `int(file.Size())` is
  `intOfUint64`.
* `json.Marshal` and the digest algorithm behind `hash.Hash` are library code:
  they are the parameters `ser : Object → ByteSeq` and
  `digest : ByteSeq → ByteSeq` of every function.  `json.Marshal` cannot fail
  on an `Object`, so `ser` is total.
* The mutable arguments `store KVStore` and `h hash.Hash` are passed as
  explicit state: every function returns the store and the accumulator it
  leaves behind, also when it returns an error.
* A failed single-value type assertion (`node.(File)` on a node that is not a
  `File`) is a Go run-time panic: `Result.panic`.
-/

namespace MerkleDag

/-! ## Data model -/

abbrev Byte := Nat

abbrev ByteSeq := List Byte

/-- A Go `[]byte` of which it matters whether it is `nil`: the `nil` slice,
or a slice that is not `nil` with its bytes (possibly none). -/
inductive ByteSlice where
  | nil
  | mk (bytes : ByteSeq)
  deriving DecidableEq, Repr

/-- The bytes of a slice; `nil` has none. -/
def ByteSlice.bytes : ByteSlice → ByteSeq
  | .nil => []
  | .mk bytes => bytes

/-- Go `len(d)`. -/
def ByteSlice.length (d : ByteSlice) : Nat := d.bytes.length

/-- Go `append(d, p...)`: appending nothing returns `d` itself, `nil`
included; appending something returns a slice that is not `nil`. -/
def ByteSlice.append (d : ByteSlice) (p : ByteSeq) : ByteSlice :=
  if p = [] then d else .mk (d.bytes ++ p)

/-- Go `int(x)` for `x` of type `uint64`, with `int` of 64 bits: the integer
whose two's complement representation is the 64 bits of `x`.  It is `x`
itself exactly when `x < 2^63`. -/
def intOfUint64 (x : Nat) : Int :=
  if x % 2 ^ 64 < 2 ^ 63 then ((x % 2 ^ 64 : Nat) : Int)
  else ((x % 2 ^ 64 : Nat) : Int) - 2 ^ 64

/-- Go `type Link struct { Name string; Hash []byte; Size int }`. -/
structure Link where
  Name : String
  Hash : ByteSeq
  Size : Int
  deriving DecidableEq, Repr

/-- Go `type Object struct { Links []Link; Data []byte }`. -/
structure Object where
  Links : List Link
  Data : ByteSlice
  deriving DecidableEq, Repr

/-- Go `error` values that `Add` can return: the two values made by
`errors.New` in `Add`, and whatever error the store reports.  `errors.New`
makes a fresh value at each call, so an error of the store is never one of
the two: it is `storage c`, with `c` telling the errors of the store apart. -/
inductive Error where
  | invalidFileType
  | invalidDirectoryType
  | storage (code : Nat)
  deriving DecidableEq, Repr

/-- Outcome of a Go function returning `(value, error)`: a value with a `nil`
error, a non-`nil` error, or a run-time panic. -/
inductive Result (α : Type) where
  | ok (v : α)
  | err (e : Error)
  | panic
  deriving DecidableEq, Repr

/-! ## The hash accumulator (`hash.Hash`) -/

/-- State of a `hash.Hash`: the bytes written since the last `Reset`. -/
structure Hash where
  written : ByteSeq
  deriving DecidableEq, Repr

/-- Go `h.Reset()`. -/
def Hash.Reset (_h : Hash) : Hash := ⟨[]⟩

/-- Go `h.Write(p)`. -/
def Hash.Write (h : Hash) (p : ByteSeq) : Hash := ⟨h.written ++ p⟩

/-- Go `h.Sum(nil)`: the digest of everything written since the last reset;
the accumulator is left as it is. -/
def Hash.Sum (h : Hash) (digest : ByteSeq → ByteSeq) : ByteSeq := digest h.written

/-! ## The key-value store (`KVStore`) -/

/-- One call of a store method, with its outcome. -/
inductive StoreOp where
  | has (key : ByteSeq) (found : Bool)
  | hasFailed (key : ByteSeq) (e : Error)
  | put (key value : ByteSeq)
  | putFailed (key value : ByteSeq) (e : Error)
  deriving DecidableEq, Repr

/-- Modelled from the spec: the interface `KVStore` is declared outside
`dag.go`.  The spec gives it two operations, `exists(key) -> bool` and
`put(key, value)`, both of which may fail with a storage error.  The model is
a finite map `entries` (at most one value per key), a schedule of outcomes for
the coming `Has` calls and one for the coming `Put` calls (`none`: the call
succeeds, `some c`: it fails with the storage error `Error.storage c`, a value
other than the two errors `Add` makes itself; an exhausted schedule means
success), and the `log` of the calls made so far, oldest first. -/
structure KVStore where
  entries : List (ByteSeq × ByteSeq)
  hasFaults : List (Option Nat)
  putFaults : List (Option Nat)
  log : List StoreOp
  deriving DecidableEq, Repr

/-- Value stored under `key`, if any. -/
def KVStore.get (s : KVStore) (key : ByteSeq) : Option ByteSeq :=
  s.entries.lookup key

/-- Go `store.Has(key)`. -/
def KVStore.Has (s : KVStore) (key : ByteSeq) : Except Error Bool × KVStore :=
  match s.hasFaults with
  | some c :: rest =>
    (.error (.storage c),
      { s with hasFaults := rest, log := s.log ++ [.hasFailed key (.storage c)] })
  | faults =>
    let found := (s.get key).isSome
    (.ok found, { s with hasFaults := faults.tail, log := s.log ++ [.has key found] })

/-- Go `store.Put(key, value)`: a successful write makes `value` the one
value under `key`; a failed write leaves the entries as they are. -/
def KVStore.Put (s : KVStore) (key value : ByteSeq) : Option Error × KVStore :=
  match s.putFaults with
  | some c :: rest =>
    (some (.storage c),
      { s with putFaults := rest, log := s.log ++ [.putFailed key value (.storage c)] })
  | faults =>
    (none, { s with
      entries := (key, value) :: s.entries.filter (fun kv => kv.1 ≠ key),
      putFaults := faults.tail,
      log := s.log ++ [.put key value] })

/-- An in-memory store holding `entries`, none of whose calls fails. -/
def KVStore.ofEntries (entries : List (ByteSeq × ByteSeq)) : KVStore :=
  { entries := entries, hasFaults := [], putFaults := [], log := [] }

/-- The empty in-memory store. -/
def KVStore.empty : KVStore := KVStore.ofEntries []

/-! ## The tree source (`Node`, `File`, `Dir`) -/

/-- Modelled from the spec: the constants `FILE` and `DIR`, the values of
`node.Type()`, are declared outside `dag.go`; a node is a file or a
directory. -/
inductive NodeType where
  | FILE
  | DIR
  deriving DecidableEq, Repr

/-- Modelled from the spec: the interface `File` is declared outside `dag.go`.
A file node exposes its name, its reported logical size (a `uint64`: a
natural number, read modulo `2^64`) and its raw byte content, a `[]byte` that
may be `nil`. -/
structure File where
  Name : String
  Size : Nat
  Bytes : ByteSlice
  deriving DecidableEq, Repr

/-- Modelled from the spec: the interfaces `Node` and `Dir` are declared
outside `dag.go`.  A node exposes its kind.  `file f` reports `FILE` and is a
`File`; `dir name size children` reports `DIR` and is a `Dir` whose iterator
`It()` yields `children` in order; `other declared name size` reports
`declared` but is neither a `File` nor a `Dir` (a node whose declared kind is
inconsistent with its capability). -/
inductive Node where
  | file (f : File)
  | dir (name : String) (size : Nat) (children : List Node)
  | other (declared : NodeType) (name : String) (size : Nat)
  deriving Repr

/-- Go `node.Type()`. -/
def Node.Type : Node → NodeType
  | .file _ => .FILE
  | .dir _ _ _ => .DIR
  | .other declared _ _ => declared

/-- Go `node.Name()`. -/
def Node.Name : Node → String
  | .file f => f.Name
  | .dir name _ _ => name
  | .other _ name _ => name

/-- Go `node.Size()`. -/
def Node.Size : Node → Nat
  | .file f => f.Size
  | .dir _ size _ => size
  | .other _ _ size => size

/-- Modelled from the spec: the interface `Dir` is declared outside `dag.go`.
A directory node exposes its name, its reported logical size and an iterator
yielding each child once, in a stable order: the list `It`. -/
structure Dir where
  Name : String
  Size : Nat
  It : List Node

/-- Go `file, ok := node.(File)`. -/
def Node.asFile : Node → Option File
  | .file f => some f
  | _ => none

/-- Go `dir, ok := node.(Dir)`. -/
def Node.asDir : Node → Option Dir
  | .dir name size children => some ⟨name, size, children⟩
  | _ => none

/-! ## The code of `dag.go` -/

/-- The chunk size `256*1024` of `sliceFile` and `sliceAndPut`. -/
def chunkSize : Nat := 256 * 1024

/-- Go `[]byte("blob")`. -/
def tagBlob : ByteSeq := [98, 108, 111, 98]

/-- Go `[]byte("link")`. -/
def tagLink : ByteSeq := [108, 105, 110, 107]

/-- Go `[]byte("tree")`. -/
def tagTree : ByteSeq := [116, 114, 101, 101]

/-- Go `data[lo:hi]`. -/
def slice (data : ByteSeq) (lo hi : Nat) : ByteSeq := (data.take hi).drop lo

/-- Go `generateMerkleRoot`: writes the serialization into the accumulator
as it stands (there is no `Reset`) and returns the digest. -/
def generateMerkleRoot (ser : Object → ByteSeq) (digest : ByteSeq → ByteSeq)
    (obj : Object) (h : Hash) : ByteSeq × Hash :=
  let jsonMarshal := ser obj
  let h := h.Write jsonMarshal
  (h.Sum digest, h)

/-- Go `marshalAndPut`.  The value of `store.Put` is dropped by the code. -/
def marshalAndPut (ser : Object → ByteSeq) (digest : ByteSeq → ByteSeq)
    (store : KVStore) (obj : Object) (h : Hash) : Option Error × KVStore × Hash :=
  let jsonMarshal := ser obj
  let h := h.Reset
  let h := h.Write jsonMarshal
  match store.Has (h.Sum digest) with
  | (.error err, store) => (some err, store, h)
  | (.ok flag, store) =>
    if !flag then
      (none, (store.Put (h.Sum digest) jsonMarshal).2, h)
    else
      (none, store, h)

/-- Go `sliceAndPut`: the loop `for seedId < len(data)`, on the bytes of
`data`.  A chunk `data[seedId:end]` is not `nil`: the loop runs only below
the length of `data`.  The object behind the pointer `obj` is returned as the
loop leaves it. -/
def sliceAndPut (ser : Object → ByteSeq) (digest : ByteSeq → ByteSeq)
    (data : ByteSeq) (store : KVStore) (h : Hash) (obj : Object) (seedId : Nat) :
    Option Error × Object × KVStore × Hash :=
  if seedId < data.length then
    let stop := if seedId + chunkSize > data.length then data.length else seedId + chunkSize
    let chunkData := slice data seedId stop
    let blob : Object := { Links := [], Data := .mk chunkData }
    match marshalAndPut ser digest store blob h with
    | (some err, store, h) => (some err, obj, store, h)
    | (none, store, h) =>
      let obj : Object :=
        { Links := obj.Links ++ [{ Name := "", Hash := h.Sum digest, Size := chunkData.length }],
          Data := obj.Data.append tagBlob }
      sliceAndPut ser digest data store h obj (seedId + chunkSize)
  else
    (none, obj, store, h)
termination_by data.length - seedId
decreasing_by
  have : 0 < chunkSize := by decide
  omega

/-- Go `sliceFile`. -/
def sliceFile (ser : Object → ByteSeq) (digest : ByteSeq → ByteSeq)
    (file : File) (store : KVStore) (h : Hash) : Result Object × KVStore × Hash :=
  if file.Bytes.length ≤ chunkSize then
    let data := file.Bytes
    let blob : Object := { Links := [], Data := data }
    match marshalAndPut ser digest store blob h with
    | (some err, store, h) => (.err err, store, h)
    | (none, store, h) => (.ok blob, store, h)
  else
    match sliceAndPut ser digest file.Bytes.bytes store h { Links := [], Data := .nil } 0 with
    | (some err, _, store, h) => (.err err, store, h)
    | (none, object, store, h) => (.ok object, store, h)

/-- The last statements of Go `sliceDir`, after its loop: the tree object is
handed to `marshalAndPut` and returned. -/
def sliceDirFinish (ser : Object → ByteSeq) (digest : ByteSeq → ByteSeq)
    (loop : Result Object × KVStore × Hash) : Result Object × KVStore × Hash :=
  match loop with
  | (.ok treeObject, store, h) =>
    match marshalAndPut ser digest store treeObject h with
    | (some err, store, h) => (.err err, store, h)
    | (none, store, h) => (.ok treeObject, store, h)
  | other => other

mutual
/-- Go `sliceDir(subDir, store, h)` for `subDir := node.(Dir)`, the recursive
call inside the loop of `sliceDir`: the loop over the children of `subDir`
followed by `sliceDirFinish`.  The loop calls it on directories only; on any
other node the type assertion has failed. -/
def sliceSubDir (ser : Object → ByteSeq) (digest : ByteSeq → ByteSeq) :
    Node → KVStore → Hash → Result Object × KVStore × Hash
  | .dir _ _ children, store, h =>
    sliceDirFinish ser digest
      (sliceDirLoop ser digest children { Links := [], Data := .nil } store h)
  | _, store, h => (.panic, store, h)
/-- The loop `for iter.Next()` of Go `sliceDir`, over the children the
iterator still has to yield, with the tree object built so far. -/
def sliceDirLoop (ser : Object → ByteSeq) (digest : ByteSeq → ByteSeq) :
    List Node → Object → KVStore → Hash → Result Object × KVStore × Hash
  | [], treeObject, store, h => (.ok treeObject, store, h)
  | node :: rest, treeObject, store, h =>
    if node.Type = .FILE then
      match node.asFile with
      | none => (.panic, store, h)
      | some file =>
        match sliceFile ser digest file store h with
        | (.ok obj, store, h) =>
          let root := generateMerkleRoot ser digest obj h
          let treeObject : Object :=
            { Data := treeObject.Data.append tagLink,
              Links := treeObject.Links ++
                [{ Hash := root.1, Name := file.Name, Size := intOfUint64 file.Size }] }
          sliceDirLoop ser digest rest treeObject store root.2
        | other => other
    else
      match node.asDir with
      | none => (.panic, store, h)
      | some subDir =>
        match sliceSubDir ser digest node store h with
        | (.ok obj, store, h) =>
          let root := generateMerkleRoot ser digest obj h
          let treeObject : Object :=
            { Data := treeObject.Data.append tagTree,
              Links := treeObject.Links ++
                [{ Hash := root.1, Name := subDir.Name, Size := intOfUint64 subDir.Size }] }
          sliceDirLoop ser digest rest treeObject store root.2
        | other => other
end

/-- Go `sliceDir`. -/
def sliceDir (ser : Object → ByteSeq) (digest : ByteSeq → ByteSeq)
    (dir : Dir) (store : KVStore) (h : Hash) : Result Object × KVStore × Hash :=
  sliceDirFinish ser digest
    (sliceDirLoop ser digest dir.It { Links := [], Data := .nil } store h)

/-- Go `addFileToStore`. -/
def addFileToStore (ser : Object → ByteSeq) (digest : ByteSeq → ByteSeq)
    (file : File) (store : KVStore) (h : Hash) : Result ByteSeq × KVStore × Hash :=
  match sliceFile ser digest file store h with
  | (.ok object, store, h) =>
    match marshalAndPut ser digest store object h with
    | (some err, store, h) => (.err err, store, h)
    | (none, store, h) =>
      let root := generateMerkleRoot ser digest object h
      (.ok root.1, store, root.2)
  | (.err err, store, h) => (.err err, store, h)
  | (.panic, store, h) => (.panic, store, h)

/-- Go `addDirToStore`. -/
def addDirToStore (ser : Object → ByteSeq) (digest : ByteSeq → ByteSeq)
    (dir : Dir) (store : KVStore) (h : Hash) : Result ByteSeq × KVStore × Hash :=
  match sliceDir ser digest dir store h with
  | (.ok object, store, h) =>
    match marshalAndPut ser digest store object h with
    | (some err, store, h) => (.err err, store, h)
    | (none, store, h) =>
      let root := generateMerkleRoot ser digest object h
      (.ok root.1, store, root.2)
  | (.err err, store, h) => (.err err, store, h)
  | (.panic, store, h) => (.panic, store, h)

/-- Go `Add`. -/
def Add (ser : Object → ByteSeq) (digest : ByteSeq → ByteSeq)
    (store : KVStore) (node : Node) (h : Hash) : Result ByteSeq × KVStore × Hash :=
  if node.Type = .FILE then
    match node.asFile with
    | none => (.err .invalidFileType, store, h)
    | some file => addFileToStore ser digest file store h
  else
    match node.asDir with
    | none => (.err .invalidDirectoryType, store, h)
    | some dir => addDirToStore ser digest dir store h

/-! ## Concrete instances of the parameters -/

/-- A byte sequence preceded by its length. -/
def encBytes (b : ByteSeq) : ByteSeq := b.length :: b

/-- An integer as one code: `2n` for `n ≥ 0`, `2n + 1` for `-(n + 1)`. -/
def encInt : Int → Byte
  | .ofNat n => 2 * n
  | .negSucc n => 2 * n + 1

/-- A link as name, hash (both length-prefixed) and size. -/
def encLink (l : Link) : ByteSeq :=
  encBytes (l.Name.toList.map Char.toNat) ++ encBytes l.Hash ++ [encInt l.Size]

/-- The data of an object: nothing for `nil`, else the bytes preceded by
their number. -/
def encData : ByteSlice → ByteSeq
  | .nil => []
  | .mk bytes => encBytes bytes

/-- A length-prefixed serialization of objects (number of links, the links,
the data), a deterministic byte-stable format in the sense of the spec.  Like
`json.Marshal` it tells `nil` data from empty data.  It is the instance of
`ser` at which the code is evaluated on concrete inputs. -/
def lenSer (o : Object) : ByteSeq :=
  o.Links.length :: (o.Links.map encLink).flatten ++ encData o.Data

/-! ## Auxiliary notions for the proofs -/

/-- A blob object: no links, the bytes `data` as data. -/
def blob (data : ByteSeq) : Object := { Links := [], Data := .mk data }

/-- No call of the store is scheduled to fail. -/
def KVStore.Reliable (s : KVStore) : Prop :=
  (∀ f ∈ s.hasFaults, f = none) ∧ (∀ f ∈ s.putFaults, f = none)

/-- Every entry of the store is keyed by the digest of its value. -/
def ContentAddressed (digest : ByteSeq → ByteSeq) (s : KVStore) : Prop :=
  ∀ kv ∈ s.entries, kv.1 = digest kv.2

/-- Entries after offering `(k, v)` to a map that writes only absent keys. -/
def addEntry (es : List (ByteSeq × ByteSeq)) (k v : ByteSeq) : List (ByteSeq × ByteSeq) :=
  if (es.lookup k).isSome then es else (k, v) :: es

/-- Entries after offering the objects `ws`, in order, each under the digest
of its serialization. -/
def offerAll (ser : Object → ByteSeq) (digest : ByteSeq → ByteSeq)
    (ws : List Object) (es : List (ByteSeq × ByteSeq)) : List (ByteSeq × ByteSeq) :=
  ws.foldl (fun es o => addEntry es (digest (ser o)) (ser o)) es

/-- The store `s2` is what a fault-free run offering `ws` makes of `s1`. -/
def Offered (ser : Object → ByteSeq) (digest : ByteSeq → ByteSeq)
    (ws : List Object) (s1 s2 : KVStore) : Prop :=
  s2.Reliable ∧ s2.entries = offerAll ser digest ws s1.entries

/-- No write of the store is scheduled to fail. -/
def KVStore.Writable (s : KVStore) : Prop := ∀ f ∈ s.putFaults, f = none

/-- The store `s2` is what a run offering `ws`, none of whose writes failed,
makes of `s1`. -/
def Written (ser : Object → ByteSeq) (digest : ByteSeq → ByteSeq)
    (ws : List Object) (s1 s2 : KVStore) : Prop :=
  s2.Writable ∧ s2.entries = offerAll ser digest ws s1.entries

/-! ## The chunk loop -/

/-- The windows visited by the loop of `sliceAndPut` started at offset
`seedId`: `data[seedId : min(seedId + C, n)]`, then the same from
`seedId + C`, as long as the offset is below `n = len(data)`. -/
def windows (data : ByteSeq) (seedId : Nat) : List ByteSeq :=
  if seedId < data.length then
    slice data seedId (min (seedId + chunkSize) data.length) ::
      windows data (seedId + chunkSize)
  else
    []
termination_by data.length - seedId
decreasing_by
  have : 0 < chunkSize := by decide
  omega

/-- The link `sliceAndPut` appends for the window `w`. -/
def chunkLink (ser : Object → ByteSeq) (digest : ByteSeq → ByteSeq) (w : ByteSeq) : Link :=
  { Name := "", Hash := digest (ser (blob w)), Size := w.length }

/-- The object `obj` after the loop of `sliceAndPut` has gone through the
windows `ws`. -/
def appendChunks (ser : Object → ByteSeq) (digest : ByteSeq → ByteSeq)
    (obj : Object) (ws : List ByteSeq) : Object :=
  { Links := obj.Links ++ ws.map (chunkLink ser digest),
    Data := obj.Data.append (ws.map (fun _ => tagBlob)).flatten }

/-- The accumulator after the loop of `sliceAndPut` has gone through the
windows `ws`: the serialization of the last blob, or `h` if there was none. -/
def hashAfterChunks (ser : Object → ByteSeq) (h : Hash) (ws : List ByteSeq) : Hash :=
  match ws.getLast? with
  | none => h
  | some w => ⟨ser (blob w)⟩

/-! ## Files -/

/-- The object `sliceFile` builds for a file with content `data`: the blob of
the content, or the object listing one chunk per window. -/
def fileObject (ser : Object → ByteSeq) (digest : ByteSeq → ByteSeq) (data : ByteSlice) :
    Object :=
  if data.length ≤ chunkSize then { Links := [], Data := data }
  else appendChunks ser digest { Links := [], Data := .nil } (windows data.bytes 0)

/-- The blobs `sliceFile` offers to the store for a file with content
`data`, in order. -/
def fileBlobs (data : ByteSlice) : List Object :=
  if data.length ≤ chunkSize then [{ Links := [], Data := data }]
  else (windows data.bytes 0).map blob

/-- The accumulator `sliceFile` leaves behind when it succeeds: the
serialization of the last blob it has offered. -/
def fileHash (ser : Object → ByteSeq) (data : ByteSlice) : Hash :=
  if data.length ≤ chunkSize then ⟨ser { Links := [], Data := data }⟩
  else hashAfterChunks ser ⟨[]⟩ (windows data.bytes 0)

/-! ## Directories -/

/-- The tag `sliceDir` appends for a child. -/
def tagOf (node : Node) : ByteSeq := if node.Type = .FILE then tagLink else tagTree

/-- The tags `sliceDir` appends for the children `cs`. -/
def tagsOf (cs : List Node) : ByteSeq := (cs.map tagOf).flatten

/-- The data of the tree object of a directory with children `cs`: the tags
appended to the `nil` data of a new object; `nil` when there is no child. -/
def treeData (cs : List Node) : ByteSlice := ByteSlice.append .nil (tagsOf cs)

mutual
/-- The link `sliceDir` appends for a child: the child's name and reported
size, and the digest `generateMerkleRoot` computes in the accumulator left by
the encoding of the child. -/
def linkOf (ser : Object → ByteSeq) (digest : ByteSeq → ByteSeq) : Node → Link
  | .file f =>
    { Name := f.Name,
      Hash := digest ((fileHash ser f.Bytes).written ++ ser (fileObject ser digest f.Bytes)),
      Size := intOfUint64 f.Size }
  | .dir name size cs =>
    { Name := name,
      Hash := digest (ser { Links := linksOf ser digest cs, Data := treeData cs } ++
        ser { Links := linksOf ser digest cs, Data := treeData cs }),
      Size := intOfUint64 size }
  | .other _ name size => { Name := name, Hash := [], Size := intOfUint64 size }
/-- The links `sliceDir` appends for the children `cs`. -/
def linksOf (ser : Object → ByteSeq) (digest : ByteSeq → ByteSeq) : List Node → List Link
  | [] => []
  | n :: ns => linkOf ser digest n :: linksOf ser digest ns
end

/-- The tree object of a directory with children `cs`. -/
def treeOf (ser : Object → ByteSeq) (digest : ByteSeq → ByteSeq) (cs : List Node) : Object :=
  { Links := linksOf ser digest cs, Data := treeData cs }

mutual
/-- The declared kind of the node and of every node below it matches its
capability. -/
def Node.WellFormed : Node → Bool
  | .file _ => true
  | .dir _ _ cs => allWellFormed cs
  | .other _ _ _ => false
/-- Every node of the list is well formed. -/
def allWellFormed : List Node → Bool
  | [] => true
  | n :: ns => n.WellFormed && allWellFormed ns
end

mutual
/-- The objects the body of the loop of `sliceDir` offers to a fault-free
store for one child, in order: the blobs of a file; for a subdirectory what
the loop offers for its children, then its tree object.  A panic ends the
run. -/
def nodeWrites (ser : Object → ByteSeq) (digest : ByteSeq → ByteSeq) : Node → List Object
  | .file f => fileBlobs f.Bytes
  | .dir _ _ cs =>
    if allWellFormed cs = true then
      listWrites ser digest cs ++ [{ Links := linksOf ser digest cs, Data := treeData cs }]
    else listWrites ser digest cs
  | .other _ _ _ => []
/-- The objects the loop of `sliceDir` offers to a fault-free store for the
children `cs`, in order. -/
def listWrites (ser : Object → ByteSeq) (digest : ByteSeq → ByteSeq) : List Node → List Object
  | [] => []
  | n :: ns =>
    if n.WellFormed = true then nodeWrites ser digest n ++ listWrites ser digest ns
    else nodeWrites ser digest n
end

/-- The objects `sliceDir` offers to a fault-free store for a directory with
children `cs`, in order. -/
def dirWrites (ser : Object → ByteSeq) (digest : ByteSeq → ByteSeq) (cs : List Node) :
    List Object :=
  if allWellFormed cs = true then listWrites ser digest cs ++ [treeOf ser digest cs]
  else listWrites ser digest cs

/-- What the loop of `sliceDir` over the children `cs` does: when it returns
an object, it is the tree built so far extended by one link and one tag per
child; it panics only if some node is not well formed; on a fault-free store
it returns no error and offers the objects `listWrites cs`. -/
def LoopSpec (ser : Object → ByteSeq) (digest : ByteSeq → ByteSeq) (cs : List Node) : Prop :=
  ∀ (tree : Object) (s : KVStore) (h : Hash),
    (∀ t, (sliceDirLoop ser digest cs tree s h).1 = .ok t →
      t = { Links := tree.Links ++ linksOf ser digest cs, Data := tree.Data.append (tagsOf cs) } ∧
        allWellFormed cs = true) ∧
    ((sliceDirLoop ser digest cs tree s h).1 = .panic → allWellFormed cs = false) ∧
    (s.Reliable → (∀ e, (sliceDirLoop ser digest cs tree s h).1 ≠ .err e) ∧
      Offered ser digest (listWrites ser digest cs) s (sliceDirLoop ser digest cs tree s h).2.1)

/-- What `sliceDir` does on a directory with children `cs`: when it returns
an object, it is the tree object of `cs`, and the accumulator holds its
serialization alone. -/
def DirSpec (ser : Object → ByteSeq) (digest : ByteSeq → ByteSeq) (cs : List Node) : Prop :=
  ∀ (s : KVStore) (h : Hash),
    (∀ t, (sliceDirFinish ser digest
        (sliceDirLoop ser digest cs { Links := [], Data := .nil } s h)).1 = .ok t →
      t = treeOf ser digest cs ∧ allWellFormed cs = true ∧
        (sliceDirFinish ser digest
          (sliceDirLoop ser digest cs { Links := [], Data := .nil } s h)).2.2 = ⟨ser t⟩) ∧
    ((sliceDirFinish ser digest
        (sliceDirLoop ser digest cs { Links := [], Data := .nil } s h)).1 = .panic →
      allWellFormed cs = false) ∧
    (s.Reliable →
      (∀ e, (sliceDirFinish ser digest
        (sliceDirLoop ser digest cs { Links := [], Data := .nil } s h)).1 ≠ .err e) ∧
      Offered ser digest (dirWrites ser digest cs) s (sliceDirFinish ser digest
        (sliceDirLoop ser digest cs { Links := [], Data := .nil } s h)).2.1)

/-! ## The entry point -/

/-- The object `Add` hands to `generateMerkleRoot`: the root object. -/
def rootObject (ser : Object → ByteSeq) (digest : ByteSeq → ByteSeq) : Node → Object
  | .file f => fileObject ser digest f.Bytes
  | .dir _ _ cs => treeOf ser digest cs
  | .other _ _ _ => { Links := [], Data := .nil }

/-- What `Add` returns when no call of the store fails.  The digest is taken
over the serialization of the root object written twice: `marshalAndPut` has
left it in the accumulator and `generateMerkleRoot` writes it again. -/
def addResult (ser : Object → ByteSeq) (digest : ByteSeq → ByteSeq) : Node → Result ByteSeq
  | .file f =>
    .ok (digest (ser (fileObject ser digest f.Bytes) ++ ser (fileObject ser digest f.Bytes)))
  | .dir _ _ cs =>
    if allWellFormed cs = true then
      .ok (digest (ser (treeOf ser digest cs) ++ ser (treeOf ser digest cs)))
    else .panic
  | .other .FILE _ _ => .err .invalidFileType
  | .other .DIR _ _ => .err .invalidDirectoryType

/-- The objects `Add` offers to a fault-free store, in order. -/
def addWrites (ser : Object → ByteSeq) (digest : ByteSeq → ByteSeq) : Node → List Object
  | .file f => fileBlobs f.Bytes ++ [fileObject ser digest f.Bytes]
  | .dir _ _ cs =>
    if allWellFormed cs = true then dirWrites ser digest cs ++ [treeOf ser digest cs]
    else dirWrites ser digest cs
  | .other _ _ _ => []

/-! ## Concrete inputs and notions used in the statements -/

/-- The file `a.txt` with content `hi` and reported size 2. -/
def fileHi : File := ⟨"a.txt", 2, .mk [104, 105]⟩

/-- The `i`-th window of a file content: `data[i*C : min((i+1)*C, n)]`. -/
def window (data : ByteSeq) (i : Nat) : ByteSeq :=
  slice data (i * chunkSize) (min ((i + 1) * chunkSize) data.length)

/-- A second file with the content of `fileHi`, another name and another
reported size. -/
def fileCopy : File := ⟨"copy.txt", 7, .mk [104, 105]⟩

/-- A file of exactly `256*1024` bytes. -/
def exactFile : File := ⟨"exact.bin", chunkSize, .mk (List.replicate chunkSize 0)⟩

/-- The directory of the end-to-end example: the file `a.txt` with content
`hi`, then the empty subdirectory `b`. -/
def exampleDir : Node := .dir "root" 0 [.file fileHi, .dir "b" 0 []]

/-- A file content of `256*1024 + 1` zero bytes. -/
def bigData : ByteSeq := List.replicate (chunkSize + 1) 0

/-- A file of `256*1024 + 1` bytes. -/
def bigFile : File := ⟨"big.bin", chunkSize + 1, .mk bigData⟩

/-- The object of the file `bigFile`: one link per window. -/
def bigObject (ser : Object → ByteSeq) (digest : ByteSeq → ByteSeq) : Object :=
  { Links := [{ Name := "", Hash := digest (ser { Links := [], Data := .mk (List.replicate chunkSize 0) }), Size := chunkSize },
      { Name := "", Hash := digest (ser { Links := [], Data := .mk [0] }), Size := 1 }],
    Data := .mk (tagBlob ++ tagBlob) }

/-- The tree object `sliceDir` builds for the example directory. -/
def exampleTree (ser : Object → ByteSeq) (digest : ByteSeq → ByteSeq) : Object :=
  { Links := [{ Name := "a.txt", Hash := digest (ser { Links := [], Data := .mk [104, 105] } ++ ser { Links := [], Data := .mk [104, 105] }), Size := 2 },
      { Name := "b", Hash := digest (ser { Links := [], Data := .nil } ++ ser { Links := [], Data := .nil }), Size := 0 }],
    Data := .mk (tagLink ++ tagTree) }

/-- The parent tree object the end-to-end example of the spec asks for: its
links carry the keys of the blob and of the tree object of `b`. -/
def expectedTree (ser : Object → ByteSeq) (digest : ByteSeq → ByteSeq) : Object :=
  { Links := [{ Name := "a.txt", Hash := digest (ser { Links := [], Data := .mk [104, 105] }), Size := 2 },
      { Name := "b", Hash := digest (ser { Links := [], Data := .nil }), Size := 0 }],
    Data := .mk (tagLink ++ tagTree) }

/-- A directory whose only child is the file `bigFile`. -/
def bigDir : Node := .dir "d" 0 [.file bigFile]

/-- The tree object `sliceDir` builds for `bigDir`: the link of the file
carries the digest of the serialization of the last chunk blob followed by
the serialization of the file's object. -/
def bigTree (ser : Object → ByteSeq) (digest : ByteSeq → ByteSeq) : Object :=
  { Links := [{ Name := "big.bin", Hash := digest (ser { Links := [], Data := .mk [0] } ++ ser (bigObject ser digest)), Size := bigFile.Size }],
    Data := .mk tagLink }

/-! ## Runs of the object writer and stores that fail -/

/-- The error a result carries, if it is one. -/
def Result.toError {α : Type} : Result α → Option Error
  | .err e => some e
  | _ => none

/-- Runs of the object writer.  `Run ser digest s s2 e`: the store `s2` is
reached from `s` by a sequence of calls of `marshalAndPut`, each made on the
store the call before has left; with `e = none` none of them has returned an
error, with `e = some x` the last one has returned the error `x` and all
before it none. -/
inductive Run (ser : Object → ByteSeq) (digest : ByteSeq → ByteSeq) :
    KVStore → KVStore → Option Error → Prop where
  | done (s : KVStore) : Run ser digest s s none
  | step (s : KVStore) (obj : Object) (h : Hash) (s2 : KVStore) (e : Option Error) :
    (marshalAndPut ser digest s obj h).1 = none →
    Run ser digest (marshalAndPut ser digest s obj h).2.1 s2 e → Run ser digest s s2 e
  | fail (s : KVStore) (obj : Object) (h : Hash) (x : Error) :
    (marshalAndPut ser digest s obj h).1 = some x →
    Run ser digest s (marshalAndPut ser digest s obj h).2.1 (some x)

/-- The declared kind of the node is inconsistent with its capability: it
reports `FILE` but is not a `File`, or it reports another kind but is not a
`Dir`. -/
def Node.Mismatch (node : Node) : Prop :=
  (node.Type = .FILE ∧ node.asFile = none) ∨ (node.Type ≠ .FILE ∧ node.asDir = none)

/-- A store without entries whose first two writes fail with the storage
error of code 1. -/
def storeFailingWrites : KVStore := { KVStore.empty with putFaults := [some 1, some 1] }

/-- A store without entries whose first existence check fails with the
storage error of code 1. -/
def storeFailingCheck : KVStore := { KVStore.empty with hasFaults := [some 1] }

/-- A store without entries whose second existence check fails with the
storage error of code 7. -/
def storeFailingSecondCheck : KVStore := { KVStore.empty with hasFaults := [none, some 7] }

/-! ## Further inputs and notions used in the statements -/

/-- The loop of `sliceAndPut` as a recursion over the windows it visits. -/
def putChunks (ser : Object → ByteSeq) (digest : ByteSeq → ByteSeq) :
    List ByteSeq → KVStore → Hash → Object → Option Error × Object × KVStore × Hash
  | [], store, h, obj => (none, obj, store, h)
  | w :: ws, store, h, obj =>
    match marshalAndPut ser digest store (blob w) h with
    | (some err, store, h) => (some err, obj, store, h)
    | (none, store, h) =>
      putChunks ser digest ws store h
        { Links := obj.Links ++ [{ Name := "", Hash := h.Sum digest, Size := w.length }],
          Data := obj.Data.append tagBlob }

/-- A store without entries whose first three writes fail with the storage
error of code 1. -/
def storeFailingThreeWrites : KVStore :=
  { KVStore.empty with putFaults := [some 1, some 1, some 1] }

/-- A file that reports a size of `2^63` bytes. -/
def hugeFile : File := ⟨"huge.bin", 2 ^ 63, .mk [104, 105]⟩

/-- An empty file whose `Bytes()` is the `nil` slice. -/
def emptyFileNil : File := ⟨"e.txt", 0, .nil⟩

/-- An empty file whose `Bytes()` is an empty slice that is not `nil`. -/
def emptyFile : File := ⟨"e.txt", 0, .mk []⟩

/-! ## Lemmas -/

theorem ByteSlice.append_empty (d : ByteSlice) : d.append [] = d := by
  simp [ByteSlice.append]

theorem ByteSlice.append_of_ne (d : ByteSlice) (p : ByteSeq) (hp : p ≠ []) :
    d.append p = .mk (d.bytes ++ p) := by
  simp [ByteSlice.append, hp]

theorem ByteSlice.bytes_append (d : ByteSlice) (p : ByteSeq) :
    (d.append p).bytes = d.bytes ++ p := by
  unfold ByteSlice.append
  split
  · next h => simp [h]
  · rfl

theorem ByteSlice.append_append (d : ByteSlice) (p q : ByteSeq) :
    (d.append p).append q = d.append (p ++ q) := by
  by_cases hp : p = []
  · subst hp
    simp [ByteSlice.append_empty]
  · by_cases hq : q = []
    · subst hq
      simp [ByteSlice.append_empty]
    · rw [ByteSlice.append_of_ne _ q hq, ByteSlice.bytes_append,
        ByteSlice.append_of_ne d (p ++ q) (by simp [hp]), List.append_assoc]

theorem ByteSlice.length_mk (b : ByteSeq) : (ByteSlice.mk b).length = b.length := rfl

theorem ByteSlice.bytes_mk (b : ByteSeq) : (ByteSlice.mk b).bytes = b := rfl

theorem ByteSlice.length_eq (d : ByteSlice) : d.length = d.bytes.length := rfl

theorem tagBlob_ne_nil : tagBlob ≠ [] := by decide

theorem tagLink_ne_nil : tagLink ≠ [] := by decide

theorem tagTree_ne_nil : tagTree ≠ [] := by decide


theorem reliable_empty : KVStore.empty.Reliable := by
  simp [KVStore.Reliable, KVStore.empty, KVStore.ofEntries]

theorem reliable_ofEntries (es : List (ByteSeq × ByteSeq)) : (KVStore.ofEntries es).Reliable := by
  simp [KVStore.Reliable, KVStore.ofEntries]

theorem filter_ne_of_lookup_none (es : List (ByteSeq × ByteSeq)) (k : ByteSeq)
    (hk : es.lookup k = none) : es.filter (fun kv => kv.1 ≠ k) = es := by
  induction es with
  | nil => rfl
  | cons e es ih =>
    obtain ⟨k1, v1⟩ := e
    rw [List.lookup_cons] at hk
    by_cases hkk : k = k1
    · subst hkk; simp at hk
    · have hne : (k == k1) = false := by simpa using hkk
      rw [hne] at hk
      have hk1 : ¬ k1 = k := fun h => hkk h.symm
      have ih2 := ih hk
      simp only [List.filter_cons, ne_eq, hk1, not_false_eq_true, decide_True, ↓reduceIte]
      simp only [ne_eq] at ih2
      rw [ih2]

theorem Has_reliable (s : KVStore) (k : ByteSeq) (hs : s.Reliable) :
    (s.Has k).1 = .ok (s.get k).isSome ∧ (s.Has k).2.entries = s.entries ∧
      (s.Has k).2.Reliable := by
  obtain ⟨hh, hp⟩ := hs
  unfold KVStore.Has
  cases hf : s.hasFaults with
  | nil => exact ⟨rfl, rfl, by simp [hf], hp⟩
  | cons f rest =>
    have hfn : f = none := hh f (by simp [hf])
    subst hfn
    refine ⟨rfl, rfl, ?_, hp⟩
    intro g hg
    exact hh g (by simp [hf] at hg ⊢; exact Or.inr hg)

theorem Put_reliable (s : KVStore) (k v : ByteSeq) (hs : s.Reliable) :
    (s.Put k v).2.entries = (k, v) :: s.entries.filter (fun kv => kv.1 ≠ k) ∧
      (s.Put k v).2.Reliable := by
  obtain ⟨hh, hp⟩ := hs
  unfold KVStore.Put
  cases hf : s.putFaults with
  | nil => exact ⟨rfl, hh, by simp [hf]⟩
  | cons f rest =>
    have hfn : f = none := hp f (by simp [hf])
    subst hfn
    refine ⟨rfl, hh, ?_⟩
    intro g hg
    exact hp g (by simp [hf] at hg ⊢; exact Or.inr hg)

/-- The accumulator after `marshalAndPut` holds the serialization of the
object alone, whatever the store answers. -/
theorem marshalAndPut_hash (ser : Object → ByteSeq) (digest : ByteSeq → ByteSeq)
    (s : KVStore) (obj : Object) (h : Hash) :
    (marshalAndPut ser digest s obj h).2.2 = ⟨ser obj⟩ := by
  unfold marshalAndPut
  simp only [Hash.Reset, Hash.Write, Hash.Sum, List.nil_append]
  split
  · rfl
  · split <;> rfl

/-- On a fault-free store `marshalAndPut` succeeds and offers the object. -/
theorem marshalAndPut_reliable (ser : Object → ByteSeq) (digest : ByteSeq → ByteSeq)
    (s : KVStore) (obj : Object) (h : Hash) (hs : s.Reliable) :
    (marshalAndPut ser digest s obj h).1 = none ∧
      Offered ser digest [obj] s (marshalAndPut ser digest s obj h).2.1 := by
  obtain ⟨h1, h2, h3⟩ := Has_reliable s (digest (ser obj)) hs
  unfold marshalAndPut Offered offerAll addEntry
  simp only [Hash.Reset, Hash.Write, Hash.Sum, List.nil_append, List.foldl_cons, List.foldl_nil]
  generalize hres : s.Has (digest (ser obj)) = res at h1 h2 h3
  obtain ⟨r, s1⟩ := res
  simp only at h1 h2 h3
  subst h1
  cases hget : (s.get (digest (ser obj))).isSome with
  | true =>
    have hl : (List.lookup (digest (ser obj)) s.entries).isSome = true := hget
    simp [h2, h3, hl]
  | false =>
    have hl : (List.lookup (digest (ser obj)) s.entries).isSome = false := hget
    obtain ⟨p1, p2⟩ := Put_reliable s1 (digest (ser obj)) (ser obj) h3
    have hnone : List.lookup (digest (ser obj)) s.entries = none := by
      simpa using hl
    simp only [Bool.not_false, ↓reduceIte, hl, Bool.false_eq_true]
    refine ⟨trivial, p2, ?_⟩
    rw [p1, h2, filter_ne_of_lookup_none _ _ hnone]

theorem mem_of_lookup_eq_some (es : List (ByteSeq × ByteSeq)) (k v : ByteSeq)
    (h : es.lookup k = some v) : (k, v) ∈ es := by
  induction es with
  | nil => simp at h
  | cons e es ih =>
    obtain ⟨k1, v1⟩ := e
    rw [List.lookup_cons] at h
    by_cases hkk : k = k1
    · subst hkk
      simp at h
      simp [h]
    · have hne : (k == k1) = false := by simpa using hkk
      rw [hne] at h
      exact List.mem_cons_of_mem _ (ih h)

theorem lookup_addEntry_self (es : List (ByteSeq × ByteSeq)) (k v : ByteSeq) :
    ((addEntry es k v).lookup k).isSome = true := by
  unfold addEntry
  by_cases hk : (es.lookup k).isSome = true
  · simp [hk]
  · simp [hk, List.lookup_cons]

theorem lookup_addEntry_of_isSome (es : List (ByteSeq × ByteSeq)) (k v k1 : ByteSeq)
    (h : (es.lookup k1).isSome = true) : (addEntry es k v).lookup k1 = es.lookup k1 := by
  unfold addEntry
  by_cases hk : (es.lookup k).isSome = true
  · simp [hk]
  · have hne : ¬ k1 = k := by
      intro heq
      subst heq
      exact hk h
    have hne2 : (k1 == k) = false := by simpa using hne
    simp [hk, List.lookup_cons, hne2]

theorem mem_addEntry (es : List (ByteSeq × ByteSeq)) (k v : ByteSeq) (kv : ByteSeq × ByteSeq)
    (h : kv ∈ addEntry es k v) : kv ∈ es ∨ kv = (k, v) := by
  unfold addEntry at h
  split at h
  · exact Or.inl h
  · rcases List.mem_cons.mp h with h1 | h1
    · exact Or.inr h1
    · exact Or.inl h1

theorem offerAll_nil (ser : Object → ByteSeq) (digest : ByteSeq → ByteSeq)
    (es : List (ByteSeq × ByteSeq)) : offerAll ser digest [] es = es := rfl

theorem offerAll_cons (ser : Object → ByteSeq) (digest : ByteSeq → ByteSeq)
    (o : Object) (ws : List Object) (es : List (ByteSeq × ByteSeq)) :
    offerAll ser digest (o :: ws) es =
      offerAll ser digest ws (addEntry es (digest (ser o)) (ser o)) := rfl

theorem offerAll_append (ser : Object → ByteSeq) (digest : ByteSeq → ByteSeq)
    (ws1 ws2 : List Object) (es : List (ByteSeq × ByteSeq)) :
    offerAll ser digest (ws1 ++ ws2) es = offerAll ser digest ws2 (offerAll ser digest ws1 es) := by
  simp [offerAll, List.foldl_append]

/-- A key that is present keeps its value whatever is offered. -/
theorem lookup_offerAll_of_isSome (ser : Object → ByteSeq) (digest : ByteSeq → ByteSeq)
    (ws : List Object) (es : List (ByteSeq × ByteSeq)) (k : ByteSeq)
    (h : (es.lookup k).isSome = true) : (offerAll ser digest ws es).lookup k = es.lookup k := by
  induction ws generalizing es with
  | nil => rfl
  | cons o ws ih =>
    rw [offerAll_cons]
    have h1 := lookup_addEntry_of_isSome es (digest (ser o)) (ser o) k h
    rw [ih _ (by rw [h1]; exact h), h1]

/-- An offered object has its key present afterwards. -/
theorem isSome_lookup_offerAll (ser : Object → ByteSeq) (digest : ByteSeq → ByteSeq)
    (ws : List Object) (es : List (ByteSeq × ByteSeq)) (o : Object) (ho : o ∈ ws) :
    ((offerAll ser digest ws es).lookup (digest (ser o))).isSome = true := by
  induction ws generalizing es with
  | nil => simp at ho
  | cons o1 ws ih =>
    rw [offerAll_cons]
    rcases List.mem_cons.mp ho with h1 | h1
    · subst h1
      have h2 := lookup_addEntry_self es (digest (ser o)) (ser o)
      rw [lookup_offerAll_of_isSome _ _ _ _ _ h2]
      exact h2
    · exact ih _ h1

/-- Offering objects whose keys are all present changes nothing. -/
theorem offerAll_eq_self (ser : Object → ByteSeq) (digest : ByteSeq → ByteSeq)
    (ws : List Object) (es : List (ByteSeq × ByteSeq))
    (h : ∀ o ∈ ws, (es.lookup (digest (ser o))).isSome = true) :
    offerAll ser digest ws es = es := by
  induction ws with
  | nil => rfl
  | cons o ws ih =>
    rw [offerAll_cons]
    have h1 : addEntry es (digest (ser o)) (ser o) = es := by
      unfold addEntry
      simp [h o (List.mem_cons_self _ _)]
    rw [h1]
    exact ih (fun o1 ho1 => h o1 (List.mem_cons_of_mem _ ho1))

/-- Offering the same objects a second time changes nothing. -/
theorem offerAll_idem (ser : Object → ByteSeq) (digest : ByteSeq → ByteSeq)
    (ws : List Object) (es : List (ByteSeq × ByteSeq)) :
    offerAll ser digest ws (offerAll ser digest ws es) = offerAll ser digest ws es :=
  offerAll_eq_self ser digest ws _ (fun o ho => isSome_lookup_offerAll ser digest ws es o ho)

/-- Every entry after offering was there before or is an offered object under
the digest of its serialization. -/
theorem mem_offerAll (ser : Object → ByteSeq) (digest : ByteSeq → ByteSeq)
    (ws : List Object) (es : List (ByteSeq × ByteSeq)) (kv : ByteSeq × ByteSeq)
    (h : kv ∈ offerAll ser digest ws es) :
    kv ∈ es ∨ ∃ o ∈ ws, kv = (digest (ser o), ser o) := by
  induction ws generalizing es with
  | nil => exact Or.inl h
  | cons o ws ih =>
    rw [offerAll_cons] at h
    rcases ih _ h with h1 | ⟨o1, ho1, h1⟩
    · rcases mem_addEntry _ _ _ _ h1 with h2 | h2
      · exact Or.inl h2
      · exact Or.inr ⟨o, List.mem_cons_self _ _, h2⟩
    · exact Or.inr ⟨o1, List.mem_cons_of_mem _ ho1, h1⟩

/-- With a collision-free digest and content-addressed entries, an offered
object is afterwards stored, serialized, under the digest of its
serialization. -/
theorem lookup_offerAll_eq (ser : Object → ByteSeq) (digest : ByteSeq → ByteSeq)
    (hinj : Function.Injective digest)
    (ws : List Object) (es : List (ByteSeq × ByteSeq))
    (hca : ∀ kv ∈ es, kv.1 = digest kv.2) (o : Object) (ho : o ∈ ws) :
    (offerAll ser digest ws es).lookup (digest (ser o)) = some (ser o) := by
  have h1 := isSome_lookup_offerAll ser digest ws es o ho
  obtain ⟨v, hv⟩ := Option.isSome_iff_exists.mp h1
  have hmem := mem_of_lookup_eq_some _ _ _ hv
  have hk : digest (ser o) = digest v := by
    rcases mem_offerAll ser digest ws es _ hmem with h2 | ⟨o1, _, h2⟩
    · exact hca _ h2
    · have h3 := congrArg Prod.fst h2
      have h4 := congrArg Prod.snd h2
      simp only at h3 h4
      rw [h3, h4]
  rw [hv, hinj hk]

theorem offered_refl (ser : Object → ByteSeq) (digest : ByteSeq → ByteSeq)
    (s : KVStore) (hs : s.Reliable) : Offered ser digest [] s s := ⟨hs, rfl⟩

theorem offered_trans {ser : Object → ByteSeq} {digest : ByteSeq → ByteSeq}
    {ws1 ws2 : List Object} {s1 s2 s3 : KVStore}
    (h12 : Offered ser digest ws1 s1 s2) (h23 : Offered ser digest ws2 s2 s3) :
    Offered ser digest (ws1 ++ ws2) s1 s3 := by
  refine ⟨h23.1, ?_⟩
  rw [h23.2, h12.2, offerAll_append]

theorem chunkSize_pos : 0 < chunkSize := by decide

theorem windows_of_lt (data : ByteSeq) (seedId : Nat) (h : seedId < data.length) :
    windows data seedId =
      slice data seedId (min (seedId + chunkSize) data.length) ::
        windows data (seedId + chunkSize) := by
  rw [windows]
  simp [h]

theorem windows_of_ge (data : ByteSeq) (seedId : Nat) (h : ¬ seedId < data.length) :
    windows data seedId = [] := by
  rw [windows]
  simp [h]

theorem stop_eq_min (a n : Nat) :
    (if a + chunkSize > n then n else a + chunkSize) = min (a + chunkSize) n := by
  split <;> omega

theorem appendChunks_nil (ser : Object → ByteSeq) (digest : ByteSeq → ByteSeq) (obj : Object) :
    appendChunks ser digest obj [] = obj := by
  simp [appendChunks, ByteSlice.append_empty]

theorem appendChunks_cons (ser : Object → ByteSeq) (digest : ByteSeq → ByteSeq)
    (obj : Object) (w : ByteSeq) (ws : List ByteSeq) :
    appendChunks ser digest obj (w :: ws) =
      appendChunks ser digest
        { Links := obj.Links ++ [chunkLink ser digest w], Data := obj.Data.append tagBlob } ws := by
  simp [appendChunks, ByteSlice.append_append]

theorem hashAfterChunks_cons (ser : Object → ByteSeq) (h : Hash) (w : ByteSeq)
    (ws : List ByteSeq) :
    hashAfterChunks ser h (w :: ws) = hashAfterChunks ser ⟨ser (blob w)⟩ ws := by
  cases ws with
  | nil => simp [hashAfterChunks]
  | cons w1 ws =>
    simp only [hashAfterChunks, List.getLast?_cons_cons]
    cases hgl : (w1 :: ws).getLast? with
    | none => simp at hgl
    | some w2 => rfl

/-- What `sliceAndPut` returns when it returns no error: the object extended
by one link and one tag per window, and the accumulator of the last blob. -/
theorem sliceAndPut_ok (ser : Object → ByteSeq) (digest : ByteSeq → ByteSeq)
    (data : ByteSeq) (k : Nat) :
    ∀ (s : KVStore) (h : Hash) (obj : Object) (seedId : Nat), data.length - seedId = k →
      (sliceAndPut ser digest data s h obj seedId).1 = none →
        (sliceAndPut ser digest data s h obj seedId).2.1 =
            appendChunks ser digest obj (windows data seedId) ∧
          (sliceAndPut ser digest data s h obj seedId).2.2.2 =
            hashAfterChunks ser h (windows data seedId) := by
  induction k using Nat.strong_induction_on with
  | _ k ih =>
    intro s h obj seedId hk
    rw [sliceAndPut]
    by_cases hlt : seedId < data.length
    · rw [windows_of_lt data seedId hlt, appendChunks_cons, hashAfterChunks_cons]
      simp only [hlt, ↓reduceIte, stop_eq_min]
      generalize hm : marshalAndPut ser digest s
        { Links := [], Data := .mk (slice data seedId (min (seedId + chunkSize) data.length)) } h = m
      have hh := marshalAndPut_hash ser digest s
        { Links := [], Data := .mk (slice data seedId (min (seedId + chunkSize) data.length)) } h
      rw [hm] at hh
      obtain ⟨e, s1, h1⟩ := m
      simp only at hh
      subst hh
      cases e with
      | some err => simp
      | none =>
        simp only
        have hpos := chunkSize_pos
        exact ih (data.length - (seedId + chunkSize)) (by omega) s1 _ _ _ rfl
    · rw [windows_of_ge data seedId hlt]
      simp [hlt, appendChunks_nil, hashAfterChunks]

/-- On a fault-free store `sliceAndPut` returns no error and offers one blob
per window. -/
theorem sliceAndPut_reliable (ser : Object → ByteSeq) (digest : ByteSeq → ByteSeq)
    (data : ByteSeq) (k : Nat) :
    ∀ (s : KVStore) (h : Hash) (obj : Object) (seedId : Nat), data.length - seedId = k →
      s.Reliable →
        (sliceAndPut ser digest data s h obj seedId).1 = none ∧
          Offered ser digest ((windows data seedId).map blob) s
            (sliceAndPut ser digest data s h obj seedId).2.2.1 := by
  induction k using Nat.strong_induction_on with
  | _ k ih =>
    intro s h obj seedId hk hs
    rw [sliceAndPut]
    by_cases hlt : seedId < data.length
    · rw [windows_of_lt data seedId hlt]
      simp only [hlt, ↓reduceIte, stop_eq_min]
      rw [List.map_cons]
      obtain ⟨m1, m2⟩ := marshalAndPut_reliable ser digest s
        { Links := [], Data := .mk (slice data seedId (min (seedId + chunkSize) data.length)) } h hs
      generalize hm : marshalAndPut ser digest s
        { Links := [], Data := .mk (slice data seedId (min (seedId + chunkSize) data.length)) } h = m
        at m1 m2
      obtain ⟨e, s1, h1⟩ := m
      simp only at m1 m2
      subst m1
      simp only
      have hpos := chunkSize_pos
      have hlt2 : data.length - (seedId + chunkSize) < k := by omega
      have hrec := fun o => ih (data.length - (seedId + chunkSize)) hlt2 s1 h1 o
        (seedId + chunkSize) rfl m2.1
      have key : ∀ o, Offered ser digest
          (blob (slice data seedId (min (seedId + chunkSize) data.length)) ::
            (windows data (seedId + chunkSize)).map blob) s
          (sliceAndPut ser digest data s1 h1 o (seedId + chunkSize)).2.2.1 := by
        intro o
        have t := offered_trans m2 (hrec o).2
        rw [List.singleton_append] at t
        exact t
      exact ⟨(hrec _).1, key _⟩
    · rw [windows_of_ge data seedId hlt]
      simp only [hlt, ↓reduceIte, List.map_nil]
      exact ⟨trivial, offered_refl ser digest s hs⟩

theorem slice_length (data : ByteSeq) (lo hi : Nat) :
    (slice data lo hi).length = min hi data.length - lo := by
  simp [slice, List.length_drop, List.length_take]

theorem slice_append_drop (data : ByteSeq) (lo hi : Nat) (h : lo ≤ hi) :
    slice data lo hi ++ data.drop hi = data.drop lo := by
  unfold slice
  conv_rhs => rw [← List.take_append_drop hi data]
  by_cases hn : hi ≤ data.length
  · rw [List.drop_append_of_le_length (by rw [List.length_take]; omega)]
  · have h1 : data.take hi = data := List.take_of_length_le (by omega)
    have h2 : data.drop hi = [] := List.drop_of_length_le (by omega)
    rw [h1, h2]
    simp

/-- The windows from offset `seedId`, concatenated, are the data from that
offset on. -/
theorem windows_flatten (data : ByteSeq) (k : Nat) :
    ∀ seedId, data.length - seedId = k → (windows data seedId).flatten = data.drop seedId := by
  induction k using Nat.strong_induction_on with
  | _ k ih =>
    intro seedId hk
    have hpos := chunkSize_pos
    by_cases hlt : seedId < data.length
    · rw [windows_of_lt data seedId hlt, List.flatten_cons,
        ih (data.length - (seedId + chunkSize)) (by omega) (seedId + chunkSize) rfl]
      by_cases hle : seedId + chunkSize ≤ data.length
      · rw [Nat.min_eq_left hle]
        exact slice_append_drop data seedId (seedId + chunkSize) (by omega)
      · rw [Nat.min_eq_right (by omega)]
        have h2 : data.drop (seedId + chunkSize) = data.drop data.length := by
          rw [List.drop_of_length_le (by omega), List.drop_of_length_le (le_refl _)]
        rw [h2]
        exact slice_append_drop data seedId data.length (by omega)
    · rw [windows_of_ge data seedId hlt, List.drop_of_length_le (by omega)]
      rfl

/-- Number of windows from offset `seedId`. -/
theorem windows_length (data : ByteSeq) (k : Nat) :
    ∀ seedId, data.length - seedId = k →
      (windows data seedId).length = (data.length - seedId + chunkSize - 1) / chunkSize := by
  induction k using Nat.strong_induction_on with
  | _ k ih =>
    intro seedId hk
    have hpos := chunkSize_pos
    by_cases hlt : seedId < data.length
    · rw [windows_of_lt data seedId hlt, List.length_cons,
        ih (data.length - (seedId + chunkSize)) (by omega) (seedId + chunkSize) rfl]
      by_cases hle : seedId + chunkSize ≤ data.length
      · have h1 : data.length - seedId + chunkSize - 1 =
            (data.length - (seedId + chunkSize) + chunkSize - 1) + chunkSize := by omega
        rw [h1, Nat.add_div_right _ hpos]
      · have h1 : data.length - (seedId + chunkSize) + chunkSize - 1 = chunkSize - 1 := by omega
        rw [h1, Nat.div_eq_of_lt (by omega)]
        have h2 : data.length - seedId + chunkSize - 1 =
            (data.length - seedId - 1) + chunkSize := by omega
        rw [h2, Nat.add_div_right _ hpos, Nat.div_eq_of_lt (by omega)]
    · rw [windows_of_ge data seedId hlt]
      have h1 : data.length - seedId + chunkSize - 1 = chunkSize - 1 := by omega
      rw [h1, Nat.div_eq_of_lt (by omega)]
      rfl

/-- The `i`-th window from offset `seedId`. -/
theorem windows_getElem? (data : ByteSeq) (i : Nat) :
    ∀ seedId, (windows data seedId)[i]? =
      if seedId + i * chunkSize < data.length then
        some (slice data (seedId + i * chunkSize)
          (min (seedId + (i + 1) * chunkSize) data.length))
      else none := by
  induction i with
  | zero =>
    intro seedId
    by_cases hlt : seedId < data.length
    · have e0 : seedId + 0 * chunkSize = seedId := by omega
      have e1 : seedId + (0 + 1) * chunkSize = seedId + chunkSize := by omega
      rw [windows_of_lt data seedId hlt, List.getElem?_cons_zero, e0, e1, if_pos hlt]
    · have e0 : seedId + 0 * chunkSize = seedId := by omega
      rw [windows_of_ge data seedId hlt, e0, if_neg hlt]
      rfl
  | succ i ih =>
    intro seedId
    have hpos := chunkSize_pos
    have e1 : seedId + (i + 1) * chunkSize = seedId + chunkSize + i * chunkSize := by
      rw [Nat.succ_mul]; omega
    have e2 : seedId + (i + 1 + 1) * chunkSize = seedId + chunkSize + (i + 1) * chunkSize := by
      rw [Nat.succ_mul (i + 1)]; omega
    by_cases hlt : seedId < data.length
    · rw [windows_of_lt data seedId hlt, List.getElem?_cons_succ, ih, e1, e2]
    · rw [windows_of_ge data seedId hlt]
      have h3 : ¬ seedId + (i + 1) * chunkSize < data.length := by omega
      simp [h3]

theorem hashAfterChunks_of_ne_nil (ser : Object → ByteSeq) (h1 h2 : Hash) (ws : List ByteSeq)
    (hws : ws ≠ []) : hashAfterChunks ser h1 ws = hashAfterChunks ser h2 ws := by
  cases ws with
  | nil => exact absurd rfl hws
  | cons w ws => rw [hashAfterChunks_cons, hashAfterChunks_cons]

theorem windows_ne_nil (data : ByteSeq) (h : chunkSize < data.length) : windows data 0 ≠ [] := by
  have hpos := chunkSize_pos
  rw [windows_of_lt data 0 (by omega)]
  exact List.cons_ne_nil _ _

/-- Go `sliceFile` returns the object of the content or an error, and on success
leaves the accumulator of its last blob. -/
theorem sliceFile_ok (ser : Object → ByteSeq) (digest : ByteSeq → ByteSeq)
    (file : File) (s : KVStore) (h : Hash) :
    ((sliceFile ser digest file s h).1 = .ok (fileObject ser digest file.Bytes) ∧
        (sliceFile ser digest file s h).2.2 = fileHash ser file.Bytes) ∨
      ∃ e, (sliceFile ser digest file s h).1 = .err e := by
  unfold sliceFile fileObject fileHash
  by_cases hle : file.Bytes.length ≤ chunkSize
  · simp only [hle, ↓reduceIte]
    have hh := marshalAndPut_hash ser digest s { Links := [], Data := file.Bytes } h
    generalize marshalAndPut ser digest s { Links := [], Data := file.Bytes } h = m at hh
    obtain ⟨e, s1, h1⟩ := m
    simp only at hh
    subst hh
    cases e with
    | some err => exact Or.inr ⟨err, rfl⟩
    | none => exact Or.inl ⟨rfl, rfl⟩
  · simp only [hle, ↓reduceIte]
    have hk := sliceAndPut_ok ser digest file.Bytes.bytes _ s h { Links := [], Data := .nil } 0 rfl
    generalize sliceAndPut ser digest file.Bytes.bytes s h { Links := [], Data := .nil } 0 = m at hk
    obtain ⟨e, o1, s1, h1⟩ := m
    cases e with
    | some err => exact Or.inr ⟨err, rfl⟩
    | none =>
      obtain ⟨k1, k2⟩ := hk rfl
      simp only at k1 k2
      subst k1
      subst k2
      refine Or.inl ⟨rfl, ?_⟩
      have hle2 : ¬ file.Bytes.bytes.length ≤ chunkSize := hle
      exact hashAfterChunks_of_ne_nil ser _ _ _ (windows_ne_nil _ (by omega))

/-- On a fault-free store `sliceFile` succeeds and offers the blobs of the
content. -/
theorem sliceFile_reliable (ser : Object → ByteSeq) (digest : ByteSeq → ByteSeq)
    (file : File) (s : KVStore) (h : Hash) (hs : s.Reliable) :
    (sliceFile ser digest file s h).1 = .ok (fileObject ser digest file.Bytes) ∧
      (sliceFile ser digest file s h).2.2 = fileHash ser file.Bytes ∧
      Offered ser digest (fileBlobs file.Bytes) s (sliceFile ser digest file s h).2.1 := by
  have hok := sliceFile_ok ser digest file s h
  have hoff : (∀ e, (sliceFile ser digest file s h).1 ≠ .err e) ∧
      Offered ser digest (fileBlobs file.Bytes) s (sliceFile ser digest file s h).2.1 := by
    unfold sliceFile fileBlobs
    by_cases hle : file.Bytes.length ≤ chunkSize
    · simp only [hle, ↓reduceIte]
      obtain ⟨m1, m2⟩ := marshalAndPut_reliable ser digest s
        { Links := [], Data := file.Bytes } h hs
      generalize marshalAndPut ser digest s { Links := [], Data := file.Bytes } h = m at m1 m2
      obtain ⟨e, s1, h1⟩ := m
      simp only at m1 m2
      subst m1
      exact ⟨fun e he => by simp at he, m2⟩
    · simp only [hle, ↓reduceIte]
      obtain ⟨m1, m2⟩ := sliceAndPut_reliable ser digest file.Bytes.bytes _ s h
        { Links := [], Data := .nil } 0 rfl hs
      generalize sliceAndPut ser digest file.Bytes.bytes s h { Links := [], Data := .nil } 0 = m at m1 m2
      obtain ⟨e, o1, s1, h1⟩ := m
      simp only at m1 m2
      subst m1
      exact ⟨fun e he => by simp at he, m2⟩
  rcases hok with ⟨h1, h2⟩ | ⟨e, he⟩
  · exact ⟨h1, h2, hoff.2⟩
  · exact absurd he (hoff.1 e)

/-- Induction on lists of nodes: on the children of a directory before the
directory, and on the rest of the list. -/
theorem nodes_induction {Q : List Node → Prop} (hnil : Q [])
    (hfile : ∀ f ns, Q ns → Q (.file f :: ns))
    (hdir : ∀ name size cs ns, Q cs → Q ns → Q (.dir name size cs :: ns))
    (hother : ∀ d name size ns, Q ns → Q (.other d name size :: ns)) :
    ∀ cs, Q cs :=
  @Node.rec_1 (fun n => ∀ ns, Q ns → Q (n :: ns)) Q
    (fun f ns h => hfile f ns h)
    (fun name size cs hcs ns h => hdir name size cs ns hcs h)
    (fun d name size ns h => hother d name size ns h)
    hnil
    (fun _ ns hn hns => hn ns hns)

theorem linksOf_eq_map (ser : Object → ByteSeq) (digest : ByteSeq → ByteSeq) (cs : List Node) :
    linksOf ser digest cs = cs.map (linkOf ser digest) := by
  induction cs with
  | nil => simp [linksOf]
  | cons n ns ih => simp [linksOf, ih]

theorem tagsOf_cons (n : Node) (ns : List Node) : tagsOf (n :: ns) = tagOf n ++ tagsOf ns := by
  simp [tagsOf]

theorem sliceDirLoop_nil (ser : Object → ByteSeq) (digest : ByteSeq → ByteSeq)
    (tree : Object) (s : KVStore) (h : Hash) :
    sliceDirLoop ser digest [] tree s h = (.ok tree, s, h) := by
  rw [sliceDirLoop]

theorem sliceDirLoop_file (ser : Object → ByteSeq) (digest : ByteSeq → ByteSeq)
    (f : File) (rest : List Node) (tree : Object) (s : KVStore) (h : Hash) :
    sliceDirLoop ser digest (.file f :: rest) tree s h =
      match sliceFile ser digest f s h with
      | (.ok obj, s1, h1) =>
        sliceDirLoop ser digest rest
          { Links := tree.Links ++
              [{ Name := f.Name, Hash := (generateMerkleRoot ser digest obj h1).1, Size := intOfUint64 f.Size }],
            Data := tree.Data.append tagLink }
          s1 (generateMerkleRoot ser digest obj h1).2
      | other => other := by
  rw [sliceDirLoop]
  simp only [Node.Type, Node.asFile, ↓reduceIte]

theorem sliceDirLoop_dir (ser : Object → ByteSeq) (digest : ByteSeq → ByteSeq)
    (name : String) (size : Nat) (cs rest : List Node) (tree : Object) (s : KVStore) (h : Hash) :
    sliceDirLoop ser digest (.dir name size cs :: rest) tree s h =
      match sliceDirFinish ser digest
          (sliceDirLoop ser digest cs { Links := [], Data := .nil } s h) with
      | (.ok obj, s1, h1) =>
        sliceDirLoop ser digest rest
          { Links := tree.Links ++
              [{ Name := name, Hash := (generateMerkleRoot ser digest obj h1).1, Size := intOfUint64 size }],
            Data := tree.Data.append tagTree }
          s1 (generateMerkleRoot ser digest obj h1).2
      | other => other := by
  rw [sliceDirLoop]
  simp only [Node.Type, Node.asDir, sliceSubDir, reduceCtorEq, ↓reduceIte]

theorem sliceDirLoop_other (ser : Object → ByteSeq) (digest : ByteSeq → ByteSeq)
    (d : NodeType) (name : String) (size : Nat) (rest : List Node) (tree : Object)
    (s : KVStore) (h : Hash) :
    sliceDirLoop ser digest (.other d name size :: rest) tree s h = (.panic, s, h) := by
  rw [sliceDirLoop]
  cases d <;> simp [Node.Type, Node.asFile, Node.asDir]

theorem dirSpec_of_loopSpec (ser : Object → ByteSeq) (digest : ByteSeq → ByteSeq)
    (cs : List Node) (hl : LoopSpec ser digest cs) : DirSpec ser digest cs := by
  intro s h
  obtain ⟨ha, hb, hc⟩ := hl { Links := [], Data := .nil } s h
  unfold dirWrites
  generalize sliceDirLoop ser digest cs { Links := [], Data := .nil } s h = out at ha hb hc
  obtain ⟨r, s1, h1⟩ := out
  cases r with
  | ok t =>
    obtain ⟨ht, hwf⟩ := ha t rfl
    have ht2 : t = treeOf ser digest cs := by
      rw [ht]
      simp [treeOf, treeData]
    have hh := marshalAndPut_hash ser digest s1 t h1
    have hrel := marshalAndPut_reliable ser digest s1 t h1
    simp only [sliceDirFinish]
    generalize marshalAndPut ser digest s1 t h1 = m at hh hrel
    obtain ⟨e, s2, h2⟩ := m
    simp only at hh hrel
    subst hh
    cases e with
    | some err =>
      refine ⟨fun t2 h2 => by simp at h2, fun h2 => by simp at h2, ?_⟩
      intro hs
      have := (hrel (hc hs).2.1).1
      simp at this
    | none =>
      refine ⟨?_, fun h2 => by simp at h2, ?_⟩
      · intro t2 h2
        simp only [Result.ok.injEq] at h2
        subst h2
        exact ⟨ht2, hwf, rfl⟩
      · intro hs
        refine ⟨fun e he => by simp at he, ?_⟩
        simp only [hwf, ↓reduceIte]
        have h3 := (hrel (hc hs).2.1).2
        rw [ht2] at h3
        exact offered_trans (hc hs).2 h3
  | err e =>
    simp only [sliceDirFinish]
    refine ⟨fun t2 h2 => by simp at h2, fun h2 => by simp at h2, ?_⟩
    intro hs
    exact absurd rfl ((hc hs).1 e)
  | panic =>
    simp only [sliceDirFinish]
    have hwf := hb rfl
    refine ⟨fun t2 h2 => by simp at h2, fun _ => hwf, ?_⟩
    intro hs
    refine ⟨fun e he => by simp at he, ?_⟩
    simp only [hwf, Bool.false_eq_true, ↓reduceIte]
    exact (hc hs).2

theorem generateMerkleRoot_eq (ser : Object → ByteSeq) (digest : ByteSeq → ByteSeq)
    (obj : Object) (h : Hash) :
    generateMerkleRoot ser digest obj h =
      (digest (h.written ++ ser obj), ⟨h.written ++ ser obj⟩) := rfl

theorem loopSpec_nil (ser : Object → ByteSeq) (digest : ByteSeq → ByteSeq) :
    LoopSpec ser digest [] := by
  intro tree s h
  rw [sliceDirLoop_nil]
  refine ⟨?_, fun h2 => by simp at h2, ?_⟩
  · intro t ht
    simp only [Result.ok.injEq] at ht
    subst ht
    simp [linksOf, tagsOf, allWellFormed, ByteSlice.append_empty]
  · intro hs
    exact ⟨fun e he => by simp at he, by rw [listWrites]; exact offered_refl ser digest s hs⟩

theorem loopSpec_other (ser : Object → ByteSeq) (digest : ByteSeq → ByteSeq)
    (d : NodeType) (name : String) (size : Nat) (ns : List Node) :
    LoopSpec ser digest (.other d name size :: ns) := by
  intro tree s h
  rw [sliceDirLoop_other]
  refine ⟨fun t ht => by simp at ht, fun _ => by simp [allWellFormed, Node.WellFormed], ?_⟩
  intro hs
  have hw : listWrites ser digest (.other d name size :: ns) = [] := by
    simp [listWrites, nodeWrites, Node.WellFormed]
  rw [hw]
  exact ⟨fun e he => by simp at he, offered_refl ser digest s hs⟩

theorem loopSpec_file (ser : Object → ByteSeq) (digest : ByteSeq → ByteSeq)
    (f : File) (ns : List Node) (ih : LoopSpec ser digest ns) :
    LoopSpec ser digest (.file f :: ns) := by
  have hws := ih
  have hw : listWrites ser digest (.file f :: ns) =
      fileBlobs f.Bytes ++ listWrites ser digest ns := by
    simp [listWrites, nodeWrites, Node.WellFormed]
  intro tree s h
  rw [sliceDirLoop_file, hw]
  have hok := sliceFile_ok ser digest f s h
  have hrel := sliceFile_reliable ser digest f s h
  generalize sliceFile ser digest f s h = out at hok hrel
  obtain ⟨r, s1, h1⟩ := out
  simp only at hok hrel
  rcases hok with ⟨h2, h3⟩ | ⟨e, he⟩
  · subst h2
    subst h3
    simp only [generateMerkleRoot_eq]
    obtain ⟨ha, hb, hc⟩ := hws
      ⟨tree.Links ++ [linkOf ser digest (.file f)], tree.Data.append tagLink⟩ s1
      ⟨(fileHash ser f.Bytes).written ++ ser (fileObject ser digest f.Bytes)⟩
    simp only [linkOf] at ha hb hc
    refine ⟨?_, ?_, ?_⟩
    · intro t ht
      obtain ⟨h4, h5⟩ := ha t ht
      refine ⟨?_, by simp [allWellFormed, Node.WellFormed, h5]⟩
      rw [h4, tagsOf_cons]
      simp [linksOf, linkOf, tagOf, Node.Type, List.append_assoc, ByteSlice.append_append]
    · intro hp
      simp [allWellFormed, Node.WellFormed, hb hp]
    · intro hs
      obtain ⟨-, -, h6⟩ := hrel hs
      obtain ⟨h7, h8⟩ := hc h6.1
      exact ⟨h7, offered_trans h6 h8⟩
  · subst he
    refine ⟨fun t ht => by simp at ht, fun hp => by simp at hp, ?_⟩
    intro hs
    have := (hrel hs).1
    simp at this

theorem loopSpec_dir (ser : Object → ByteSeq) (digest : ByteSeq → ByteSeq)
    (name : String) (size : Nat) (cs ns : List Node)
    (ihc : LoopSpec ser digest cs) (ih : LoopSpec ser digest ns) :
    LoopSpec ser digest (.dir name size cs :: ns) := by
  have hwd := dirSpec_of_loopSpec ser digest cs ihc
  have hws := ih
  have hw : listWrites ser digest (.dir name size cs :: ns) =
      if allWellFormed cs = true then dirWrites ser digest cs ++ listWrites ser digest ns
      else dirWrites ser digest cs := by
    by_cases hwf : allWellFormed cs = true <;>
      simp [listWrites, nodeWrites, Node.WellFormed, dirWrites, treeOf, hwf]
  intro tree s h
  rw [sliceDirLoop_dir, hw]
  obtain ⟨da, db, dc⟩ := hwd s h
  generalize sliceDirFinish ser digest
    (sliceDirLoop ser digest cs { Links := [], Data := .nil } s h) = out at da db dc
  obtain ⟨r, s1, h1⟩ := out
  simp only at da db dc
  cases r with
  | ok t =>
    obtain ⟨h2, hwf, h3⟩ := da t rfl
    subst h2
    subst h3
    simp only [generateMerkleRoot_eq]
    obtain ⟨ha, hb, hc⟩ := hws
      ⟨tree.Links ++ [linkOf ser digest (.dir name size cs)], tree.Data.append tagTree⟩ s1
      ⟨ser (treeOf ser digest cs) ++ ser (treeOf ser digest cs)⟩
    simp only [linkOf] at ha hb hc
    simp only [treeOf] at ha hb hc ⊢
    refine ⟨?_, ?_, ?_⟩
    · intro t ht
      obtain ⟨h4, h5⟩ := ha t ht
      refine ⟨?_, by simp [allWellFormed, Node.WellFormed, h5, hwf]⟩
      rw [h4, tagsOf_cons]
      simp [linksOf, linkOf, tagOf, Node.Type, treeOf, List.append_assoc,
        ByteSlice.append_append]
    · intro hp
      simp [allWellFormed, Node.WellFormed, hb hp]
    · intro hs
      obtain ⟨-, h6⟩ := dc hs
      obtain ⟨h7, h8⟩ := hc h6.1
      simp only [hwf, ↓reduceIte]
      exact ⟨h7, offered_trans h6 h8⟩
  | err e =>
    refine ⟨fun t ht => by simp at ht, fun hp => by simp at hp, ?_⟩
    intro hs
    exact absurd rfl ((dc hs).1 e)
  | panic =>
    have hwf := db rfl
    refine ⟨fun t ht => by simp at ht, fun _ => by simp [allWellFormed, Node.WellFormed, hwf], ?_⟩
    intro hs
    simp only [hwf, Bool.false_eq_true, ↓reduceIte]
    exact ⟨fun e he => by simp at he, (dc hs).2⟩

/-- The loop of `sliceDir` meets its specification on every list of nodes. -/
theorem loopSpec (ser : Object → ByteSeq) (digest : ByteSeq → ByteSeq) :
    ∀ cs, LoopSpec ser digest cs :=
  nodes_induction (loopSpec_nil ser digest)
    (fun f ns ih => loopSpec_file ser digest f ns ih)
    (fun name size cs ns ihc ih => loopSpec_dir ser digest name size cs ns ihc ih)
    (fun d name size ns _ => loopSpec_other ser digest d name size ns)

/-- Go `sliceDir` meets its specification on every directory. -/
theorem dirSpec (ser : Object → ByteSeq) (digest : ByteSeq → ByteSeq) (cs : List Node) :
    DirSpec ser digest cs :=
  dirSpec_of_loopSpec ser digest cs (loopSpec ser digest cs)

theorem addFileToStore_ok (ser : Object → ByteSeq) (digest : ByteSeq → ByteSeq)
    (file : File) (s : KVStore) (h : Hash) :
    (addFileToStore ser digest file s h).1 =
        .ok (digest (ser (fileObject ser digest file.Bytes) ++
          ser (fileObject ser digest file.Bytes))) ∨
      ∃ e, (addFileToStore ser digest file s h).1 = .err e := by
  unfold addFileToStore
  have hok := sliceFile_ok ser digest file s h
  generalize sliceFile ser digest file s h = out at hok
  obtain ⟨r, s1, h1⟩ := out
  simp only at hok
  rcases hok with ⟨h2, -⟩ | ⟨e, he⟩
  · subst h2
    simp only
    have hh := marshalAndPut_hash ser digest s1 (fileObject ser digest file.Bytes) h1
    generalize marshalAndPut ser digest s1 (fileObject ser digest file.Bytes) h1 = m at hh
    obtain ⟨e, s2, h2⟩ := m
    simp only at hh
    subst hh
    cases e with
    | some err => exact Or.inr ⟨err, rfl⟩
    | none => exact Or.inl rfl
  · subst he
    exact Or.inr ⟨e, rfl⟩

theorem addFileToStore_reliable (ser : Object → ByteSeq) (digest : ByteSeq → ByteSeq)
    (file : File) (s : KVStore) (h : Hash) (hs : s.Reliable) :
    (addFileToStore ser digest file s h).1 =
        .ok (digest (ser (fileObject ser digest file.Bytes) ++
          ser (fileObject ser digest file.Bytes))) ∧
      Offered ser digest (fileBlobs file.Bytes ++ [fileObject ser digest file.Bytes]) s
        (addFileToStore ser digest file s h).2.1 := by
  unfold addFileToStore
  obtain ⟨h2, -, h3⟩ := sliceFile_reliable ser digest file s h hs
  generalize sliceFile ser digest file s h = out at h2 h3
  obtain ⟨r, s1, h1⟩ := out
  simp only at h2 h3
  subst h2
  simp only
  have hh := marshalAndPut_hash ser digest s1 (fileObject ser digest file.Bytes) h1
  obtain ⟨m1, m2⟩ := marshalAndPut_reliable ser digest s1
    (fileObject ser digest file.Bytes) h1 h3.1
  generalize marshalAndPut ser digest s1 (fileObject ser digest file.Bytes) h1 = m at hh m1 m2
  obtain ⟨e, s2, h2⟩ := m
  simp only at hh m1 m2
  subst hh
  subst m1
  exact ⟨rfl, offered_trans h3 m2⟩

/-- What `addDirToStore` does on a directory with children `cs`. -/
theorem addDirToStore_spec (ser : Object → ByteSeq) (digest : ByteSeq → ByteSeq)
    (name : String) (size : Nat) (cs : List Node) (s : KVStore) (h : Hash) :
    (∀ r, (addDirToStore ser digest ⟨name, size, cs⟩ s h).1 = .ok r →
      r = digest (ser (treeOf ser digest cs) ++ ser (treeOf ser digest cs)) ∧
        allWellFormed cs = true) ∧
    ((addDirToStore ser digest ⟨name, size, cs⟩ s h).1 = .panic →
      allWellFormed cs = false) ∧
    (s.Reliable →
      (∀ e, (addDirToStore ser digest ⟨name, size, cs⟩ s h).1 ≠ .err e) ∧
      Offered ser digest (addWrites ser digest (.dir name size cs)) s
        (addDirToStore ser digest ⟨name, size, cs⟩ s h).2.1) := by
  unfold addDirToStore sliceDir addWrites
  obtain ⟨da, db, dc⟩ := dirSpec ser digest cs s h
  simp only
  generalize sliceDirFinish ser digest
    (sliceDirLoop ser digest cs { Links := [], Data := .nil } s h) = out at da db dc
  obtain ⟨r, s1, h1⟩ := out
  simp only at da db dc
  cases r with
  | ok t =>
    obtain ⟨h2, hwf, h3⟩ := da t rfl
    subst h2
    subst h3
    simp only [hwf, ↓reduceIte]
    have hh := marshalAndPut_hash ser digest s1 (treeOf ser digest cs)
      ⟨ser (treeOf ser digest cs)⟩
    have hrel := marshalAndPut_reliable ser digest s1 (treeOf ser digest cs)
      ⟨ser (treeOf ser digest cs)⟩
    generalize marshalAndPut ser digest s1 (treeOf ser digest cs)
      ⟨ser (treeOf ser digest cs)⟩ = m at hh hrel
    obtain ⟨e, s2, h2⟩ := m
    simp only at hh hrel
    subst hh
    cases e with
    | some err =>
      refine ⟨fun r hr => by simp at hr, fun hp => by simp at hp, ?_⟩
      intro hs
      have := (hrel (dc hs).2.1).1
      simp at this
    | none =>
      refine ⟨?_, fun hp => by simp at hp, ?_⟩
      · intro r hr
        simp only [Result.ok.injEq] at hr
        subst hr
        exact ⟨rfl, trivial⟩
      · intro hs
        refine ⟨fun e he => by simp at he, ?_⟩
        exact offered_trans (dc hs).2 (hrel (dc hs).2.1).2
  | err e =>
    refine ⟨fun r hr => by simp at hr, fun hp => by simp at hp, ?_⟩
    intro hs
    exact absurd rfl ((dc hs).1 e)
  | panic =>
    have hwf := db rfl
    refine ⟨fun r hr => by simp at hr, fun _ => hwf, ?_⟩
    intro hs
    simp only [hwf, Bool.false_eq_true, ↓reduceIte]
    exact ⟨fun e he => by simp at he, (dc hs).2⟩

/-- What `Add` does on a node: whatever the store, it returns `addResult` or
an error; on a fault-free store it returns `addResult` and offers the objects
`addWrites`. -/
theorem Add_spec (ser : Object → ByteSeq) (digest : ByteSeq → ByteSeq) (node : Node)
    (s : KVStore) (h : Hash) :
    ((Add ser digest s node h).1 = addResult ser digest node ∨
      ∃ e, (Add ser digest s node h).1 = .err e) ∧
    (s.Reliable → (Add ser digest s node h).1 = addResult ser digest node ∧
      Offered ser digest (addWrites ser digest node) s (Add ser digest s node h).2.1) := by
  cases node with
  | file f =>
    simp only [Add, Node.Type, Node.asFile, ↓reduceIte, addResult, addWrites]
    exact ⟨addFileToStore_ok ser digest f s h, addFileToStore_reliable ser digest f s h⟩
  | dir name size cs =>
    obtain ⟨da, db, dc⟩ := addDirToStore_spec ser digest name size cs s h
    simp only [Add, Node.Type, Node.asDir, reduceCtorEq, ↓reduceIte, addResult]
    generalize addDirToStore ser digest ⟨name, size, cs⟩ s h = out at da db dc
    obtain ⟨r, s1, h1⟩ := out
    simp only at da db dc
    cases r with
    | ok v =>
      obtain ⟨h2, hwf⟩ := da v rfl
      subst h2
      simp only [hwf, ↓reduceIte, true_or, true_and]
      intro hs
      exact (dc hs).2
    | err e =>
      refine ⟨Or.inr ⟨e, rfl⟩, ?_⟩
      intro hs
      exact absurd rfl ((dc hs).1 e)
    | panic =>
      have hwf := db rfl
      simp only [hwf, Bool.false_eq_true, ↓reduceIte, true_or, true_and]
      intro hs
      exact (dc hs).2
  | other d name size =>
    cases d
    · simp only [Add, Node.Type, Node.asFile, ↓reduceIte, addResult, addWrites, true_or,
        true_and]
      intro hs
      exact offered_refl ser digest s hs
    · simp only [Add, Node.Type, Node.asDir, reduceCtorEq, ↓reduceIte, addResult, addWrites,
        true_or, true_and]
      intro hs
      exact offered_refl ser digest s hs

theorem fileObject_small (ser : Object → ByteSeq) (digest : ByteSeq → ByteSeq) (data : ByteSlice)
    (hn : data.length ≤ chunkSize) :
    fileObject ser digest data = { Links := [], Data := data } := by
  simp [fileObject, hn]

theorem fileBlobs_small (data : ByteSlice) (hn : data.length ≤ chunkSize) :
    fileBlobs data = [{ Links := [], Data := data }] := by
  simp [fileBlobs, hn]

theorem fileHash_small (ser : Object → ByteSeq) (data : ByteSlice)
    (hn : data.length ≤ chunkSize) :
    fileHash ser data = ⟨ser { Links := [], Data := data }⟩ := by
  simp [fileHash, hn]

theorem fileObject_large (ser : Object → ByteSeq) (digest : ByteSeq → ByteSeq) (data : ByteSlice)
    (hn : chunkSize < data.length) :
    fileObject ser digest data =
      appendChunks ser digest { Links := [], Data := .nil } (windows data.bytes 0) := by
  simp [fileObject, Nat.not_le.mpr hn]

theorem fileBlobs_large (data : ByteSlice) (hn : chunkSize < data.length) :
    fileBlobs data = (windows data.bytes 0).map blob := by
  simp [fileBlobs, Nat.not_le.mpr hn]

theorem offerAll_pair_self (ser : Object → ByteSeq) (digest : ByteSeq → ByteSeq) (o : Object)
    (es : List (ByteSeq × ByteSeq)) :
    offerAll ser digest [o, o] es = addEntry es (digest (ser o)) (ser o) := by
  rw [offerAll_cons, offerAll_cons, offerAll_nil]
  have h1 := lookup_addEntry_self es (digest (ser o)) (ser o)
  conv_lhs => rw [addEntry]
  simp [h1]

theorem lt_count_iff (n i : Nat) : i < (n + chunkSize - 1) / chunkSize ↔ i * chunkSize < n := by
  have hpos := chunkSize_pos
  rw [Nat.lt_iff_add_one_le, Nat.le_div_iff_mul_le hpos, Nat.succ_mul]
  omega

theorem window_length (data : ByteSeq) (i : Nat) :
    (window data i).length = min ((i + 1) * chunkSize) data.length - i * chunkSize := by
  unfold window
  rw [slice_length]
  congr 1
  omega

theorem windows_zero_getElem? (data : ByteSeq) (i : Nat) :
    (windows data 0)[i]? =
      if i * chunkSize < data.length then some (window data i) else none := by
  rw [windows_getElem? data i 0]
  unfold window
  rw [Nat.zero_add, Nat.zero_add]

theorem windows_zero_length (data : ByteSeq) :
    (windows data 0).length = (data.length + chunkSize - 1) / chunkSize := by
  rw [windows_length data data.length 0 rfl]
  rfl

theorem windows_eq_map_range (data : ByteSeq) :
    windows data 0 =
      (List.range ((data.length + chunkSize - 1) / chunkSize)).map (window data) := by
  apply List.ext_getElem?
  intro i
  rw [windows_zero_getElem?, List.getElem?_map]
  by_cases hi : i * chunkSize < data.length
  · rw [if_pos hi, List.getElem?_range ((lt_count_iff _ _).mpr hi)]
    rfl
  · rw [if_neg hi, List.getElem?_eq_none]
    · rfl
    · rw [List.length_range]
      exact Nat.le_of_not_lt (fun hlt => hi ((lt_count_iff _ _).mp hlt))

theorem sum_map_length_cast (ws : List ByteSeq) :
    (ws.map (fun w => (w.length : Int))).sum = ((ws.map List.length).sum : Nat) := by
  induction ws with
  | nil => rfl
  | cons w ws ih =>
    rw [List.map_cons, List.sum_cons, ih, List.map_cons, List.sum_cons]
    push_cast
    rfl

theorem fileObject_links (ser : Object → ByteSeq) (digest : ByteSeq → ByteSeq) (data : ByteSlice)
    (hn : chunkSize < data.length) :
    (fileObject ser digest data).Links = (windows data.bytes 0).map (chunkLink ser digest) := by
  rw [fileObject_large ser digest data hn]
  simp only [appendChunks, List.nil_append]

theorem linkOf_name_size (ser : Object → ByteSeq) (digest : ByteSeq → ByteSeq) (n : Node) :
    (linkOf ser digest n).Name = n.Name ∧ (linkOf ser digest n).Size = intOfUint64 n.Size := by
  cases n <;> simp [linkOf, Node.Name, Node.Size]

theorem sliceDir_ok (ser : Object → ByteSeq) (digest : ByteSeq → ByteSeq)
    (dir : Dir) (s : KVStore) (h : Hash) (t : Object)
    (hok : (sliceDir ser digest dir s h).1 = .ok t) :
    t = treeOf ser digest dir.It ∧ allWellFormed dir.It = true ∧
      (sliceDir ser digest dir s h).2.2 = ⟨ser t⟩ :=
  (dirSpec ser digest dir.It s h).1 t hok

theorem sliceDir_reliable (ser : Object → ByteSeq) (digest : ByteSeq → ByteSeq)
    (dir : Dir) (s : KVStore) (h : Hash) (hs : s.Reliable) (hwf : allWellFormed dir.It = true) :
    (sliceDir ser digest dir s h).1 = .ok (treeOf ser digest dir.It) := by
  obtain ⟨da, db, dc⟩ := dirSpec ser digest dir.It s h
  unfold sliceDir
  generalize sliceDirFinish ser digest
    (sliceDirLoop ser digest dir.It { Links := [], Data := .nil } s h) = out at da db dc
  obtain ⟨r, s1, h1⟩ := out
  cases r with
  | ok t => rw [(da t rfl).1]
  | err e => exact absurd rfl ((dc hs).1 e)
  | panic =>
    have := db rfl
    rw [hwf] at this
    simp at this

theorem Has_of_hasFaults (s : KVStore) (k : ByteSeq) (hs : ∀ f ∈ s.hasFaults, f = none) :
    (s.Has k).1 = .ok (s.get k).isSome ∧ (∀ f ∈ (s.Has k).2.hasFaults, f = none) := by
  unfold KVStore.Has
  cases hf : s.hasFaults with
  | nil => exact ⟨rfl, by simp⟩
  | cons f rest =>
    have hfn : f = none := hs f (by simp [hf])
    subst hfn
    refine ⟨rfl, ?_⟩
    intro g hg
    exact hs g (by simp [hf] at hg ⊢; exact Or.inr hg)

theorem Put_hasFaults (s : KVStore) (k v : ByteSeq) : (s.Put k v).2.hasFaults = s.hasFaults := by
  unfold KVStore.Put
  split <;> rfl

/-- When no existence check is scheduled to fail, `marshalAndPut` returns no
error (whatever happens to the write). -/
theorem marshalAndPut_of_hasFaults (ser : Object → ByteSeq) (digest : ByteSeq → ByteSeq)
    (s : KVStore) (obj : Object) (h : Hash) (hs : ∀ f ∈ s.hasFaults, f = none) :
    (marshalAndPut ser digest s obj h).1 = none ∧
      (∀ f ∈ (marshalAndPut ser digest s obj h).2.1.hasFaults, f = none) := by
  obtain ⟨h1, h2⟩ := Has_of_hasFaults s (digest (ser obj)) hs
  unfold marshalAndPut
  simp only [Hash.Reset, Hash.Write, Hash.Sum, List.nil_append]
  generalize s.Has (digest (ser obj)) = res at h1 h2
  obtain ⟨r, s1⟩ := res
  simp only at h1 h2
  subst h1
  simp only
  split
  · refine ⟨rfl, ?_⟩
    rw [Put_hasFaults]
    exact h2
  · exact ⟨rfl, h2⟩

/-- On a fault-free store a second run of `Add` on the same node returns what
the first returned and changes no entry. -/
theorem Add_twice (ser : Object → ByteSeq) (digest : ByteSeq → ByteSeq)
    (node : Node) (s : KVStore) (h : Hash) (hs : s.Reliable) :
    (Add ser digest (Add ser digest s node h).2.1 node (Add ser digest s node h).2.2).1 =
        (Add ser digest s node h).1 ∧
      (Add ser digest (Add ser digest s node h).2.1 node (Add ser digest s node h).2.2).2.1.entries =
        (Add ser digest s node h).2.1.entries := by
  obtain ⟨h1, h2⟩ := (Add_spec ser digest node s h).2 hs
  obtain ⟨h3, h4⟩ := (Add_spec ser digest node (Add ser digest s node h).2.1
    (Add ser digest s node h).2.2).2 h2.1
  refine ⟨by rw [h3, h1], ?_⟩
  rw [h4.2, h2.2, offerAll_idem]

theorem bigData_length : bigData.length = chunkSize + 1 := by
  simp [bigData]

theorem bigFile_large : chunkSize < bigFile.Bytes.length := by
  show chunkSize < (ByteSlice.mk bigData).length
  rw [ByteSlice.length_mk, bigData_length]
  omega

theorem slice_replicate (n lo hi : Nat) (a : Byte) :
    slice (List.replicate n a) lo hi = List.replicate (min hi n - lo) a := by
  unfold slice
  rw [List.take_replicate, List.drop_replicate]

/-- The two windows of `bigData`: `256*1024` bytes, then one byte. -/
theorem windows_bigData : windows bigData 0 = [List.replicate chunkSize 0, [0]] := by
  have hpos := chunkSize_pos
  have hlen := bigData_length
  have h1 : (0 : Nat) < bigData.length := by omega
  have h2 : 0 + chunkSize < bigData.length := by omega
  have h3 : ¬ 0 + chunkSize + chunkSize < bigData.length := by omega
  rw [windows_of_lt bigData 0 h1, windows_of_lt bigData (0 + chunkSize) h2,
    windows_of_ge bigData (0 + chunkSize + chunkSize) h3, hlen]
  unfold bigData
  rw [slice_replicate, slice_replicate]
  have e1 : min (min (0 + chunkSize) (chunkSize + 1)) (chunkSize + 1) - 0 = chunkSize := by
    omega
  have e2 : min (min (0 + chunkSize + chunkSize) (chunkSize + 1)) (chunkSize + 1) -
      (0 + chunkSize) = 1 := by omega
  rw [e1, e2]
  rfl

theorem fileObject_bigData (ser : Object → ByteSeq) (digest : ByteSeq → ByteSeq) :
    fileObject ser digest (.mk bigData) = bigObject ser digest := by
  have hl : chunkSize < (ByteSlice.mk bigData).length := bigFile_large
  rw [fileObject_large ser digest (.mk bigData) hl, ByteSlice.bytes_mk, windows_bigData]
  have ht : ByteSlice.append .nil (tagBlob ++ tagBlob) = .mk (tagBlob ++ tagBlob) := by decide
  simp only [appendChunks, chunkLink, blob, bigObject, List.map_cons, List.map_nil,
    List.nil_append, List.flatten_cons, List.flatten_nil, List.append_nil,
    List.length_replicate, List.length_singleton, Nat.cast_one, ht]

theorem fileHash_bigData (ser : Object → ByteSeq) :
    fileHash ser (.mk bigData) = ⟨ser { Links := [], Data := .mk [0] }⟩ := by
  have hl : ¬ (ByteSlice.mk bigData).length ≤ chunkSize := Nat.not_le.mpr bigFile_large
  unfold fileHash
  rw [if_neg hl, ByteSlice.bytes_mk, windows_bigData]
  rfl

theorem fileBlobs_bigData :
    fileBlobs (.mk bigData) =
      [{ Links := [], Data := .mk (List.replicate chunkSize 0) }, { Links := [], Data := .mk [0] }] := by
  have hl : chunkSize < (ByteSlice.mk bigData).length := bigFile_large
  rw [fileBlobs_large (.mk bigData) hl, ByteSlice.bytes_mk, windows_bigData]
  rfl

theorem lenSer_cons (o : Object) :
    lenSer o = o.Links.length :: ((o.Links.map encLink).flatten ++ encData o.Data) := rfl

theorem lenSer_links_length (o1 o2 : Object) (z1 z2 : ByteSeq)
    (h : lenSer o1 ++ z1 = lenSer o2 ++ z2) : o1.Links.length = o2.Links.length := by
  rw [lenSer_cons, lenSer_cons, List.cons_append, List.cons_append] at h
  exact (List.cons.inj h).1

/-- A key that is absent and is not the key of an offered object stays
absent. -/
theorem lookup_offerAll_none (ser : Object → ByteSeq) (digest : ByteSeq → ByteSeq)
    (ws : List Object) (es : List (ByteSeq × ByteSeq)) (k : ByteSeq)
    (hk : es.lookup k = none) (hws : ∀ o ∈ ws, digest (ser o) ≠ k) :
    (offerAll ser digest ws es).lookup k = none := by
  cases hl : (offerAll ser digest ws es).lookup k with
  | none => rfl
  | some v =>
    exfalso
    rcases mem_offerAll ser digest ws es _ (mem_of_lookup_eq_some _ _ _ hl) with h1 | ⟨o, ho, h1⟩
    · have : (es.lookup k).isSome = true := by
        clear hl hk
        induction es with
        | nil => simp at h1
        | cons e es ih =>
          obtain ⟨k1, v1⟩ := e
          rw [List.lookup_cons]
          by_cases hkk : k = k1
          · subst hkk; simp
          · have hne : (k == k1) = false := by simpa using hkk
            rw [hne]
            rcases List.mem_cons.mp h1 with h2 | h2
            · exact absurd (congrArg Prod.fst h2) hkk
            · exact ih h2
      rw [hk] at this
      simp at this
    · exact hws o ho (congrArg Prod.fst h1).symm

/-- What `Add` returns, when it returns a digest: the digest of the
serialization of the root object written twice into the accumulator. -/
theorem Add_ok_eq (ser : Object → ByteSeq) (digest : ByteSeq → ByteSeq) (node : Node)
    (s : KVStore) (h : Hash) (r : ByteSeq) (hr : (Add ser digest s node h).1 = .ok r) :
    r = digest (ser (rootObject ser digest node) ++ ser (rootObject ser digest node)) := by
  rcases (Add_spec ser digest node s h).1 with k | ⟨e, he⟩
  · rw [k] at hr
    cases node with
    | file f =>
      simp only [addResult, Result.ok.injEq] at hr
      exact hr.symm
    | dir name size cs =>
      simp only [addResult] at hr
      split at hr
      · simp only [Result.ok.injEq] at hr
        exact hr.symm
      · simp at hr
    | other d name size => cases d <;> simp [addResult] at hr
  · rw [he] at hr
    simp at hr

theorem treeOf_example (ser : Object → ByteSeq) (digest : ByteSeq → ByteSeq) :
    treeOf ser digest [.file fileHi, .dir "b" 0 []] = exampleTree ser digest := by
  have hn : (ByteSlice.mk [104, 105]).length ≤ chunkSize := by decide
  simp only [treeOf, linksOf, linkOf, treeData, tagsOf, tagOf, Node.Type, exampleTree, fileHi,
    List.map_cons, List.map_nil, List.flatten_cons, List.flatten_nil, List.append_nil,
    ↓reduceIte, reduceCtorEq]
  rw [fileObject_small ser digest _ hn, fileHash_small ser _ hn]
  rfl

theorem treeOf_bigDir (ser : Object → ByteSeq) (digest : ByteSeq → ByteSeq) :
    treeOf ser digest [.file bigFile] = bigTree ser digest := by
  have h1 : fileObject ser digest bigFile.Bytes = bigObject ser digest :=
    fileObject_bigData ser digest
  have h2 : fileHash ser bigFile.Bytes = ⟨ser { Links := [], Data := .mk [0] }⟩ :=
    fileHash_bigData ser
  simp only [treeOf, linksOf, linkOf, tagsOf, tagOf, Node.Type, bigTree, h1, h2,
    List.map_cons, List.map_nil, List.flatten_cons, List.flatten_nil, List.append_nil,
    ↓reduceIte]
  rfl

theorem allWellFormed_bigDir : allWellFormed [.file bigFile] = true := by
  simp [allWellFormed, Node.WellFormed]

theorem addWrites_bigDir (ser : Object → ByteSeq) (digest : ByteSeq → ByteSeq) :
    addWrites ser digest bigDir =
      [{ Links := [], Data := .mk (List.replicate chunkSize 0) }, { Links := [], Data := .mk [0] },
        bigTree ser digest, bigTree ser digest] := by
  have h3 : fileBlobs bigFile.Bytes =
      [{ Links := [], Data := .mk (List.replicate chunkSize 0) }, { Links := [], Data := .mk [0] }] :=
    fileBlobs_bigData
  simp only [bigDir, addWrites, dirWrites, allWellFormed_bigDir, ↓reduceIte, listWrites,
    nodeWrites, Node.WellFormed, h3, treeOf_bigDir, List.append_nil, List.cons_append,
    List.nil_append]

theorem lenSer_ne_of_links (o1 o2 : Object) (h : o1.Links.length ≠ o2.Links.length) :
    lenSer o1 ≠ lenSer o2 := by
  intro heq
  apply h
  apply lenSer_links_length o1 o2 [] []
  rw [List.append_nil, List.append_nil, heq]

theorem Has_frame (s : KVStore) (k : ByteSeq) :
    (s.Has k).2.entries = s.entries ∧ (s.Has k).2.putFaults = s.putFaults ∧
      ∀ b, (s.Has k).1 = .ok b → b = (s.get k).isSome := by
  unfold KVStore.Has
  split
  · exact ⟨rfl, rfl, fun b hb => by simp at hb⟩
  · refine ⟨rfl, rfl, ?_⟩
    intro b hb
    simp only [Except.ok.injEq] at hb
    exact hb.symm

theorem Put_writable (s : KVStore) (k v : ByteSeq) (hs : s.Writable) :
    (s.Put k v).2.entries = (k, v) :: s.entries.filter (fun kv => kv.1 ≠ k) ∧
      (s.Put k v).2.Writable := by
  unfold KVStore.Put KVStore.Writable
  cases hf : s.putFaults with
  | nil => exact ⟨rfl, by simp⟩
  | cons f rest =>
    have hfn : f = none := hs f (by simp [hf])
    subst hfn
    refine ⟨rfl, ?_⟩
    intro g hg
    exact hs g (by simp [hf] at hg ⊢; exact Or.inr hg)

/-- When no write is scheduled to fail, a `marshalAndPut` that returns no
error has offered the object. -/
theorem marshalAndPut_writable (ser : Object → ByteSeq) (digest : ByteSeq → ByteSeq)
    (s : KVStore) (obj : Object) (h : Hash) (hs : s.Writable) :
    (marshalAndPut ser digest s obj h).2.1.Writable ∧
      ((marshalAndPut ser digest s obj h).1 = none →
        Written ser digest [obj] s (marshalAndPut ser digest s obj h).2.1) := by
  obtain ⟨h1, h2, h3⟩ := Has_frame s (digest (ser obj))
  unfold marshalAndPut Written offerAll addEntry
  simp only [Hash.Reset, Hash.Write, Hash.Sum, List.nil_append, List.foldl_cons, List.foldl_nil]
  generalize s.Has (digest (ser obj)) = res at h1 h2 h3
  obtain ⟨r, s1⟩ := res
  simp only at h1 h2 h3
  have hw1 : s1.Writable := by
    unfold KVStore.Writable
    rw [h2]
    exact hs
  cases r with
  | error e => exact ⟨hw1, fun hn => by simp at hn⟩
  | ok flag =>
    have hflag := h3 flag rfl
    have hl : (List.lookup (digest (ser obj)) s.entries).isSome = flag := hflag.symm
    cases flag with
    | true =>
      simp only [Bool.not_true, Bool.false_eq_true, ↓reduceIte, hl, true_and]
      exact ⟨hw1, fun _ => ⟨hw1, h1⟩⟩
    | false =>
      obtain ⟨p1, p2⟩ := Put_writable s1 (digest (ser obj)) (ser obj) hw1
      have hnone : List.lookup (digest (ser obj)) s.entries = none := by
        simpa using hl
      simp only [Bool.not_false, ↓reduceIte, hl, Bool.false_eq_true]
      refine ⟨p2, fun _ => ⟨p2, ?_⟩⟩
      rw [p1, h1, filter_ne_of_lookup_none _ _ hnone]

theorem written_refl (ser : Object → ByteSeq) (digest : ByteSeq → ByteSeq)
    (s : KVStore) (hs : s.Writable) : Written ser digest [] s s := ⟨hs, rfl⟩

theorem written_trans {ser : Object → ByteSeq} {digest : ByteSeq → ByteSeq}
    {ws1 ws2 : List Object} {s1 s2 s3 : KVStore}
    (h12 : Written ser digest ws1 s1 s2) (h23 : Written ser digest ws2 s2 s3) :
    Written ser digest (ws1 ++ ws2) s1 s3 := by
  refine ⟨h23.1, ?_⟩
  rw [h23.2, h12.2, offerAll_append]

/-- When no write is scheduled to fail, a `sliceAndPut` that returns no error
has offered one blob per window. -/
theorem sliceAndPut_writable (ser : Object → ByteSeq) (digest : ByteSeq → ByteSeq)
    (data : ByteSeq) (k : Nat) :
    ∀ (s : KVStore) (h : Hash) (obj : Object) (seedId : Nat), data.length - seedId = k →
      s.Writable → (sliceAndPut ser digest data s h obj seedId).1 = none →
        Written ser digest ((windows data seedId).map blob) s
          (sliceAndPut ser digest data s h obj seedId).2.2.1 := by
  induction k using Nat.strong_induction_on with
  | _ k ih =>
    intro s h obj seedId hk hs
    rw [sliceAndPut]
    by_cases hlt : seedId < data.length
    · rw [windows_of_lt data seedId hlt]
      simp only [hlt, ↓reduceIte, stop_eq_min]
      rw [List.map_cons]
      obtain ⟨m1, m2⟩ := marshalAndPut_writable ser digest s
        { Links := [], Data := .mk (slice data seedId (min (seedId + chunkSize) data.length)) } h hs
      generalize hm : marshalAndPut ser digest s
        { Links := [], Data := .mk (slice data seedId (min (seedId + chunkSize) data.length)) } h = m
        at m1 m2
      obtain ⟨e, s1, h1⟩ := m
      simp only at m1 m2
      cases e with
      | some err => intro hn; simp at hn
      | none =>
        simp only
        have hpos := chunkSize_pos
        have hlt2 : data.length - (seedId + chunkSize) < k := by omega
        intro hok
        have hrec := ih (data.length - (seedId + chunkSize)) hlt2 s1 h1 _
          (seedId + chunkSize) rfl m1 hok
        have t := written_trans (m2 rfl) hrec
        rw [List.singleton_append] at t
        exact t
    · rw [windows_of_ge data seedId hlt]
      simp only [hlt, ↓reduceIte, List.map_nil]
      intro _
      exact written_refl ser digest s hs

/-- When no write is scheduled to fail, a `sliceFile` that returns an object
has offered the blobs of the content. -/
theorem sliceFile_writable (ser : Object → ByteSeq) (digest : ByteSeq → ByteSeq)
    (file : File) (s : KVStore) (h : Hash) (hs : s.Writable) (obj : Object)
    (hok : (sliceFile ser digest file s h).1 = .ok obj) :
    Written ser digest (fileBlobs file.Bytes) s (sliceFile ser digest file s h).2.1 := by
  unfold sliceFile fileBlobs at *
  by_cases hle : file.Bytes.length ≤ chunkSize
  · simp only [hle, ↓reduceIte] at hok ⊢
    obtain ⟨m1, m2⟩ := marshalAndPut_writable ser digest s
      { Links := [], Data := file.Bytes } h hs
    generalize marshalAndPut ser digest s { Links := [], Data := file.Bytes } h = m
      at m1 m2 hok
    obtain ⟨e, s1, h1⟩ := m
    cases e with
    | some err => simp at hok
    | none => exact m2 rfl
  · simp only [hle, ↓reduceIte] at hok ⊢
    have m2 := sliceAndPut_writable ser digest file.Bytes.bytes _ s h
      { Links := [], Data := .nil } 0 rfl hs
    generalize sliceAndPut ser digest file.Bytes.bytes s h { Links := [], Data := .nil } 0 = m
      at m2 hok
    obtain ⟨e, o1, s1, h1⟩ := m
    cases e with
    | some err => simp at hok
    | none => exact m2 rfl

/-- When no write is scheduled to fail, an `Add` on a file that returns a
digest has offered the blobs of the content and then the file's object. -/
theorem Add_file_writable (ser : Object → ByteSeq) (digest : ByteSeq → ByteSeq)
    (file : File) (s : KVStore) (h : Hash) (hs : s.Writable) (r : ByteSeq)
    (hok : (Add ser digest s (.file file) h).1 = .ok r) :
    Written ser digest (fileBlobs file.Bytes ++ [fileObject ser digest file.Bytes]) s
      (Add ser digest s (.file file) h).2.1 := by
  simp only [Add, Node.Type, Node.asFile, ↓reduceIte, addFileToStore] at hok ⊢
  have hsf := sliceFile_ok ser digest file s h
  have hw := sliceFile_writable ser digest file s h hs
  generalize sliceFile ser digest file s h = out at hsf hw hok
  obtain ⟨r1, s1, h1⟩ := out
  simp only at hsf hw
  rcases hsf with ⟨h2, -⟩ | ⟨e, he⟩
  · subst h2
    have hw1 := hw _ rfl
    simp only at hok ⊢
    obtain ⟨m1, m2⟩ := marshalAndPut_writable ser digest s1
      (fileObject ser digest file.Bytes) h1 hw1.1
    generalize marshalAndPut ser digest s1 (fileObject ser digest file.Bytes) h1 = m
      at m1 m2 hok
    obtain ⟨e, s2, h2⟩ := m
    cases e with
    | some err => simp at hok
    | none => exact written_trans hw1 (m2 rfl)
  · subst he
    simp at hok

theorem writable_empty : KVStore.empty.Writable := by
  simp [KVStore.Writable, KVStore.empty, KVStore.ofEntries]

theorem exactFile_small : exactFile.Bytes.length ≤ chunkSize := by
  show (List.replicate chunkSize 0).length ≤ chunkSize
  rw [List.length_replicate]

/-- For a child that is a file of at most `256*1024` bytes or a directory,
the hash `sliceDir` records in the child's link is the digest `Add` returns
on the child alone when no call of the store fails. -/
theorem linkOf_hash_eq_addResult (ser : Object → ByteSeq) (digest : ByteSeq → ByteSeq)
    (node : Node) (r : ByteSeq) (hr : addResult ser digest node = .ok r)
    (hsmall : ∀ f, node = .file f → f.Bytes.length ≤ chunkSize) :
    (linkOf ser digest node).Hash = r := by
  cases node with
  | file f =>
    have hn := hsmall f rfl
    simp only [addResult, Result.ok.injEq] at hr
    rw [← hr]
    simp only [linkOf, fileHash_small ser _ hn, fileObject_small ser digest _ hn]
  | dir name size cs =>
    simp only [addResult] at hr
    split at hr
    · simp only [Result.ok.injEq] at hr
      rw [← hr]
      rfl
    · simp at hr
  | other d name size => cases d <;> simp [addResult] at hr

theorem encBytes_append_inj (b1 b2 r1 r2 : ByteSeq)
    (h : encBytes b1 ++ r1 = encBytes b2 ++ r2) : b1 = b2 ∧ r1 = r2 := by
  unfold encBytes at h
  rw [List.cons_append, List.cons_append] at h
  obtain ⟨hl, ht⟩ := List.cons.inj h
  exact List.append_inj ht hl

theorem encInt_injective : Function.Injective encInt := by
  intro a b h
  cases a with
  | ofNat n =>
    cases b with
    | ofNat m =>
      have h2 : 2 * n = 2 * m := h
      have h3 : n = m := by omega
      rw [h3]
    | negSucc m =>
      have h2 : 2 * n = 2 * m + 1 := h
      omega
  | negSucc n =>
    cases b with
    | ofNat m =>
      have h2 : 2 * n + 1 = 2 * m := h
      omega
    | negSucc m =>
      have h2 : 2 * n + 1 = 2 * m + 1 := h
      have h3 : n = m := by omega
      rw [h3]

theorem nameCodes_injective (s1 s2 : String)
    (h : s1.toList.map Char.toNat = s2.toList.map Char.toNat) : s1 = s2 := by
  apply String.ext
  have hinj : Function.Injective Char.toNat := by
    intro a b hab
    rw [← Char.ofNat_toNat a, ← Char.ofNat_toNat b, hab]
  exact List.map_injective_iff.mpr hinj h

theorem encLink_append_inj (l1 l2 : Link) (r1 r2 : ByteSeq)
    (h : encLink l1 ++ r1 = encLink l2 ++ r2) : l1 = l2 ∧ r1 = r2 := by
  unfold encLink at h
  rw [List.append_assoc, List.append_assoc, List.append_assoc, List.append_assoc] at h
  obtain ⟨hn, h1⟩ := encBytes_append_inj _ _ _ _ h
  obtain ⟨hh, h2⟩ := encBytes_append_inj _ _ _ _ h1
  rw [List.singleton_append, List.singleton_append] at h2
  obtain ⟨hs, hr⟩ := List.cons.inj h2
  refine ⟨?_, hr⟩
  obtain ⟨n1, x1, z1⟩ := l1
  obtain ⟨n2, x2, z2⟩ := l2
  simp only at hn hh hs
  rw [nameCodes_injective _ _ hn, hh, encInt_injective hs]

theorem encLinks_append_inj (ls1 : List Link) :
    ∀ (ls2 : List Link) (r1 r2 : ByteSeq), ls1.length = ls2.length →
      (ls1.map encLink).flatten ++ r1 = (ls2.map encLink).flatten ++ r2 →
        ls1 = ls2 ∧ r1 = r2 := by
  induction ls1 with
  | nil =>
    intro ls2 r1 r2 hl h
    have : ls2 = [] := List.length_eq_zero.mp hl.symm
    subst this
    exact ⟨rfl, h⟩
  | cons l ls ih =>
    intro ls2 r1 r2 hl h
    cases ls2 with
    | nil => simp at hl
    | cons m ms =>
      rw [List.map_cons, List.map_cons, List.flatten_cons, List.flatten_cons,
        List.append_assoc, List.append_assoc] at h
      obtain ⟨h1, h2⟩ := encLink_append_inj _ _ _ _ h
      obtain ⟨h3, h4⟩ := ih ms r1 r2 (by simpa using hl) h2
      exact ⟨by rw [h1, h3], h4⟩

theorem encData_injective : Function.Injective encData := by
  intro d1 d2 h
  cases d1 with
  | nil =>
    cases d2 with
    | nil => rfl
    | mk b2 => simp [encData, encBytes] at h
  | mk b1 =>
    cases d2 with
    | nil => simp [encData, encBytes] at h
    | mk b2 =>
      have h3 := encBytes_append_inj b1 b2 [] []
        (by rw [List.append_nil, List.append_nil]; exact h)
      rw [h3.1]

/-- The length-prefixed serialization is injective. -/
theorem lenSer_injective : Function.Injective lenSer := by
  intro o1 o2 h
  rw [lenSer_cons, lenSer_cons] at h
  obtain ⟨hl, ht⟩ := List.cons.inj h
  obtain ⟨h1, h2⟩ := encLinks_append_inj _ _ _ _ hl ht
  have h3 := encData_injective h2
  obtain ⟨l1, d1⟩ := o1
  obtain ⟨l2, d2⟩ := o2
  simp only at h1 h3
  rw [h1, h3]

theorem append_self_ne (s : ByteSeq) (hs : s ≠ []) : s ++ s ≠ s := by
  intro h
  have hl := congrArg List.length h
  rw [List.length_append] at hl
  have : s.length = 0 := by omega
  exact hs (List.length_eq_zero.mp this)

theorem bigObject_ne_blob (ser : Object → ByteSeq) (digest : ByteSeq → ByteSeq)
    (data : ByteSlice) :
    ({ Links := [], Data := data } : Object) ≠ bigObject ser digest := by
  intro h
  have := congrArg (fun o => o.Links.length) h
  simp [bigObject] at this

theorem bigObject_ne_bigTree (ser : Object → ByteSeq) (digest : ByteSeq → ByteSeq) :
    bigTree ser digest ≠ bigObject ser digest := by
  intro h
  have := congrArg (fun o => o.Links.length) h
  simp [bigObject, bigTree] at this

/-! ## Runs on stores that may fail -/

theorem run_trans {ser : Object → ByteSeq} {digest : ByteSeq → ByteSeq}
    {s1 s2 s3 : KVStore} {e0 e : Option Error}
    (h12 : Run ser digest s1 s2 e0) (he0 : e0 = none) (h23 : Run ser digest s2 s3 e) :
    Run ser digest s1 s3 e := by
  induction h12 with
  | done s => exact h23
  | step s obj h s2 e1 hnone _ ih => exact Run.step s obj h s3 e hnone (ih he0 h23)
  | fail s obj h x _ => simp at he0

/-- One call of `marshalAndPut` is a run. -/
theorem run_one (ser : Object → ByteSeq) (digest : ByteSeq → ByteSeq)
    (s : KVStore) (obj : Object) (h : Hash) :
    Run ser digest s (marshalAndPut ser digest s obj h).2.1
      (marshalAndPut ser digest s obj h).1 := by
  cases hm : (marshalAndPut ser digest s obj h).1 with
  | none => exact Run.step s obj h _ none hm (Run.done _)
  | some x => exact Run.fail s obj h x hm

/-- The store calls of `sliceAndPut` form a run of the object writer. -/
theorem sliceAndPut_run (ser : Object → ByteSeq) (digest : ByteSeq → ByteSeq)
    (data : ByteSeq) (k : Nat) :
    ∀ (s : KVStore) (h : Hash) (obj : Object) (seedId : Nat), data.length - seedId = k →
      Run ser digest s (sliceAndPut ser digest data s h obj seedId).2.2.1
        (sliceAndPut ser digest data s h obj seedId).1 := by
  induction k using Nat.strong_induction_on with
  | _ k ih =>
    intro s h obj seedId hk
    rw [sliceAndPut]
    by_cases hlt : seedId < data.length
    · simp only [hlt, ↓reduceIte, stop_eq_min]
      have h1 := run_one ser digest s
        { Links := [], Data := .mk (slice data seedId (min (seedId + chunkSize) data.length)) } h
      generalize hm : marshalAndPut ser digest s
        { Links := [], Data := .mk (slice data seedId (min (seedId + chunkSize) data.length)) } h = m
        at h1
      obtain ⟨e, s1, h2⟩ := m
      cases e with
      | some err => exact h1
      | none =>
        simp only
        have hpos := chunkSize_pos
        have hlt2 : data.length - (seedId + chunkSize) < k := by omega
        exact run_trans h1 rfl (ih _ hlt2 s1 h2 _ (seedId + chunkSize) rfl)
    · simp only [hlt, ↓reduceIte]
      exact Run.done s

/-- The store calls of `sliceFile` form a run of the object writer. -/
theorem sliceFile_run (ser : Object → ByteSeq) (digest : ByteSeq → ByteSeq)
    (file : File) (s : KVStore) (h : Hash) :
    Run ser digest s (sliceFile ser digest file s h).2.1
      (sliceFile ser digest file s h).1.toError := by
  unfold sliceFile
  by_cases hle : file.Bytes.length ≤ chunkSize
  · simp only [hle, ↓reduceIte]
    have h1 := run_one ser digest s { Links := [], Data := file.Bytes } h
    generalize marshalAndPut ser digest s { Links := [], Data := file.Bytes } h = m at h1
    obtain ⟨e, s1, h2⟩ := m
    cases e <;> exact h1
  · simp only [hle, ↓reduceIte]
    have h1 := sliceAndPut_run ser digest file.Bytes.bytes _ s h { Links := [], Data := .nil } 0 rfl
    generalize sliceAndPut ser digest file.Bytes.bytes s h { Links := [], Data := .nil } 0 = m at h1
    obtain ⟨e, o1, s1, h2⟩ := m
    cases e <;> exact h1

/-- After a run without error `sliceDirFinish` extends the run. -/
theorem sliceDirFinish_run (ser : Object → ByteSeq) (digest : ByteSeq → ByteSeq)
    (s : KVStore) (x : Result Object × KVStore × Hash)
    (hx : Run ser digest s x.2.1 x.1.toError) :
    Run ser digest s (sliceDirFinish ser digest x).2.1
      (sliceDirFinish ser digest x).1.toError := by
  obtain ⟨r, s1, h1⟩ := x
  cases r with
  | ok t =>
    simp only [sliceDirFinish]
    have h2 := run_one ser digest s1 t h1
    generalize marshalAndPut ser digest s1 t h1 = m at h2
    obtain ⟨e, s2, h3⟩ := m
    cases e <;> exact run_trans hx rfl h2
  | err e => exact hx
  | panic => exact hx

/-- The store calls of the loop of `sliceDir` form a run of the object
writer. -/
theorem sliceDirLoop_run (ser : Object → ByteSeq) (digest : ByteSeq → ByteSeq) :
    ∀ (cs : List Node) (tree : Object) (s : KVStore) (h : Hash),
      Run ser digest s (sliceDirLoop ser digest cs tree s h).2.1
        (sliceDirLoop ser digest cs tree s h).1.toError := by
  intro cs
  induction cs using nodes_induction with
  | hnil =>
    intro tree s h
    rw [sliceDirLoop_nil]
    exact Run.done s
  | hfile f ns ih =>
    intro tree s h
    rw [sliceDirLoop_file]
    have h1 := sliceFile_run ser digest f s h
    generalize sliceFile ser digest f s h = out at h1
    obtain ⟨r, s1, h2⟩ := out
    cases r with
    | ok obj => exact run_trans h1 rfl (ih _ s1 _)
    | err e => exact h1
    | panic => exact h1
  | hdir name size cs ns ihc ih =>
    intro tree s h
    rw [sliceDirLoop_dir]
    have h1 := sliceDirFinish_run ser digest s _ (ihc { Links := [], Data := .nil } s h)
    generalize sliceDirFinish ser digest
      (sliceDirLoop ser digest cs { Links := [], Data := .nil } s h) = out at h1
    obtain ⟨r, s1, h2⟩ := out
    cases r with
    | ok obj => exact run_trans h1 rfl (ih _ s1 _)
    | err e => exact h1
    | panic => exact h1
  | hother d name size ns _ =>
    intro tree s h
    rw [sliceDirLoop_other]
    exact Run.done s

/-- The store calls of `sliceDir` form a run of the object writer. -/
theorem sliceDir_run (ser : Object → ByteSeq) (digest : ByteSeq → ByteSeq)
    (dir : Dir) (s : KVStore) (h : Hash) :
    Run ser digest s (sliceDir ser digest dir s h).2.1
      (sliceDir ser digest dir s h).1.toError :=
  sliceDirFinish_run ser digest s _ (sliceDirLoop_run ser digest dir.It _ s h)

theorem addFileToStore_run (ser : Object → ByteSeq) (digest : ByteSeq → ByteSeq)
    (file : File) (s : KVStore) (h : Hash) :
    Run ser digest s (addFileToStore ser digest file s h).2.1
      (addFileToStore ser digest file s h).1.toError := by
  unfold addFileToStore
  have h1 := sliceFile_run ser digest file s h
  generalize sliceFile ser digest file s h = out at h1
  obtain ⟨r, s1, h2⟩ := out
  cases r with
  | ok obj =>
    simp only
    have h3 := run_one ser digest s1 obj h2
    generalize marshalAndPut ser digest s1 obj h2 = m at h3
    obtain ⟨e, s2, h4⟩ := m
    cases e <;> exact run_trans h1 rfl h3
  | err e => exact h1
  | panic => exact h1

theorem addDirToStore_run (ser : Object → ByteSeq) (digest : ByteSeq → ByteSeq)
    (dir : Dir) (s : KVStore) (h : Hash) :
    Run ser digest s (addDirToStore ser digest dir s h).2.1
      (addDirToStore ser digest dir s h).1.toError := by
  unfold addDirToStore
  have h1 := sliceDir_run ser digest dir s h
  generalize sliceDir ser digest dir s h = out at h1
  obtain ⟨r, s1, h2⟩ := out
  cases r with
  | ok obj =>
    simp only
    have h3 := run_one ser digest s1 obj h2
    generalize marshalAndPut ser digest s1 obj h2 = m at h3
    obtain ⟨e, s2, h4⟩ := m
    cases e <;> exact run_trans h1 rfl h3
  | err e => exact h1
  | panic => exact h1

/-- The store calls of `Add` form a run of the object writer, unless the
root node is rejected, in which case there is none. -/
theorem Add_run (ser : Object → ByteSeq) (digest : ByteSeq → ByteSeq)
    (node : Node) (s : KVStore) (h : Hash) :
    (¬ node.Mismatch ∧
        Run ser digest s (Add ser digest s node h).2.1 (Add ser digest s node h).1.toError) ∨
      (node.Mismatch ∧ (Add ser digest s node h).2 = (s, h) ∧
        ((Add ser digest s node h).1 = .err .invalidFileType ∨
          (Add ser digest s node h).1 = .err .invalidDirectoryType)) := by
  cases node with
  | file f =>
    left
    refine ⟨by simp [Node.Mismatch, Node.Type, Node.asFile], ?_⟩
    simp only [Add, Node.Type, Node.asFile, ↓reduceIte]
    exact addFileToStore_run ser digest f s h
  | dir name size cs =>
    left
    refine ⟨by simp [Node.Mismatch, Node.Type, Node.asDir], ?_⟩
    simp only [Add, Node.Type, Node.asDir, reduceCtorEq, ↓reduceIte]
    exact addDirToStore_run ser digest ⟨name, size, cs⟩ s h
  | other d name size =>
    right
    cases d <;> simp [Node.Mismatch, Add, Node.Type, Node.asFile, Node.asDir]

/-- What one call of `marshalAndPut` does to a store, whatever the store:
the check fails and is returned; or the key is found and nothing is written;
or the key is absent and the object is written; or the key is absent and the
write fails, which is not returned. -/
theorem marshalAndPut_cases (ser : Object → ByteSeq) (digest : ByteSeq → ByteSeq)
    (s : KVStore) (obj : Object) (h : Hash) :
    (∃ c, (marshalAndPut ser digest s obj h).1 = some (.storage c) ∧
        (marshalAndPut ser digest s obj h).2.1.log =
          s.log ++ [.hasFailed (digest (ser obj)) (.storage c)] ∧
        (marshalAndPut ser digest s obj h).2.1.entries = s.entries) ∨
      ((marshalAndPut ser digest s obj h).1 = none ∧
        (s.get (digest (ser obj))).isSome = true ∧
        (marshalAndPut ser digest s obj h).2.1.log = s.log ++ [.has (digest (ser obj)) true] ∧
        (marshalAndPut ser digest s obj h).2.1.entries = s.entries) ∨
      ((marshalAndPut ser digest s obj h).1 = none ∧
        s.get (digest (ser obj)) = none ∧
        (marshalAndPut ser digest s obj h).2.1.log =
          s.log ++ [.has (digest (ser obj)) false, .put (digest (ser obj)) (ser obj)] ∧
        (marshalAndPut ser digest s obj h).2.1.entries =
          (digest (ser obj), ser obj) :: s.entries) ∨
      (∃ c, (marshalAndPut ser digest s obj h).1 = none ∧
        s.get (digest (ser obj)) = none ∧
        (marshalAndPut ser digest s obj h).2.1.log =
          s.log ++ [.has (digest (ser obj)) false,
            .putFailed (digest (ser obj)) (ser obj) (.storage c)] ∧
        (marshalAndPut ser digest s obj h).2.1.entries = s.entries) := by
  unfold marshalAndPut
  simp only [Hash.Reset, Hash.Write, Hash.Sum, List.nil_append]
  cases hg : s.get (digest (ser obj)) with
  | some v =>
    unfold KVStore.Has
    rw [hg]
    cases hf : s.hasFaults with
    | nil => right; left; simp
    | cons f rest =>
      cases f with
      | none => right; left; simp
      | some c => left; exact ⟨c, by simp⟩
  | none =>
    have hfil : ∀ (a b : ByteSeq), (a, b) ∈ s.entries → ¬ a = digest (ser obj) := by
      intro a b hab heq
      have hl : s.entries.lookup (digest (ser obj)) = none := hg
      rw [List.lookup_eq_none_iff] at hl
      have := hl (a, b) hab
      simp [heq] at this
    unfold KVStore.Has KVStore.Put
    rw [hg]
    cases hf : s.hasFaults with
    | nil =>
      cases hp : s.putFaults with
      | nil => right; right; left; simp; exact hfil
      | cons p prest =>
        cases p with
        | none => right; right; left; simp [hp]; exact hfil
        | some c => right; right; right; exact ⟨c, by simp [hp]⟩
    | cons f rest =>
      cases f with
      | none =>
        cases hp : s.putFaults with
        | nil => right; right; left; simp [hp]; exact hfil
        | cons p prest =>
          cases p with
          | none => right; right; left; simp [hp]; exact hfil
          | some c => right; right; right; exact ⟨c, by simp [hp]⟩
      | some c => left; exact ⟨c, by simp⟩

/-- An invariant of `marshalAndPut` that is reflexive and transitive holds
along every run. -/
theorem run_invariant {ser : Object → ByteSeq} {digest : ByteSeq → ByteSeq}
    {I : KVStore → KVStore → Prop} (hrefl : ∀ s, I s s)
    (htrans : ∀ a b c, I a b → I b c → I a c)
    (hstep : ∀ s obj h, I s (marshalAndPut ser digest s obj h).2.1)
    {s s2 : KVStore} {e : Option Error} (hr : Run ser digest s s2 e) : I s s2 := by
  induction hr with
  | done s => exact hrefl s
  | step s obj h s2 e _ _ ih => exact htrans _ _ _ (hstep s obj h) ih
  | fail s obj h x _ => exact hstep s obj h

/-- An invariant of `marshalAndPut` that is reflexive and transitive holds
between the stores before and after `Add`. -/
theorem Add_invariant {ser : Object → ByteSeq} {digest : ByteSeq → ByteSeq}
    {I : KVStore → KVStore → Prop} (hrefl : ∀ s, I s s)
    (htrans : ∀ a b c, I a b → I b c → I a c)
    (hstep : ∀ s obj h, I s (marshalAndPut ser digest s obj h).2.1)
    (node : Node) (s : KVStore) (h : Hash) : I s (Add ser digest s node h).2.1 := by
  rcases Add_run ser digest node s h with ⟨-, hr⟩ | ⟨-, heq, -⟩
  · exact run_invariant hrefl htrans hstep hr
  · have : (Add ser digest s node h).2.1 = s := by rw [heq]
    rw [this]
    exact hrefl s

/-- Entries of the store are kept by `marshalAndPut`, with their value. -/
theorem marshalAndPut_keeps (ser : Object → ByteSeq) (digest : ByteSeq → ByteSeq)
    (s : KVStore) (obj : Object) (h : Hash) (k v : ByteSeq) (hk : s.get k = some v) :
    (marshalAndPut ser digest s obj h).2.1.get k = some v := by
  unfold KVStore.get at hk ⊢
  rcases marshalAndPut_cases ser digest s obj h with
    ⟨c, -, -, he⟩ | ⟨-, -, -, he⟩ | ⟨-, hn, -, he⟩ | ⟨c, -, -, -, he⟩
  · rw [he, hk]
  · rw [he, hk]
  · rw [he]
    have hne : k ≠ digest (ser obj) := by
      intro heq
      subst heq
      unfold KVStore.get at hn
      rw [hn] at hk
      simp at hk
    simp only [List.lookup_cons]
    have : (k == digest (ser obj)) = false := by simpa using hne
    rw [this]
    exact hk
  · rw [he, hk]

/-- Every entry of the store after `marshalAndPut` was there before or is
the serialization of the object under its digest. -/
theorem marshalAndPut_entries (ser : Object → ByteSeq) (digest : ByteSeq → ByteSeq)
    (s : KVStore) (obj : Object) (h : Hash) :
    ∀ kv ∈ (marshalAndPut ser digest s obj h).2.1.entries,
      kv ∈ s.entries ∨ kv = (digest (ser obj), ser obj) := by
  intro kv hkv
  rcases marshalAndPut_cases ser digest s obj h with
    ⟨c, -, -, he⟩ | ⟨-, -, -, he⟩ | ⟨-, hn, -, he⟩ | ⟨c, -, -, -, he⟩
  · rw [he] at hkv; exact Or.inl hkv
  · rw [he] at hkv; exact Or.inl hkv
  · rw [he] at hkv
    rcases List.mem_cons.mp hkv with h1 | h1
    · exact Or.inr h1
    · exact Or.inl h1
  · rw [he] at hkv; exact Or.inl hkv

/-- The entries of the store before and after `Add`, whatever the store and
the outcome: every entry is kept with its value; every entry of the store
after `Add` was there before or holds the serialization of an object under
the digest of that serialization; a content-addressed store stays so. -/
theorem Add_entries (ser : Object → ByteSeq) (digest : ByteSeq → ByteSeq)
    (node : Node) (s : KVStore) (h : Hash) :
    (∀ k v, s.get k = some v → (Add ser digest s node h).2.1.get k = some v) ∧
      (∀ kv ∈ (Add ser digest s node h).2.1.entries,
        kv ∈ s.entries ∨ ∃ o, kv = (digest (ser o), ser o)) ∧
      (ContentAddressed digest s → ContentAddressed digest (Add ser digest s node h).2.1) := by
  have key := @Add_invariant ser digest
    (fun a b => (∀ k v, a.get k = some v → b.get k = some v) ∧
      (∀ kv ∈ b.entries, kv ∈ a.entries ∨ ∃ o, kv = (digest (ser o), ser o)))
    (fun a => ⟨fun k v hk => hk, fun kv hkv => Or.inl hkv⟩)
    (fun a b c hab hbc => ⟨fun k v hk => hbc.1 k v (hab.1 k v hk), fun kv hkv => by
      rcases hbc.2 kv hkv with h1 | h1
      · exact hab.2 kv h1
      · exact Or.inr h1⟩)
    (fun a obj h0 => ⟨fun k v hk => marshalAndPut_keeps ser digest a obj h0 k v hk,
      fun kv hkv => by
        rcases marshalAndPut_entries ser digest a obj h0 kv hkv with h1 | h1
        · exact Or.inl h1
        · exact Or.inr ⟨obj, h1⟩⟩)
    node s h
  refine ⟨key.1, key.2, ?_⟩
  intro hca kv hkv
  rcases key.2 kv hkv with h1 | ⟨o, h1⟩
  · exact hca kv h1
  · rw [h1]

/-- Splitting a log that starts with the calls `b` at one of its entries:
the entry is one of `b` or one of the rest. -/
theorem split_block {b rest pre post : List StoreOp} {x : StoreOp}
    (heq : b ++ rest = pre ++ x :: post) :
    (∃ post0, b = pre ++ x :: post0) ∨ ∃ pre0, pre = b ++ pre0 ∧ rest = pre0 ++ x :: post := by
  rcases List.append_eq_append_iff.mp heq with ⟨a, h1, h2⟩ | ⟨c, h1, h2⟩
  · exact Or.inr ⟨a, h1, h2⟩
  · cases c with
    | nil =>
      refine Or.inr ⟨[], by simpa using h1.symm, ?_⟩
      simpa using h2.symm
    | cons y c =>
      simp only [List.cons_append, List.cons.injEq] at h2
      obtain ⟨hy, -⟩ := h2
      subst hy
      exact Or.inl ⟨c, h1⟩

/-- The store calls of a run, whatever the store: a failed existence check
is the last call and its error is the result; an error is the error of a
failed existence check; a write, failed or not, comes right after an
existence check of its key that has found nothing; what is written is the
serialization of an object under the digest of that serialization, and its
key was absent from the store at the start. -/
theorem run_log {ser : Object → ByteSeq} {digest : ByteSeq → ByteSeq}
    {s s2 : KVStore} {e : Option Error} (hr : Run ser digest s s2 e) :
    ∃ δ, s2.log = s.log ++ δ ∧
      (∀ pre post k x, δ = pre ++ StoreOp.hasFailed k x :: post → e = some x ∧ post = []) ∧
      (∀ x, e = some x → ∃ c pre k, x = .storage c ∧ δ = pre ++ [StoreOp.hasFailed k x]) ∧
      (∀ pre post k v, δ = pre ++ StoreOp.put k v :: post →
        ∃ pre0, pre = pre0 ++ [StoreOp.has k false]) ∧
      (∀ pre post k v x, δ = pre ++ StoreOp.putFailed k v x :: post →
        ∃ pre0, pre = pre0 ++ [StoreOp.has k false]) ∧
      (∀ k v, StoreOp.put k v ∈ δ → s.get k = none ∧ ∃ o, k = digest (ser o) ∧ v = ser o) ∧
      (∀ k v x, StoreOp.putFailed k v x ∈ δ → ∃ o, k = digest (ser o) ∧ v = ser o) := by
  induction hr with
  | done s =>
    refine ⟨[], by simp, ?_, ?_, ?_, ?_, ?_, ?_⟩
    · intro pre post k x h; simp at h
    · intro x h; simp at h
    · intro pre post k v h; simp at h
    · intro pre post k v x h; simp at h
    · intro k v h; simp at h
    · intro k v x h; simp at h
  | fail s obj h x hx =>
    rcases marshalAndPut_cases ser digest s obj h with
      ⟨c, hc, hl, he⟩ | ⟨hc, -⟩ | ⟨hc, -⟩ | ⟨c, hc, -⟩
    · rw [hc] at hx
      simp only [Option.some.injEq] at hx
      subst hx
      refine ⟨_, hl, ?_, ?_, ?_, ?_, ?_, ?_⟩
      · intro pre post k x h
        rcases pre with _ | ⟨a, pre⟩
        · simp only [List.nil_append, List.cons.injEq, StoreOp.hasFailed.injEq] at h
          exact ⟨by rw [h.1.2], h.2.symm⟩
        · simp at h
      · intro x h
        simp only [Option.some.injEq] at h
        subst h
        exact ⟨c, [], _, rfl, rfl⟩
      · intro pre post k v h
        rcases pre with _ | ⟨a, pre⟩ <;> simp at h
      · intro pre post k v x h
        rcases pre with _ | ⟨a, pre⟩ <;> simp at h
      · intro k v h; simp at h
      · intro k v x h; simp at h
    · rw [hc] at hx; simp at hx
    · rw [hc] at hx; simp at hx
    · rw [hc] at hx; simp at hx
  | step s obj h s2 e hnone _ ih =>
    obtain ⟨δ, hl, b1, b2, b3, b4, b5, b6⟩ := ih
    have hkeep := marshalAndPut_keeps ser digest s obj h
    have habs : ∀ k, (marshalAndPut ser digest s obj h).2.1.get k = none → s.get k = none := by
      intro k hk
      cases hg : s.get k with
      | none => rfl
      | some v => rw [hkeep k v hg] at hk; simp at hk
    have main : ∀ b : List StoreOp,
        (marshalAndPut ser digest s obj h).2.1.log = s.log ++ b →
        (∀ pre post k x, b ≠ pre ++ StoreOp.hasFailed k x :: post) →
        (∀ pre post k v, b = pre ++ StoreOp.put k v :: post →
          ∃ pre0, pre = pre0 ++ [StoreOp.has k false]) →
        (∀ pre post k v x, b = pre ++ StoreOp.putFailed k v x :: post →
          ∃ pre0, pre = pre0 ++ [StoreOp.has k false]) →
        (∀ k v, StoreOp.put k v ∈ b → s.get k = none ∧ ∃ o, k = digest (ser o) ∧ v = ser o) →
        (∀ k v x, StoreOp.putFailed k v x ∈ b → ∃ o, k = digest (ser o) ∧ v = ser o) →
        ∃ δ, s2.log = s.log ++ δ ∧
          (∀ pre post k x, δ = pre ++ StoreOp.hasFailed k x :: post → e = some x ∧ post = []) ∧
          (∀ x, e = some x → ∃ c pre k, x = .storage c ∧ δ = pre ++ [StoreOp.hasFailed k x]) ∧
          (∀ pre post k v, δ = pre ++ StoreOp.put k v :: post →
            ∃ pre0, pre = pre0 ++ [StoreOp.has k false]) ∧
          (∀ pre post k v x, δ = pre ++ StoreOp.putFailed k v x :: post →
            ∃ pre0, pre = pre0 ++ [StoreOp.has k false]) ∧
          (∀ k v, StoreOp.put k v ∈ δ →
            s.get k = none ∧ ∃ o, k = digest (ser o) ∧ v = ser o) ∧
          (∀ k v x, StoreOp.putFailed k v x ∈ δ → ∃ o, k = digest (ser o) ∧ v = ser o) := by
      intro b hb c1 c3 c4 c5 c6
      refine ⟨b ++ δ, by rw [hl, hb, List.append_assoc], ?_, ?_, ?_, ?_, ?_, ?_⟩
      · intro pre post k x heq
        rcases split_block heq with ⟨post0, h0⟩ | ⟨pre0, -, h0⟩
        · exact absurd h0 (c1 _ _ _ _)
        · exact b1 _ _ _ _ h0
      · intro x hx
        obtain ⟨c, pre, k, h1, h2⟩ := b2 x hx
        exact ⟨c, b ++ pre, k, h1, by rw [h2, List.append_assoc]⟩
      · intro pre post k v heq
        rcases split_block heq with ⟨post0, h0⟩ | ⟨pre0, h1, h0⟩
        · exact c3 _ _ _ _ h0
        · obtain ⟨p, hp⟩ := b3 _ _ _ _ h0
          exact ⟨b ++ p, by rw [h1, hp, List.append_assoc]⟩
      · intro pre post k v x heq
        rcases split_block heq with ⟨post0, h0⟩ | ⟨pre0, h1, h0⟩
        · exact c4 _ _ _ _ _ h0
        · obtain ⟨p, hp⟩ := b4 _ _ _ _ _ h0
          exact ⟨b ++ p, by rw [h1, hp, List.append_assoc]⟩
      · intro k v hm
        rcases List.mem_append.mp hm with h0 | h0
        · exact c5 k v h0
        · exact ⟨habs k (b5 k v h0).1, (b5 k v h0).2⟩
      · intro k v x hm
        rcases List.mem_append.mp hm with h0 | h0
        · exact c6 k v x h0
        · exact b6 k v x h0
    rcases marshalAndPut_cases ser digest s obj h with
      ⟨c, hc, -⟩ | ⟨-, -, hlog, -⟩ | ⟨-, hn, hlog, -⟩ | ⟨c, -, hn, hlog, -⟩
    · rw [hc] at hnone; simp at hnone
    · refine main _ hlog ?_ ?_ ?_ ?_ ?_
      · intro pre post k x heq
        rcases pre with _ | ⟨a, pre⟩ <;> simp at heq
      · intro pre post k v heq
        rcases pre with _ | ⟨a, pre⟩ <;> simp at heq
      · intro pre post k v x heq
        rcases pre with _ | ⟨a, pre⟩ <;> simp at heq
      · intro k v hm; simp at hm
      · intro k v x hm; simp at hm
    · refine main _ hlog ?_ ?_ ?_ ?_ ?_
      · intro pre post k x heq
        rcases pre with _ | ⟨a, _ | ⟨a2, pre⟩⟩ <;> simp at heq
      · intro pre post k v heq
        rcases pre with _ | ⟨a, _ | ⟨a2, pre⟩⟩
        · simp at heq
        · simp only [List.cons_append, List.nil_append, List.cons.injEq,
            StoreOp.put.injEq] at heq
          exact ⟨[], by rw [← heq.1, heq.2.1.1]; rfl⟩
        · simp at heq
      · intro pre post k v x heq
        rcases pre with _ | ⟨a, _ | ⟨a2, pre⟩⟩ <;> simp at heq
      · intro k v hm
        simp only [List.mem_cons, reduceCtorEq, StoreOp.put.injEq, List.mem_singleton,
          false_or, List.not_mem_nil, or_false] at hm
        obtain ⟨hk, hv⟩ := hm
        subst hk hv
        exact ⟨hn, obj, rfl, rfl⟩
      · intro k v x hm; simp at hm
    · refine main _ hlog ?_ ?_ ?_ ?_ ?_
      · intro pre post k x heq
        rcases pre with _ | ⟨a, _ | ⟨a2, pre⟩⟩ <;> simp at heq
      · intro pre post k v heq
        rcases pre with _ | ⟨a, _ | ⟨a2, pre⟩⟩ <;> simp at heq
      · intro pre post k v x heq
        rcases pre with _ | ⟨a, _ | ⟨a2, pre⟩⟩
        · simp at heq
        · simp only [List.cons_append, List.nil_append, List.cons.injEq,
            StoreOp.putFailed.injEq] at heq
          exact ⟨[], by rw [← heq.1, heq.2.1.1]; rfl⟩
        · simp at heq
      · intro k v hm; simp at hm
      · intro k v x hm
        simp only [List.mem_cons, reduceCtorEq, StoreOp.putFailed.injEq, List.mem_singleton,
          false_or, List.not_mem_nil, or_false] at hm
        obtain ⟨hk, hv, -⟩ := hm
        subst hk hv
        exact ⟨obj, rfl, rfl⟩

theorem toError_eq_some {α : Type} (r : Result α) (x : Error) :
    r.toError = some x ↔ r = .err x := by
  cases r <;> simp [Result.toError]

/-- The store calls of `Add`, whatever the store. -/
theorem Add_log (ser : Object → ByteSeq) (digest : ByteSeq → ByteSeq)
    (node : Node) (s : KVStore) (h : Hash) :
    ∃ δ, (Add ser digest s node h).2.1.log = s.log ++ δ ∧
      (∀ pre post k x, δ = pre ++ StoreOp.hasFailed k x :: post →
        (Add ser digest s node h).1 = .err x ∧ post = []) ∧
      (∀ x, (Add ser digest s node h).1 = .err x → ¬ node.Mismatch →
        ∃ c pre k, x = .storage c ∧ δ = pre ++ [StoreOp.hasFailed k x]) ∧
      (∀ pre post k v, δ = pre ++ StoreOp.put k v :: post →
        ∃ pre0, pre = pre0 ++ [StoreOp.has k false]) ∧
      (∀ pre post k v x, δ = pre ++ StoreOp.putFailed k v x :: post →
        ∃ pre0, pre = pre0 ++ [StoreOp.has k false]) ∧
      (∀ k v, StoreOp.put k v ∈ δ → s.get k = none ∧ ∃ o, k = digest (ser o) ∧ v = ser o) ∧
      (∀ k v x, StoreOp.putFailed k v x ∈ δ → ∃ o, k = digest (ser o) ∧ v = ser o) := by
  rcases Add_run ser digest node s h with ⟨hm, hr⟩ | ⟨hm, heq, -⟩
  · obtain ⟨δ, hl, b1, b2, b3, b4, b5, b6⟩ := run_log hr
    refine ⟨δ, hl, ?_, ?_, b3, b4, b5, b6⟩
    · intro pre post k x hd
      obtain ⟨h1, h2⟩ := b1 pre post k x hd
      exact ⟨(toError_eq_some _ _).mp h1, h2⟩
    · intro x hx _
      exact b2 x ((toError_eq_some _ _).mpr hx)
  · have hs : (Add ser digest s node h).2.1 = s := by rw [heq]
    refine ⟨[], by rw [hs]; simp, ?_, ?_, ?_, ?_, ?_, ?_⟩
    · intro pre post k x hd; simp at hd
    · intro x _ hn; exact absurd hm hn
    · intro pre post k v hd; simp at hd
    · intro pre post k v x hd; simp at hd
    · intro k v hd; simp at hd
    · intro k v x hd; simp at hd

/-- `marshalAndPut` resets the accumulator first: what it does and returns
does not depend on the accumulator it is given. -/
theorem marshalAndPut_indep (ser : Object → ByteSeq) (digest : ByteSeq → ByteSeq)
    (s : KVStore) (obj : Object) (h h2 : Hash) :
    marshalAndPut ser digest s obj h = marshalAndPut ser digest s obj h2 := by
  unfold marshalAndPut
  simp only [Hash.Reset]

/-- Started below the end of the data, `sliceAndPut` does not depend on the
accumulator it is given. -/
theorem sliceAndPut_indep (ser : Object → ByteSeq) (digest : ByteSeq → ByteSeq)
    (data : ByteSeq) (s : KVStore) (h h2 : Hash) (obj : Object) (seedId : Nat)
    (hlt : seedId < data.length) :
    sliceAndPut ser digest data s h obj seedId = sliceAndPut ser digest data s h2 obj seedId := by
  rw [sliceAndPut]
  conv_rhs => rw [sliceAndPut]
  simp only [hlt, ↓reduceIte, stop_eq_min]
  rw [marshalAndPut_indep ser digest s _ h h2]

/-- `sliceFile` does not depend on the accumulator it is given. -/
theorem sliceFile_indep (ser : Object → ByteSeq) (digest : ByteSeq → ByteSeq)
    (file : File) (s : KVStore) (h h2 : Hash) :
    sliceFile ser digest file s h = sliceFile ser digest file s h2 := by
  unfold sliceFile
  by_cases hle : file.Bytes.length ≤ chunkSize
  · simp only [hle, ↓reduceIte]
    rw [marshalAndPut_indep ser digest s _ h h2]
  · simp only [hle, ↓reduceIte]
    have hpos := chunkSize_pos
    have hle2 : ¬ file.Bytes.bytes.length ≤ chunkSize := hle
    rw [sliceAndPut_indep ser digest file.Bytes.bytes s h h2 _ 0 (by omega)]

/-- After loops that agree on result and store, `sliceDirFinish` agrees on
result and store. -/
theorem sliceDirFinish_indep (ser : Object → ByteSeq) (digest : ByteSeq → ByteSeq)
    (x y : Result Object × KVStore × Hash) (h1 : x.1 = y.1) (h2 : x.2.1 = y.2.1) :
    (sliceDirFinish ser digest x).1 = (sliceDirFinish ser digest y).1 ∧
      (sliceDirFinish ser digest x).2.1 = (sliceDirFinish ser digest y).2.1 ∧
      (∀ t, (sliceDirFinish ser digest x).1 = .ok t →
        sliceDirFinish ser digest x = sliceDirFinish ser digest y) := by
  obtain ⟨r, s1, a1⟩ := x
  obtain ⟨r2, s2, a2⟩ := y
  simp only at h1 h2
  subst h1 h2
  cases r with
  | ok t =>
    simp only [sliceDirFinish]
    rw [marshalAndPut_indep ser digest s1 t a1 a2]
    exact ⟨rfl, rfl, fun _ _ => rfl⟩
  | err e => exact ⟨rfl, rfl, fun t ht => by simp [sliceDirFinish] at ht⟩
  | panic => exact ⟨rfl, rfl, fun t ht => by simp [sliceDirFinish] at ht⟩

/-- The loop of `sliceDir` returns the same result and leaves the same store
whatever the accumulator it is given. -/
theorem sliceDirLoop_indep (ser : Object → ByteSeq) (digest : ByteSeq → ByteSeq) :
    ∀ (cs : List Node) (tree : Object) (s : KVStore) (h h2 : Hash),
      (sliceDirLoop ser digest cs tree s h).1 = (sliceDirLoop ser digest cs tree s h2).1 ∧
        (sliceDirLoop ser digest cs tree s h).2.1 =
          (sliceDirLoop ser digest cs tree s h2).2.1 := by
  intro cs
  induction cs using nodes_induction with
  | hnil =>
    intro tree s h h2
    rw [sliceDirLoop_nil, sliceDirLoop_nil]
    exact ⟨rfl, rfl⟩
  | hfile f ns ih =>
    intro tree s h h2
    rw [sliceDirLoop_file, sliceDirLoop_file, sliceFile_indep ser digest f s h h2]
    exact ⟨rfl, rfl⟩
  | hdir name size cs ns ihc ih =>
    intro tree s h h2
    rw [sliceDirLoop_dir, sliceDirLoop_dir]
    obtain ⟨e1, e2⟩ := ihc { Links := [], Data := .nil } s h h2
    obtain ⟨f1, f2, f3⟩ := sliceDirFinish_indep ser digest _ _ e1 e2
    generalize sliceDirFinish ser digest
      (sliceDirLoop ser digest cs { Links := [], Data := .nil } s h) = x at f1 f2 f3
    generalize sliceDirFinish ser digest
      (sliceDirLoop ser digest cs { Links := [], Data := .nil } s h2) = y at f1 f2 f3
    obtain ⟨r, s1, a1⟩ := x
    cases r with
    | ok t =>
      have := f3 t rfl
      subst this
      exact ⟨rfl, rfl⟩
    | err e =>
      obtain ⟨r2, s2, a2⟩ := y
      simp only at f1 f2
      subst f1 f2
      exact ⟨rfl, rfl⟩
    | panic =>
      obtain ⟨r2, s2, a2⟩ := y
      simp only at f1 f2
      subst f1 f2
      exact ⟨rfl, rfl⟩
  | hother d name size ns _ =>
    intro tree s h h2
    rw [sliceDirLoop_other, sliceDirLoop_other]
    exact ⟨rfl, rfl⟩

/-- `sliceDir` returns the same object and leaves the same store whatever
the accumulator it is given. -/
theorem sliceDir_indep (ser : Object → ByteSeq) (digest : ByteSeq → ByteSeq)
    (dir : Dir) (s : KVStore) (h h2 : Hash) :
    (sliceDir ser digest dir s h).1 = (sliceDir ser digest dir s h2).1 ∧
      (sliceDir ser digest dir s h).2.1 = (sliceDir ser digest dir s h2).2.1 := by
  obtain ⟨e1, e2⟩ := sliceDirLoop_indep ser digest dir.It { Links := [], Data := .nil } s h h2
  obtain ⟨f1, f2, -⟩ := sliceDirFinish_indep ser digest _ _ e1 e2
  exact ⟨f1, f2⟩

/-- `addDirToStore` returns the same result and leaves the same store
whatever the accumulator it is given. -/
theorem addDirToStore_indep (ser : Object → ByteSeq) (digest : ByteSeq → ByteSeq)
    (dir : Dir) (s : KVStore) (h h2 : Hash) :
    (addDirToStore ser digest dir s h).1 = (addDirToStore ser digest dir s h2).1 ∧
      (addDirToStore ser digest dir s h).2.1 = (addDirToStore ser digest dir s h2).2.1 := by
  obtain ⟨e1, e2⟩ := sliceDir_indep ser digest dir s h h2
  unfold addDirToStore
  generalize sliceDir ser digest dir s h = x at e1 e2
  generalize sliceDir ser digest dir s h2 = y at e1 e2
  obtain ⟨r, s1, a1⟩ := x
  obtain ⟨r2, s2, a2⟩ := y
  simp only at e1 e2
  subst e1 e2
  cases r with
  | ok t =>
    simp only
    rw [marshalAndPut_indep ser digest s1 t a1 a2]
    exact ⟨rfl, rfl⟩
  | err e => exact ⟨rfl, rfl⟩
  | panic => exact ⟨rfl, rfl⟩

/-- A byte sequence written twice determines the sequence. -/
theorem append_self_inj {x y : ByteSeq} (hxy : x ++ x = y ++ y) : x = y := by
  have hl := congrArg List.length hxy
  simp only [List.length_append] at hl
  exact (List.append_inj hxy (by omega)).1

/-- The names of the links of a tree object are the names of the children. -/
theorem treeOf_names (ser : Object → ByteSeq) (digest : ByteSeq → ByteSeq) (cs : List Node) :
    (treeOf ser digest cs).Links.map Link.Name = cs.map Node.Name := by
  simp only [treeOf, linksOf_eq_map, List.map_map]
  apply List.map_congr_left
  intro n _
  exact (linkOf_name_size ser digest n).1

/-- Two lists of children that differ in the name at one position have
different tree objects. -/
theorem treeOf_swap_ne (ser : Object → ByteSeq) (digest : ByteSeq → ByteSeq)
    (pre mid post : List Node) (a b : Node) (hab : a.Name ≠ b.Name) :
    treeOf ser digest (pre ++ a :: mid ++ b :: post) ≠
      treeOf ser digest (pre ++ b :: mid ++ a :: post) := by
  intro heq
  have h1 := congrArg (fun t => t.Links.map Link.Name) heq
  simp only [treeOf_names, List.append_assoc, List.map_append, List.map_cons,
    List.cons_append] at h1
  have h2 := List.append_cancel_left h1
  simp only [List.cons.injEq] at h2
  exact hab h2.1

theorem tagOf_length (n : Node) : (tagOf n).length = 4 := by
  unfold tagOf
  split <;> rfl

theorem tagsOf_length (cs : List Node) : (tagsOf cs).length = 4 * cs.length := by
  induction cs with
  | nil => rfl
  | cons n ns ih =>
    rw [tagsOf_cons, List.length_append, tagOf_length, ih, List.length_cons]
    omega

/-- The four bytes at offset `4 * i` of the tags are the tag of child `i`. -/
theorem tagsOf_slice (cs : List Node) :
    ∀ (i : Nat) (c : Node), cs[i]? = some c → slice (tagsOf cs) (4 * i) (4 * i + 4) = tagOf c := by
  induction cs with
  | nil => intro i c hc; simp at hc
  | cons n ns ih =>
    intro i c hc
    rw [tagsOf_cons]
    cases i with
    | zero =>
      simp only [List.getElem?_cons_zero, Option.some.injEq] at hc
      subst hc
      have h4 := tagOf_length n
      unfold slice
      simp only [Nat.mul_zero, Nat.zero_add, List.drop_zero]
      rw [← h4, List.take_left]
    | succ j =>
      simp only [List.getElem?_cons_succ] at hc
      have h4 := tagOf_length n
      have e1 : 4 * (j + 1) + 4 = (tagOf n).length + (4 * j + 4) := by omega
      have e2 : 4 * (j + 1) = (tagOf n).length + 4 * j := by omega
      unfold slice
      rw [e1, e2, List.take_append, List.drop_append]
      exact ih j c hc

/-- The tags determine the declared kinds of the children. -/
theorem tagsOf_types : ∀ (cs ds : List Node), tagsOf cs = tagsOf ds →
    cs.map Node.Type = ds.map Node.Type := by
  intro cs
  induction cs with
  | nil =>
    intro ds h
    cases ds with
    | nil => rfl
    | cons d ds =>
      have hl := congrArg List.length h
      rw [tagsOf_length, tagsOf_length] at hl
      simp at hl
  | cons c cs ih =>
    intro ds h
    cases ds with
    | nil =>
      have hl := congrArg List.length h
      rw [tagsOf_length, tagsOf_length] at hl
      simp at hl
    | cons d ds =>
      rw [tagsOf_cons, tagsOf_cons] at h
      obtain ⟨h1, h2⟩ := List.append_inj h (by rw [tagOf_length, tagOf_length])
      have ht : c.Type = d.Type := by
        unfold tagOf at h1
        cases hc : c.Type <;> cases hd : d.Type <;> simp [hc, hd, tagLink, tagTree] at h1 ⊢
      simp only [List.map_cons, ht, ih ds h2]

theorem allWellFormed_mem : ∀ (cs : List Node), allWellFormed cs = true →
    ∀ c ∈ cs, c.WellFormed = true := by
  intro cs
  induction cs with
  | nil => intro _ c hc; simp at hc
  | cons n ns ih =>
    intro hw c hc
    rw [allWellFormed, Bool.and_eq_true] at hw
    rcases List.mem_cons.mp hc with h1 | h1
    · rw [h1]; exact hw.1
    · exact ih hw.2 c h1

theorem treeData_bytes (cs : List Node) : (treeData cs).bytes = tagsOf cs := by
  rw [treeData, ByteSlice.bytes_append]
  rfl

theorem treeData_eq_nil_iff (cs : List Node) : treeData cs = .nil ↔ cs = [] := by
  cases cs with
  | nil => simp [treeData, tagsOf, ByteSlice.append]
  | cons c cs =>
    have hne : tagsOf (c :: cs) ≠ [] := by
      intro h0
      have hl := congrArg List.length h0
      rw [tagsOf_length] at hl
      simp at hl
    rw [treeData, ByteSlice.append_of_ne _ _ hne]
    simp

theorem blobTags_length {α : Type} (l : List α) :
    ((l.map (fun _ => tagBlob)).flatten).length = 4 * l.length := by
  induction l with
  | nil => rfl
  | cons a l ih =>
    simp only [List.map_cons, List.flatten_cons, List.length_append, ih, List.length_cons]
    have : tagBlob.length = 4 := rfl
    omega

/-! ## Runs with failing writes, and the characterisations behind the claims -/

theorem sliceAndPut_eq_putChunks (ser : Object → ByteSeq) (digest : ByteSeq → ByteSeq)
    (data : ByteSeq) (k : Nat) :
    ∀ (s : KVStore) (h : Hash) (obj : Object) (seedId : Nat), data.length - seedId = k →
      sliceAndPut ser digest data s h obj seedId =
        putChunks ser digest (windows data seedId) s h obj := by
  induction k using Nat.strong_induction_on with
  | _ k ih =>
    intro s h obj seedId hk
    rw [sliceAndPut]
    by_cases hlt : seedId < data.length
    · rw [windows_of_lt data seedId hlt, putChunks]
      simp only [hlt, ↓reduceIte, stop_eq_min, blob]
      generalize marshalAndPut ser digest s
        { Links := [], Data := .mk (slice data seedId (min (seedId + chunkSize) data.length)) }
        h = m
      obtain ⟨e, s1, h1⟩ := m
      cases e with
      | some err => rfl
      | none =>
        simp only
        have hpos := chunkSize_pos
        exact ih (data.length - (seedId + chunkSize)) (by omega) s1 _ _ _ rfl
    · rw [windows_of_ge data seedId hlt, putChunks]
      simp [hlt]

/-- On a store without entries and without failing existence check whose
next write fails, `marshalAndPut` returns no error and writes nothing. -/
theorem marshalAndPut_write_fails (ser : Object → ByteSeq) (digest : ByteSeq → ByteSeq)
    (obj : Object) (h : Hash) (c : Nat) (rest : List (Option Nat)) (log : List StoreOp) :
    marshalAndPut ser digest
        { entries := [], hasFaults := [], putFaults := some c :: rest, log := log } obj h =
      (none, { entries := [], hasFaults := [], putFaults := rest,
               log := log ++ [.has (digest (ser obj)) false,
                 .putFailed (digest (ser obj)) (ser obj) (.storage c)] },
        ⟨ser obj⟩) := by
  simp [marshalAndPut, KVStore.Has, KVStore.Put, KVStore.get, Hash.Reset, Hash.Write, Hash.Sum]

theorem putChunks_bigData (ser : Object → ByteSeq) (digest : ByteSeq → ByteSeq) (h : Hash) :
    putChunks ser digest [List.replicate chunkSize 0, [0]] storeFailingThreeWrites h
        { Links := [], Data := .nil } =
      (none, bigObject ser digest,
        { entries := [], hasFaults := [], putFaults := [some 1],
          log := [.has (digest (ser (blob (List.replicate chunkSize 0)))) false,
            .putFailed (digest (ser (blob (List.replicate chunkSize 0))))
              (ser (blob (List.replicate chunkSize 0))) (.storage 1),
            .has (digest (ser (blob [0]))) false,
            .putFailed (digest (ser (blob [0]))) (ser (blob [0])) (.storage 1)] },
        ⟨ser (blob [0])⟩) := by
  have ht : ByteSlice.append (ByteSlice.append .nil tagBlob) tagBlob =
      .mk (tagBlob ++ tagBlob) := by decide
  have e0 : storeFailingThreeWrites =
      { entries := [], hasFaults := [], putFaults := [some 1, some 1, some 1], log := [] } := rfl
  rw [e0, putChunks, marshalAndPut_write_fails]
  simp only
  rw [putChunks, marshalAndPut_write_fails]
  simp only
  rw [putChunks, ht]
  simp only [Hash.Sum, bigObject, blob, List.nil_append, List.cons_append,
    List.length_replicate, List.length_singleton, Nat.cast_one]

/-- Go `sliceFile` on a file longer than `256*1024` bytes, with the loop of
`sliceAndPut` as a recursion over the windows. -/
theorem sliceFile_large (ser : Object → ByteSeq) (digest : ByteSeq → ByteSeq) (file : File)
    (s : KVStore) (h : Hash) (hl : chunkSize < file.Bytes.length) :
    sliceFile ser digest file s h =
      match putChunks ser digest (windows file.Bytes.bytes 0) s h
          { Links := [], Data := .nil } with
      | (some err, _, store, h) => (.err err, store, h)
      | (none, object, store, h) => (.ok object, store, h) := by
  unfold sliceFile
  rw [if_neg (Nat.not_le.mpr hl),
    sliceAndPut_eq_putChunks ser digest file.Bytes.bytes (file.Bytes.bytes.length - 0) _ _ _ 0
      rfl]

theorem windows_bigFile : windows bigFile.Bytes.bytes 0 = [List.replicate chunkSize 0, [0]] :=
  windows_bigData

theorem sliceFile_bigFile_eq (ser : Object → ByteSeq) (digest : ByteSeq → ByteSeq)
    (s : KVStore) (h : Hash) :
    sliceFile ser digest bigFile s h =
      match putChunks ser digest [List.replicate chunkSize 0, [0]] s h
          { Links := [], Data := .nil } with
      | (some err, _, store, h) => (.err err, store, h)
      | (none, object, store, h) => (.ok object, store, h) := by
  rw [sliceFile_large ser digest bigFile _ _ bigFile_large, windows_bigFile]

theorem sliceFile_bigFile (ser : Object → ByteSeq) (digest : ByteSeq → ByteSeq) (s : KVStore)
    (h : Hash) (x : Option Error × Object × KVStore × Hash) :
    putChunks ser digest [List.replicate chunkSize 0, [0]] s h
        { Links := [], Data := .nil } = x →
      sliceFile ser digest bigFile s h =
        match x with
        | (some err, _, store, h) => (.err err, store, h)
        | (none, object, store, h) => (.ok object, store, h) := by
  intro hx
  subst hx
  exact sliceFile_bigFile_eq ser digest s h

theorem sliceFile_bigFile_failing_writes (ser : Object → ByteSeq) (digest : ByteSeq → ByteSeq)
    (h : Hash) :
    sliceFile ser digest bigFile storeFailingThreeWrites h =
      (.ok (bigObject ser digest),
        { entries := [], hasFaults := [], putFaults := [some 1],
          log := [.has (digest (ser (blob (List.replicate chunkSize 0)))) false,
            .putFailed (digest (ser (blob (List.replicate chunkSize 0))))
              (ser (blob (List.replicate chunkSize 0))) (.storage 1),
            .has (digest (ser (blob [0]))) false,
            .putFailed (digest (ser (blob [0]))) (ser (blob [0])) (.storage 1)] },
        ⟨ser (blob [0])⟩) :=
  sliceFile_bigFile ser digest _ h _ (putChunks_bigData ser digest h)

/-- Go `addFileToStore`, given what `sliceFile` and `marshalAndPut` return
when they return no error. -/
theorem addFileToStore_of_ok (ser : Object → ByteSeq) (digest : ByteSeq → ByteSeq)
    (file : File) (s : KVStore) (h : Hash) (obj : Object) (s1 s2 : KVStore) (h1 h2 : Hash)
    (hx : sliceFile ser digest file s h = (.ok obj, s1, h1))
    (hm : marshalAndPut ser digest s1 obj h1 = (none, s2, h2)) :
    addFileToStore ser digest file s h =
      (.ok (digest (h2.written ++ ser obj)), s2, ⟨h2.written ++ ser obj⟩) := by
  unfold addFileToStore
  rw [hx]
  simp only [hm, generateMerkleRoot_eq]

theorem Add_file (ser : Object → ByteSeq) (digest : ByteSeq → ByteSeq) (f : File)
    (s : KVStore) (h : Hash) :
    Add ser digest s (.file f) h = addFileToStore ser digest f s h := rfl

/-- The run of `Add` on the file `bigFile` from a store whose writes fail. -/
theorem Add_bigFile_failing_writes (ser : Object → ByteSeq) (digest : ByteSeq → ByteSeq) :
    Add ser digest storeFailingThreeWrites (.file bigFile) ⟨[]⟩ =
      (.ok (digest (ser (bigObject ser digest) ++ ser (bigObject ser digest))),
        { entries := [], hasFaults := [], putFaults := [],
          log := [.has (digest (ser (blob (List.replicate chunkSize 0)))) false,
            .putFailed (digest (ser (blob (List.replicate chunkSize 0))))
              (ser (blob (List.replicate chunkSize 0))) (.storage 1),
            .has (digest (ser (blob [0]))) false,
            .putFailed (digest (ser (blob [0]))) (ser (blob [0])) (.storage 1),
            .has (digest (ser (bigObject ser digest))) false,
            .putFailed (digest (ser (bigObject ser digest))) (ser (bigObject ser digest))
              (.storage 1)] },
        ⟨ser (bigObject ser digest) ++ ser (bigObject ser digest)⟩) := by
  rw [Add_file]
  exact addFileToStore_of_ok ser digest bigFile storeFailingThreeWrites ⟨[]⟩
    (bigObject ser digest) _ _ ⟨ser (blob [0])⟩ ⟨ser (bigObject ser digest)⟩
    (sliceFile_bigFile_failing_writes ser digest ⟨[]⟩)
    (marshalAndPut_write_fails ser digest (bigObject ser digest) ⟨ser (blob [0])⟩ 1 [] _)

/-- A file longer than `C = 256*1024` bytes added as the root:
whenever `sliceFile` returns the file's object, it has `ceil(n/C)` links in
byte-offset order; link `i` has an empty name, the length of window `i` as
size (`C` for every window but the last, between 1 and `C` for the last) and
the digest of the serialization of the blob of window `i` as hash; the windows
concatenated are the content and the sizes sum to `n`; a file of `C + 1` bytes
gives 2 links, the second of size 1.  On a store whose calls do not fail
`sliceFile` and `Add` succeed.  After a successful `Add`, when no write of
the store fails, every such hash is a key of the store, holding the
serialization of the blob when the digest is collision-free and the store was
content-addressed. -/
theorem large_file_is_chunked (ser : Object → ByteSeq) (digest : ByteSeq → ByteSeq)
    (file : File) (s : KVStore) (h : Hash) (hn : chunkSize < file.Bytes.bytes.length) :
    (∀ obj, (sliceFile ser digest file s h).1 = .ok obj →
      obj.Links.length = (file.Bytes.bytes.length + chunkSize - 1) / chunkSize ∧
      (∀ i, i < obj.Links.length →
        obj.Links[i]? = some
            { Name := "", Hash := digest (ser { Links := [], Data := .mk (window file.Bytes.bytes i) }),
              Size := ((window file.Bytes.bytes i).length : Int) } ∧
          (i + 1 < obj.Links.length → (window file.Bytes.bytes i).length = chunkSize) ∧
          (i + 1 = obj.Links.length →
            1 ≤ (window file.Bytes.bytes i).length ∧ (window file.Bytes.bytes i).length ≤ chunkSize)) ∧
      ((List.range obj.Links.length).map (window file.Bytes.bytes)).flatten = file.Bytes.bytes ∧
      (obj.Links.map (fun l => l.Size)).sum = (file.Bytes.bytes.length : Int) ∧
      (file.Bytes.bytes.length = chunkSize + 1 →
        obj.Links.length = 2 ∧ obj.Links[1]?.map (fun l => l.Size) = some 1)) ∧
    (s.Reliable →
      (∃ obj, (sliceFile ser digest file s h).1 = .ok obj) ∧
      ∃ r, (Add ser digest s (.file file) h).1 = .ok r) ∧
    (s.Writable → ∀ r, (Add ser digest s (.file file) h).1 = .ok r →
      ∀ i, i < (file.Bytes.bytes.length + chunkSize - 1) / chunkSize →
        ((Add ser digest s (.file file) h).2.1.get
          (digest (ser { Links := [], Data := .mk (window file.Bytes.bytes i) }))).isSome = true ∧
        (Function.Injective digest → ContentAddressed digest s →
          (Add ser digest s (.file file) h).2.1.get
              (digest (ser { Links := [], Data := .mk (window file.Bytes.bytes i) })) =
            some (ser { Links := [], Data := .mk (window file.Bytes.bytes i) }))) := by
  have hpos := chunkSize_pos
  have hlinks := fileObject_links ser digest file.Bytes hn
  have hcount : (fileObject ser digest file.Bytes).Links.length =
      (file.Bytes.bytes.length + chunkSize - 1) / chunkSize := by
    rw [hlinks, List.length_map, windows_zero_length]
  refine ⟨?_, ?_, ?_⟩
  · intro obj hok
    have hobj : obj = fileObject ser digest file.Bytes := by
      rcases sliceFile_ok ser digest file s h with ⟨h1, -⟩ | ⟨e, he⟩
      · rw [h1] at hok
        simp only [Result.ok.injEq] at hok
        exact hok.symm
      · rw [he] at hok
        simp at hok
    subst hobj
    refine ⟨hcount, ?_, ?_, ?_, ?_⟩
    · intro i hi
      rw [hcount] at hi
      have hi2 := (lt_count_iff _ _).mp hi
      have hlen := window_length file.Bytes.bytes i
      refine ⟨?_, ?_, ?_⟩
      · rw [hlinks, List.getElem?_map, windows_zero_getElem?, if_pos hi2]
        rfl
      · intro hi3
        rw [hcount] at hi3
        have hi4 := (lt_count_iff _ _).mp hi3
        rw [Nat.succ_mul] at hi4
        rw [hlen, Nat.succ_mul]
        omega
      · intro hi3
        rw [hcount] at hi3
        rw [hlen, Nat.succ_mul]
        omega
    · rw [hcount, ← windows_eq_map_range, windows_flatten file.Bytes.bytes _ 0 rfl]
      rfl
    · rw [hlinks, List.map_map]
      have hfun : ((fun l => l.Size) ∘ chunkLink ser digest) =
          fun w : ByteSeq => (w.length : Int) := rfl
      rw [hfun, sum_map_length_cast, ← List.length_flatten,
        windows_flatten file.Bytes.bytes _ 0 rfl]
      rfl
    · intro hc1
      have h2 : (fileObject ser digest file.Bytes).Links.length = 2 := by
        rw [hcount, hc1]
        have e : chunkSize + 1 + chunkSize - 1 = 0 + chunkSize + chunkSize := by omega
        rw [e, Nat.add_div_right _ hpos, Nat.add_div_right _ hpos, Nat.zero_div]
      refine ⟨h2, ?_⟩
      have h1lt : 1 * chunkSize < file.Bytes.bytes.length := by omega
      rw [hlinks, List.getElem?_map, windows_zero_getElem?, if_pos h1lt]
      have hlen := window_length file.Bytes.bytes 1
      simp only [Option.map_some', chunkLink, Option.some.injEq]
      rw [hlen]
      have : min ((1 + 1) * chunkSize) file.Bytes.bytes.length - 1 * chunkSize = 1 := by omega
      rw [this]
      rfl
  · intro hs
    obtain ⟨h1, -, -⟩ := sliceFile_reliable ser digest file s h hs
    obtain ⟨h2, -⟩ := (Add_spec ser digest (.file file) s h).2 hs
    exact ⟨⟨_, h1⟩, ⟨_, h2⟩⟩
  · intro hs r hok
    have h3 := Add_file_writable ser digest file s h hs r hok
    intro i hi
    have hi2 := (lt_count_iff _ _).mp hi
    have hmem : blob (window file.Bytes.bytes i) ∈
        fileBlobs file.Bytes ++ [fileObject ser digest file.Bytes] := by
      rw [fileBlobs_large file.Bytes hn, windows_eq_map_range]
      apply List.mem_append_left
      exact List.mem_map_of_mem _ (List.mem_map_of_mem _ (List.mem_range.mpr hi))
    unfold KVStore.get
    rw [h3.2]
    exact ⟨isSome_lookup_offerAll ser digest _ _ _ hmem,
      fun hinj hca => lookup_offerAll_eq ser digest hinj _ _ hca _ hmem⟩

/-- A file of at most `256*1024` bytes (also an empty one, and one
of exactly that length) is not split: whenever `sliceFile` returns an object
it is the blob with no links and the whole content as data, empty for an empty
file.  On a store whose calls do not fail, `sliceFile` and `Add` succeed.
After a successful `Add`, when no write of the store fails, the only entry
`Add` can have added is that blob under the digest of its serialization (no
composite object is written), that key is present, and it holds the
serialization of the blob when the digest is collision-free and the store was
content-addressed. -/
theorem small_file_is_one_blob (ser : Object → ByteSeq) (digest : ByteSeq → ByteSeq)
    (file : File) (s : KVStore) (h : Hash) (hn : file.Bytes.length ≤ chunkSize) :
    (∀ obj, (sliceFile ser digest file s h).1 = .ok obj →
      obj = { Links := [], Data := file.Bytes } ∧ (file.Bytes.length = 0 → obj.Data.bytes = [])) ∧
    (s.Reliable →
      (sliceFile ser digest file s h).1 = .ok { Links := [], Data := file.Bytes } ∧
      ∃ r, (Add ser digest s (.file file) h).1 = .ok r) ∧
    (s.Writable → ∀ r, (Add ser digest s (.file file) h).1 = .ok r →
      (Add ser digest s (.file file) h).2.1.entries =
        addEntry s.entries (digest (ser { Links := [], Data := file.Bytes }))
          (ser { Links := [], Data := file.Bytes }) ∧
      ((Add ser digest s (.file file) h).2.1.get
        (digest (ser { Links := [], Data := file.Bytes }))).isSome = true ∧
      (Function.Injective digest → ContentAddressed digest s →
        (Add ser digest s (.file file) h).2.1.get
            (digest (ser { Links := [], Data := file.Bytes })) =
          some (ser { Links := [], Data := file.Bytes }))) := by
  have hobj := fileObject_small ser digest file.Bytes hn
  have hbl := fileBlobs_small file.Bytes hn
  refine ⟨?_, ?_, ?_⟩
  · intro obj hok
    rcases sliceFile_ok ser digest file s h with ⟨h1, -⟩ | ⟨e, he⟩
    · rw [h1, hobj] at hok
      simp only [Result.ok.injEq] at hok
      subst hok
      refine ⟨rfl, ?_⟩
      intro h0
      exact List.length_eq_zero.mp h0
    · rw [he] at hok
      simp at hok
  · intro hs
    obtain ⟨h1, -, -⟩ := sliceFile_reliable ser digest file s h hs
    obtain ⟨h2, -⟩ := (Add_spec ser digest (.file file) s h).2 hs
    rw [hobj] at h1
    exact ⟨h1, _, h2⟩
  · intro hs r hok
    have h3 := Add_file_writable ser digest file s h hs r hok
    simp only [hobj, hbl, List.singleton_append] at h3
    have hent := h3.2
    rw [offerAll_pair_self] at hent
    have hsome : ((Add ser digest s (.file file) h).2.1.get
        (digest (ser { Links := [], Data := file.Bytes }))).isSome = true := by
      unfold KVStore.get
      rw [hent]
      exact lookup_addEntry_self _ _ _
    refine ⟨hent, hsome, ?_⟩
    intro hinj hca
    unfold KVStore.get
    rw [h3.2]
    exact lookup_offerAll_eq ser digest hinj _ _ hca _ (by simp)

/-- Go `sliceFile` on a file of at most `256*1024` bytes, given what
`marshalAndPut` returns when it returns no error. -/
theorem sliceFile_small_of_ok (ser : Object → ByteSeq) (digest : ByteSeq → ByteSeq)
    (file : File) (s : KVStore) (h : Hash) (s1 : KVStore) (h1 : Hash)
    (hn : file.Bytes.length ≤ chunkSize)
    (hm : marshalAndPut ser digest s { Links := [], Data := file.Bytes } h = (none, s1, h1)) :
    sliceFile ser digest file s h = (.ok { Links := [], Data := file.Bytes }, s1, h1) := by
  unfold sliceFile
  rw [if_pos hn]
  simp only [hm]

/-- The run of `Add` on the file `a.txt` from a store whose writes fail. -/
theorem Add_fileHi_failing_writes (ser : Object → ByteSeq) (digest : ByteSeq → ByteSeq) :
    Add ser digest storeFailingWrites (.file fileHi) ⟨[]⟩ =
      (.ok (digest (ser { Links := [], Data := .mk [104, 105] } ++
          ser { Links := [], Data := .mk [104, 105] })),
        { entries := [], hasFaults := [], putFaults := [],
          log := [.has (digest (ser { Links := [], Data := .mk [104, 105] })) false,
            .putFailed (digest (ser { Links := [], Data := .mk [104, 105] }))
              (ser { Links := [], Data := .mk [104, 105] }) (.storage 1),
            .has (digest (ser { Links := [], Data := .mk [104, 105] })) false,
            .putFailed (digest (ser { Links := [], Data := .mk [104, 105] }))
              (ser { Links := [], Data := .mk [104, 105] }) (.storage 1)] },
        ⟨ser { Links := [], Data := .mk [104, 105] } ++
          ser { Links := [], Data := .mk [104, 105] }⟩) := by
  rw [Add_file]
  exact addFileToStore_of_ok ser digest fileHi storeFailingWrites ⟨[]⟩
    { Links := [], Data := .mk [104, 105] } _ _ ⟨ser { Links := [], Data := .mk [104, 105] }⟩
    ⟨ser { Links := [], Data := .mk [104, 105] }⟩
    (sliceFile_small_of_ok ser digest fileHi storeFailingWrites ⟨[]⟩ _ _ (by decide)
      (marshalAndPut_write_fails ser digest { Links := [], Data := .mk [104, 105] } ⟨[]⟩ 1
        [some 1] []))
    (marshalAndPut_write_fails ser digest { Links := [], Data := .mk [104, 105] }
      ⟨ser { Links := [], Data := .mk [104, 105] }⟩ 1 [] _)

theorem intOfUint64_of_lt (x : Nat) (hx : x < 2 ^ 63) : intOfUint64 x = (x : Int) := by
  unfold intOfUint64
  have h1 : x % 2 ^ 64 = x := Nat.mod_eq_of_lt (by omega)
  rw [h1, if_pos hx]

theorem intOfUint64_of_ge (x : Nat) (h1 : 2 ^ 63 ≤ x) (h2 : x < 2 ^ 64) :
    intOfUint64 x = (x : Int) - 2 ^ 64 := by
  unfold intOfUint64
  have h3 : x % 2 ^ 64 = x := Nat.mod_eq_of_lt h2
  rw [h3, if_neg (by omega)]

/-- Two files whose `Bytes()` are the same slice (the same bytes, and `nil`
in both or in neither), whatever their names and
reported sizes: `Add` and `sliceFile` behave identically on them (same result,
same calls of the store with the same keys, same store and accumulator
afterwards); whenever `Add` succeeds on both, in whatever stores, the root
hashes are equal; on a store whose calls do not fail, adding the second file
after the first succeeds both times with the same root hash; and whenever both
runs succeed and no write of the store fails, the second adds no entry. -/
theorem same_content_same_objects (ser : Object → ByteSeq) (digest : ByteSeq → ByteSeq)
    (f1 f2 : File) (hb : f1.Bytes = f2.Bytes) :
    (∀ s h, Add ser digest s (.file f1) h = Add ser digest s (.file f2) h) ∧
    (∀ s h, (sliceFile ser digest f1 s h) = (sliceFile ser digest f2 s h)) ∧
    (∀ s1 h1 s2 h2 r1 r2, (Add ser digest s1 (.file f1) h1).1 = .ok r1 →
      (Add ser digest s2 (.file f2) h2).1 = .ok r2 → r1 = r2) ∧
    (∀ s h, s.Reliable →
      ∃ r, (Add ser digest s (.file f1) h).1 = .ok r ∧
        (Add ser digest (Add ser digest s (.file f1) h).2.1 (.file f2)
          (Add ser digest s (.file f1) h).2.2).1 = .ok r) ∧
    (∀ s h, s.Writable → ∀ r1 r2, (Add ser digest s (.file f1) h).1 = .ok r1 →
      (Add ser digest (Add ser digest s (.file f1) h).2.1 (.file f2)
          (Add ser digest s (.file f1) h).2.2).1 = .ok r2 →
      (Add ser digest (Add ser digest s (.file f1) h).2.1 (.file f2)
          (Add ser digest s (.file f1) h).2.2).2.1.entries =
        (Add ser digest s (.file f1) h).2.1.entries) := by
  have hsf : ∀ s h, sliceFile ser digest f1 s h = sliceFile ser digest f2 s h := by
    intro s h
    simp only [sliceFile, hb]
  have hadd : ∀ s h, Add ser digest s (.file f1) h = Add ser digest s (.file f2) h := by
    intro s h
    simp only [Add, Node.Type, Node.asFile, ↓reduceIte, addFileToStore, hsf]
  refine ⟨hadd, hsf, ?_, ?_, ?_⟩
  · intro s1 h1 s2 h2 r1 r2 hr1 hr2
    rw [← hadd] at hr2
    rw [Add_ok_eq ser digest _ s1 h1 r1 hr1, Add_ok_eq ser digest _ s2 h2 r2 hr2]
  · intro s h hs
    rw [← hadd]
    obtain ⟨i1, -⟩ := Add_twice ser digest (.file f1) s h hs
    obtain ⟨k1, -⟩ := (Add_spec ser digest (.file f1) s h).2 hs
    refine ⟨digest (ser (fileObject ser digest f1.Bytes) ++
      ser (fileObject ser digest f1.Bytes)), k1, ?_⟩
    rw [i1, k1]
    rfl
  · intro s h hs r1 r2 hr1 hr2
    rw [← hadd] at hr2 ⊢
    have w1 := Add_file_writable ser digest f1 s h hs r1 hr1
    have w2 := Add_file_writable ser digest f1 _ _ w1.1 r2 hr2
    rw [w2.2, w1.2, offerAll_idem]

/-- Two directories with the same children, whatever their own
names and reported sizes: `Add` behaves identically on them from the same store;
whenever `Add` succeeds on both, in whatever stores and with whatever
accumulators, the tree hashes are equal; on stores whose calls do not fail the
results are equal; and such a store gives a hash when every node is what it
declares. -/
theorem same_children_same_tree_hash (ser : Object → ByteSeq) (digest : ByteSeq → ByteSeq)
    (n1 n2 : String) (z1 z2 : Nat) (children : List Node) :
    (∀ s h, Add ser digest s (.dir n1 z1 children) h =
      Add ser digest s (.dir n2 z2 children) h) ∧
    (∀ s1 h1 s2 h2 r1 r2, (Add ser digest s1 (.dir n1 z1 children) h1).1 = .ok r1 →
      (Add ser digest s2 (.dir n2 z2 children) h2).1 = .ok r2 → r1 = r2) ∧
    (∀ s1 h1 s2 h2, s1.Reliable → s2.Reliable →
      (Add ser digest s1 (.dir n1 z1 children) h1).1 =
        (Add ser digest s2 (.dir n2 z2 children) h2).1) ∧
    (allWellFormed children = true → ∀ s h, s.Reliable →
      ∃ r, (Add ser digest s (.dir n1 z1 children) h).1 = .ok r) := by
  have hadd : ∀ s h, Add ser digest s (.dir n1 z1 children) h =
      Add ser digest s (.dir n2 z2 children) h := by
    intro s h
    simp only [Add, Node.Type, Node.asDir, reduceCtorEq, ↓reduceIte, addDirToStore, sliceDir]
  refine ⟨hadd, ?_, ?_, ?_⟩
  · intro s1 h1 s2 h2 r1 r2 hr1 hr2
    rw [← hadd] at hr2
    rcases (Add_spec ser digest (.dir n1 z1 children) s1 h1).1 with k1 | ⟨e, he⟩
    · rcases (Add_spec ser digest (.dir n1 z1 children) s2 h2).1 with k2 | ⟨e, he⟩
      · rw [k1] at hr1
        rw [k2, hr1] at hr2
        simp only [Result.ok.injEq] at hr2
        exact hr2
      · rw [he] at hr2
        simp at hr2
    · rw [he] at hr1
      simp at hr1
  · intro s1 h1 s2 h2 hs1 hs2
    rw [← hadd, ((Add_spec ser digest (.dir n1 z1 children) s1 h1).2 hs1).1,
      ((Add_spec ser digest (.dir n1 z1 children) s2 h2).2 hs2).1]
  · intro hwf s h hs
    refine ⟨digest (ser (treeOf ser digest children) ++ ser (treeOf ser digest children)), ?_⟩
    rw [((Add_spec ser digest (.dir n1 z1 children) s h).2 hs).1]
    simp only [addResult, hwf, ↓reduceIte]

/-- The hashes `Add` returns for two small files differ as soon as the digest
is collision-free and the serialization tells their blobs apart. -/
theorem Add_small_files_ne (ser : Object → ByteSeq) (digest : ByteSeq → ByteSeq)
    (hd : Function.Injective digest) (f1 f2 : File)
    (h1 : f1.Bytes.length ≤ chunkSize) (h2 : f2.Bytes.length ≤ chunkSize)
    (hne : ser { Links := [], Data := f1.Bytes } ≠ ser { Links := [], Data := f2.Bytes })
    (s1 s2 : KVStore) (a1 a2 : Hash) (r1 r2 : ByteSeq)
    (hr1 : (Add ser digest s1 (.file f1) a1).1 = .ok r1)
    (hr2 : (Add ser digest s2 (.file f2) a2).1 = .ok r2) : r1 ≠ r2 := by
  intro heq
  have e1 := Add_ok_eq ser digest _ s1 a1 r1 hr1
  have e2 := Add_ok_eq ser digest _ s2 a2 r2 hr2
  rw [e1, e2] at heq
  simp only [rootObject, fileObject_small ser digest _ h1,
    fileObject_small ser digest _ h2] at heq
  exact hne (append_self_inj (hd heq))

/-! ## The claims -/

/-- Claim C1 (defect of the code).  `Add` on the two-byte file `a.txt`, from
the empty store: for every serialization and digest the blob is stored under
the digest of its serialization, but `Add` returns the digest of that
serialization written twice, because `generateMerkleRoot` writes into the
accumulator `marshalAndPut` has just filled, without a reset.  For a
collision-free digest the returned value is not the key of the root object;
with the length-prefixed serialization and the identity as digest it is not a
key of the store at all. -/
theorem C1_Add_returns_digest_of_doubled_serialization :
    (∀ (ser : Object → ByteSeq) (digest : ByteSeq → ByteSeq),
      (Add ser digest KVStore.empty (.file fileHi) ⟨[]⟩).1 =
          .ok (digest (ser { Links := [], Data := .mk [104, 105] } ++
            ser { Links := [], Data := .mk [104, 105] })) ∧
        (Add ser digest KVStore.empty (.file fileHi) ⟨[]⟩).2.1.entries =
          [(digest (ser { Links := [], Data := .mk [104, 105] }),
            ser { Links := [], Data := .mk [104, 105] })] ∧
        (Function.Injective digest → ser { Links := [], Data := .mk [104, 105] } ≠ [] →
          (Add ser digest KVStore.empty (.file fileHi) ⟨[]⟩).1 ≠
            .ok (digest (ser { Links := [], Data := .mk [104, 105] })))) ∧
    (Add lenSer id KVStore.empty (.file fileHi) ⟨[]⟩).1 =
      .ok [0, 2, 104, 105, 0, 2, 104, 105] ∧
    (Add lenSer id KVStore.empty (.file fileHi) ⟨[]⟩).2.1.get [0, 2, 104, 105] =
      some [0, 2, 104, 105] ∧
    (Add lenSer id KVStore.empty (.file fileHi) ⟨[]⟩).2.1.get
      [0, 2, 104, 105, 0, 2, 104, 105] = none := by
  refine ⟨?_, by decide, by decide, by decide⟩
  intro ser digest
  have hn : fileHi.Bytes.length ≤ chunkSize := by decide
  obtain ⟨h1, h2⟩ := (Add_spec ser digest (.file fileHi) KVStore.empty ⟨[]⟩).2 reliable_empty
  simp only [addResult, addWrites, fileObject_small ser digest _ hn, fileBlobs_small _ hn,
    List.singleton_append] at h1 h2
  refine ⟨h1, ?_, ?_⟩
  · rw [h2.2, offerAll_pair_self]
    rfl
  · intro hinj hne heq
    rw [h1] at heq
    simp only [Result.ok.injEq] at heq
    exact append_self_ne _ hne (hinj heq)

/-- Claim C2 (defect of the code).  For every serialization, digest, store
and accumulator and every file longer than `C = 256*1024` bytes: whenever
`sliceFile` returns the file's object, it has `ceil(n/C)` links in byte-offset
order; link `i` has an empty name, the length of window `i` as size (`C` for
every window but the last, between 1 and `C` for the last) and the digest of
the serialization of the blob of window `i` as hash; the windows concatenated
are the content and the sizes sum to `n`; a file of `C + 1` bytes gives 2
links, the second of size 1.  But these hashes need not be keys of the store
after a successful `Add`, because `marshalAndPut` drops the value of
`store.Put`: on the file of `C + 1` zero bytes, from a store without entries
whose writes fail, `sliceFile` returns the object with the two links, `Add`
returns a digest, the three writes (two chunk blobs and the file's object) have
failed and the store holds nothing under any key.  When no write fails, every
link hash is a key of the store after a successful `Add`. -/
theorem C2_chunk_blobs_are_lost_when_writes_fail :
    (∀ (ser : Object → ByteSeq) (digest : ByteSeq → ByteSeq) (file : File) (s : KVStore)
        (h : Hash) (obj : Object),
      chunkSize < file.Bytes.length → (sliceFile ser digest file s h).1 = .ok obj →
        obj.Links.length = (file.Bytes.length + chunkSize - 1) / chunkSize ∧
        (∀ i, i < obj.Links.length →
          obj.Links[i]? = some
              { Name := "",
                Hash := digest (ser { Links := [], Data := .mk (window file.Bytes.bytes i) }),
                Size := ((window file.Bytes.bytes i).length : Int) } ∧
            (i + 1 < obj.Links.length → (window file.Bytes.bytes i).length = chunkSize) ∧
            (i + 1 = obj.Links.length →
              1 ≤ (window file.Bytes.bytes i).length ∧
                (window file.Bytes.bytes i).length ≤ chunkSize)) ∧
        ((List.range obj.Links.length).map (window file.Bytes.bytes)).flatten =
          file.Bytes.bytes ∧
        (obj.Links.map (fun l => l.Size)).sum = (file.Bytes.length : Int) ∧
        (file.Bytes.length = chunkSize + 1 →
          obj.Links.length = 2 ∧ obj.Links[1]?.map (fun l => l.Size) = some 1)) ∧
    (∀ (ser : Object → ByteSeq) (digest : ByteSeq → ByteSeq),
      (sliceFile ser digest bigFile storeFailingThreeWrites ⟨[]⟩).1 =
        .ok (bigObject ser digest) ∧
      (bigObject ser digest).Links.map (fun l => l.Hash) =
        [digest (ser { Links := [], Data := .mk (List.replicate chunkSize 0) }),
          digest (ser { Links := [], Data := .mk [0] })] ∧
      (Add ser digest storeFailingThreeWrites (.file bigFile) ⟨[]⟩).1 =
        .ok (digest (ser (bigObject ser digest) ++ ser (bigObject ser digest))) ∧
      (Add ser digest storeFailingThreeWrites (.file bigFile) ⟨[]⟩).2.1.log =
        [.has (digest (ser { Links := [], Data := .mk (List.replicate chunkSize 0) })) false,
          .putFailed (digest (ser { Links := [], Data := .mk (List.replicate chunkSize 0) }))
            (ser { Links := [], Data := .mk (List.replicate chunkSize 0) }) (.storage 1),
          .has (digest (ser { Links := [], Data := .mk [0] })) false,
          .putFailed (digest (ser { Links := [], Data := .mk [0] }))
            (ser { Links := [], Data := .mk [0] }) (.storage 1),
          .has (digest (ser (bigObject ser digest))) false,
          .putFailed (digest (ser (bigObject ser digest))) (ser (bigObject ser digest))
            (.storage 1)] ∧
      (∀ k, (Add ser digest storeFailingThreeWrites (.file bigFile) ⟨[]⟩).2.1.get k = none)) ∧
    (∀ (ser : Object → ByteSeq) (digest : ByteSeq → ByteSeq) (file : File) (s : KVStore)
        (h : Hash) (r : ByteSeq),
      chunkSize < file.Bytes.length → s.Writable →
        (Add ser digest s (.file file) h).1 = .ok r →
          ∀ i, i < (file.Bytes.length + chunkSize - 1) / chunkSize →
            ((Add ser digest s (.file file) h).2.1.get
              (digest (ser { Links := [], Data := .mk (window file.Bytes.bytes i) }))).isSome =
                true) := by
  refine ⟨?_, ?_, ?_⟩
  · intro ser digest file s h obj hn hok
    exact (large_file_is_chunked ser digest file s h hn).1 obj hok
  · intro ser digest
    have hadd := Add_bigFile_failing_writes ser digest
    have hsl := sliceFile_bigFile_failing_writes ser digest ⟨[]⟩
    refine ⟨by rw [hsl], rfl, by rw [hadd], by rw [hadd]; rfl, ?_⟩
    intro k
    rw [hadd]
    rfl
  · intro ser digest file s h r hn hs hok i hi
    exact ((large_file_is_chunked ser digest file s h hn).2.2 hs r hok i hi).1

/-- Claim C3 (defect of the code).  For every serialization, digest, store
and accumulator and every file of at most `256*1024` bytes (also an empty one,
and one of exactly that length): whenever `sliceFile` returns an object it is
the blob with no links and the whole content as data, without bytes for an
empty file; on a store whose calls do not fail `sliceFile` and `Add` succeed.
But after a successful `Add` the store need not hold the blob, because
`marshalAndPut` drops the value of `store.Put`: on the two-byte file `a.txt`,
from a store without entries whose writes fail, `sliceFile` returns the blob,
`Add` returns a digest, both writes of the blob have failed and the store
holds nothing under any key.  When no write fails, the digest of the
serialization of the blob is a key of the store after a successful `Add`. -/
theorem C3_blob_is_lost_when_writes_fail :
    (∀ (ser : Object → ByteSeq) (digest : ByteSeq → ByteSeq) (file : File) (s : KVStore)
        (h : Hash),
      file.Bytes.length ≤ chunkSize →
        (∀ obj, (sliceFile ser digest file s h).1 = .ok obj →
          obj = { Links := [], Data := file.Bytes } ∧
            (file.Bytes.length = 0 → obj.Data.bytes = [])) ∧
        (s.Reliable →
          (sliceFile ser digest file s h).1 = .ok { Links := [], Data := file.Bytes } ∧
            ∃ r, (Add ser digest s (.file file) h).1 = .ok r)) ∧
    (∀ (ser : Object → ByteSeq) (digest : ByteSeq → ByteSeq),
      (sliceFile ser digest fileHi storeFailingWrites ⟨[]⟩).1 =
        .ok { Links := [], Data := .mk [104, 105] } ∧
      (Add ser digest storeFailingWrites (.file fileHi) ⟨[]⟩).1 =
        .ok (digest (ser { Links := [], Data := .mk [104, 105] } ++
          ser { Links := [], Data := .mk [104, 105] })) ∧
      (Add ser digest storeFailingWrites (.file fileHi) ⟨[]⟩).2.1.log =
        [.has (digest (ser { Links := [], Data := .mk [104, 105] })) false,
          .putFailed (digest (ser { Links := [], Data := .mk [104, 105] }))
            (ser { Links := [], Data := .mk [104, 105] }) (.storage 1),
          .has (digest (ser { Links := [], Data := .mk [104, 105] })) false,
          .putFailed (digest (ser { Links := [], Data := .mk [104, 105] }))
            (ser { Links := [], Data := .mk [104, 105] }) (.storage 1)] ∧
      (∀ k, (Add ser digest storeFailingWrites (.file fileHi) ⟨[]⟩).2.1.get k = none)) ∧
    (∀ (ser : Object → ByteSeq) (digest : ByteSeq → ByteSeq) (file : File) (s : KVStore)
        (h : Hash) (r : ByteSeq),
      file.Bytes.length ≤ chunkSize → s.Writable →
        (Add ser digest s (.file file) h).1 = .ok r →
          ((Add ser digest s (.file file) h).2.1.get
            (digest (ser { Links := [], Data := file.Bytes }))).isSome = true) := by
  refine ⟨?_, ?_, ?_⟩
  · intro ser digest file s h hn
    exact ⟨(small_file_is_one_blob ser digest file s h hn).1,
      (small_file_is_one_blob ser digest file s h hn).2.1⟩
  · intro ser digest
    have hadd := Add_fileHi_failing_writes ser digest
    have hsl := sliceFile_small_of_ok ser digest fileHi storeFailingWrites ⟨[]⟩ _ _
      (by decide)
      (marshalAndPut_write_fails ser digest { Links := [], Data := .mk [104, 105] } ⟨[]⟩ 1
        [some 1] [])
    refine ⟨by rw [hsl]; rfl, by rw [hadd], by rw [hadd], ?_⟩
    intro k
    rw [hadd]
    rfl
  · intro ser digest file s h r hn hs hok
    exact ((small_file_is_one_blob ser digest file s h hn).2.2 hs r hok).2.1

/-- Claim C4, refuted as stated for every directory.  A directory whose
child reports a size of `2^63` bytes: whenever `sliceDir` returns the tree
object, the size of the child's link is `-2^63`, not the reported size,
because `int(file.Size())` converts the `uint64` to the 64-bit `int` of the
link; from the empty store `sliceDir` does return the tree object. -/
theorem C4_link_size_of_a_huge_child_is_negative :
    (Node.file hugeFile).Size = 2 ^ 63 ∧
    (∀ (ser : Object → ByteSeq) (digest : ByteSeq → ByteSeq) (s : KVStore) (h : Hash)
        (t : Object),
      (sliceDir ser digest ⟨"d", 0, [.file hugeFile]⟩ s h).1 = .ok t →
        t.Links.map (fun l => l.Size) = [-(2 ^ 63)] ∧
        t.Links.map (fun l => l.Size) ≠ [((Node.file hugeFile).Size : Int)]) ∧
    ∃ t, (sliceDir lenSer id ⟨"d", 0, [.file hugeFile]⟩ KVStore.empty ⟨[]⟩).1 = .ok t := by
  refine ⟨rfl, ?_, ?_⟩
  · intro ser digest s h t hok
    obtain ⟨ht, -, -⟩ := sliceDir_ok ser digest ⟨"d", 0, [.file hugeFile]⟩ s h t hok
    subst ht
    have hsz : intOfUint64 hugeFile.Size = -(2 ^ 63) := by
      rw [intOfUint64_of_ge _ (by decide) (by decide)]
      decide
    simp only [treeOf, linksOf, linkOf, List.map_cons, List.map_nil, hsz]
    exact ⟨trivial, by decide⟩
  · exact ⟨_, sliceDir_reliable lenSer id ⟨"d", 0, [.file hugeFile]⟩ KVStore.empty ⟨[]⟩
      reliable_empty (by decide)⟩

/-- Claim C4, amended.  Whenever `sliceDir` returns the tree object of a
directory, it has one link per child, in iteration order, and link `i` carries
the name of child `i` and, as size, the reported size of child `i` converted
to `int`: the reported size itself when it is below `2^63`, and the reported
size minus `2^64` otherwise.  On a store whose calls do not fail and a tree
whose nodes are what they declare, `sliceDir` does return it.  For an empty
directory the tree object has no links, and `sliceDir` and `Add` succeed as
soon as no existence check fails. -/
theorem C4_tree_object_has_one_link_per_child (ser : Object → ByteSeq)
    (digest : ByteSeq → ByteSeq) (name : String) (size : Nat) (children : List Node)
    (s : KVStore) (h : Hash) :
    (∀ t, (sliceDir ser digest ⟨name, size, children⟩ s h).1 = .ok t →
      t.Links.length = children.length ∧
      ∀ i (hi : i < children.length), ∃ l, t.Links[i]? = some l ∧
        l.Name = children[i].Name ∧ l.Size = intOfUint64 children[i].Size ∧
        (children[i].Size < 2 ^ 63 → l.Size = (children[i].Size : Int)) ∧
        (2 ^ 63 ≤ children[i].Size → children[i].Size < 2 ^ 64 →
          l.Size = (children[i].Size : Int) - 2 ^ 64)) ∧
    (s.Reliable → allWellFormed children = true →
      ∃ t, (sliceDir ser digest ⟨name, size, children⟩ s h).1 = .ok t) ∧
    (children = [] → (∀ f ∈ s.hasFaults, f = none) →
      (sliceDir ser digest ⟨name, size, children⟩ s h).1 = .ok { Links := [], Data := .nil } ∧
      ∃ r, (Add ser digest s (.dir name size children) h).1 = .ok r) := by
  refine ⟨?_, ?_, ?_⟩
  · intro t hok
    obtain ⟨ht, -, -⟩ := sliceDir_ok ser digest ⟨name, size, children⟩ s h t hok
    subst ht
    simp only [treeOf, linksOf_eq_map, List.length_map, true_and]
    intro i hi
    refine ⟨linkOf ser digest children[i], ?_, (linkOf_name_size ser digest _).1,
      (linkOf_name_size ser digest _).2, ?_, ?_⟩
    · rw [List.getElem?_map, List.getElem?_eq_getElem hi]
      rfl
    · intro hlt
      rw [(linkOf_name_size ser digest _).2, intOfUint64_of_lt _ hlt]
    · intro h1 h2
      rw [(linkOf_name_size ser digest _).2, intOfUint64_of_ge _ h1 h2]
  · intro hs hwf
    exact ⟨_, sliceDir_reliable ser digest ⟨name, size, children⟩ s h hs hwf⟩
  · intro hc hf
    subst hc
    obtain ⟨m1, m2⟩ := marshalAndPut_of_hasFaults ser digest s { Links := [], Data := .nil } h hf
    have hh := marshalAndPut_hash ser digest s { Links := [], Data := .nil } h
    simp only [Add, Node.Type, Node.asDir, reduceCtorEq, ↓reduceIte, addDirToStore, sliceDir,
      sliceDirLoop_nil, sliceDirFinish]
    generalize marshalAndPut ser digest s { Links := [], Data := .nil } h = m at m1 m2 hh
    obtain ⟨e, s1, h1⟩ := m
    simp only at m1 m2 hh
    subst m1
    simp only [true_and]
    obtain ⟨m3, -⟩ := marshalAndPut_of_hasFaults ser digest s1 { Links := [], Data := .nil } h1 m2
    generalize marshalAndPut ser digest s1 { Links := [], Data := .nil } h1 = m at m3
    obtain ⟨e, s2, h2⟩ := m
    simp only at m3
    subst m3
    exact ⟨_, rfl⟩

/-- Claim C4 at the example directory, from the empty store: two links, the
first with the name `a.txt` and the size 2. -/
theorem C4_tree_object_has_one_link_per_child_witness :
    ∃ t, (sliceDir lenSer id ⟨"root", 0, [.file fileHi, .dir "b" 0 []]⟩
        KVStore.empty ⟨[]⟩).1 = .ok t ∧
      t.Links.length = 2 ∧
      ∃ l, t.Links[0]? = some l ∧ l.Name = "a.txt" ∧ l.Size = 2 := by
  have hc := C4_tree_object_has_one_link_per_child lenSer id "root" 0
    [.file fileHi, .dir "b" 0 []] KVStore.empty ⟨[]⟩
  obtain ⟨t, ht⟩ := hc.2.1 reliable_empty (by decide)
  obtain ⟨hlen, hl⟩ := hc.1 t ht
  obtain ⟨l, h1, h2, -, h3, -⟩ := hl 0 (by decide)
  exact ⟨t, ht, hlen, l, h1, h2, h3 (by decide)⟩

/-- Claim C5 (defect of the code).  A directory whose only child is a file of
`256*1024 + 1` bytes, encoded from the empty store: for every serialization
and digest, the hash in the child's link is the digest of the serialization
of the last chunk blob followed by the serialization of the file's object,
while `Add` on the file alone returns the digest of the serialization of the
file's object written twice.  For an injective serialization and a
collision-free digest the two differ, as they do with the length-prefixed
serialization and the identity as digest. -/
theorem C5_link_hash_of_large_file_differs :
    (∀ (ser : Object → ByteSeq) (digest : ByteSeq → ByteSeq),
      (sliceDir ser digest ⟨"d", 0, [.file bigFile]⟩ KVStore.empty ⟨[]⟩).1 =
          .ok { Links := [{ Name := "big.bin", Hash := digest (ser { Links := [], Data := .mk [0] } ++ ser (bigObject ser digest)), Size := bigFile.Size }],
                Data := .mk tagLink } ∧
        (Add ser digest KVStore.empty (.file bigFile) ⟨[]⟩).1 =
          .ok (digest (ser (bigObject ser digest) ++ ser (bigObject ser digest))) ∧
        (Function.Injective ser → Function.Injective digest →
          digest (ser { Links := [], Data := .mk [0] } ++ ser (bigObject ser digest)) ≠
            digest (ser (bigObject ser digest) ++ ser (bigObject ser digest)))) ∧
    (∃ t r, (sliceDir lenSer id ⟨"d", 0, [.file bigFile]⟩ KVStore.empty ⟨[]⟩).1 = .ok t ∧
      (Add lenSer id KVStore.empty (.file bigFile) ⟨[]⟩).1 = .ok r ∧
      t.Links.map (fun l => l.Hash) ≠ [r]) := by
  have hgen : ∀ (ser : Object → ByteSeq) (digest : ByteSeq → ByteSeq),
      (sliceDir ser digest ⟨"d", 0, [.file bigFile]⟩ KVStore.empty ⟨[]⟩).1 =
          .ok (bigTree ser digest) ∧
        (Add ser digest KVStore.empty (.file bigFile) ⟨[]⟩).1 =
          .ok (digest (ser (bigObject ser digest) ++ ser (bigObject ser digest))) ∧
        (Function.Injective ser → Function.Injective digest →
          digest (ser { Links := [], Data := .mk [0] } ++ ser (bigObject ser digest)) ≠
            digest (ser (bigObject ser digest) ++ ser (bigObject ser digest))) := by
    intro ser digest
    refine ⟨?_, ?_, ?_⟩
    · rw [sliceDir_reliable ser digest ⟨"d", 0, [.file bigFile]⟩ KVStore.empty ⟨[]⟩
        reliable_empty allWellFormed_bigDir]
      simp only [treeOf_bigDir]
    · rw [((Add_spec ser digest (.file bigFile) KVStore.empty ⟨[]⟩).2 reliable_empty).1]
      have h1 : fileObject ser digest bigFile.Bytes = bigObject ser digest :=
        fileObject_bigData ser digest
      simp only [addResult, h1]
    · intro hser hdig heq
      exact bigObject_ne_blob ser digest (.mk [0]) (hser (List.append_cancel_right (hdig heq)))
  refine ⟨hgen, ?_⟩
  refine ⟨_, _, (hgen lenSer id).1, (hgen lenSer id).2.1, ?_⟩
  intro heq
  simp only [bigTree, List.map_cons, List.map_nil, List.cons.injEq, and_true] at heq
  exact (hgen lenSer id).2.2 lenSer_injective Function.injective_id heq

/-- Claim C6 (defect of the code).  `Add` on the example directory, from the
empty store: for every serialization and digest the link of `a.txt` carries
the digest of the serialization of the blob written twice, the link of `b`
the digest of the serialization of its tree object written twice, and `Add`
returns the digest of the serialization of the parent written twice.  For a
collision-free digest the tree object is not the parent the spec asks for,
whose links carry the keys of the blob and of the tree object of `b`.  With
the length-prefixed serialization and the identity as digest, the blob and the
tree object of `b` are stored under their keys, the parent the spec asks for
is not in the store, and `Add` does not return its key. -/
theorem C6_example_hashes_are_doubled :
    (∀ (ser : Object → ByteSeq) (digest : ByteSeq → ByteSeq),
      (sliceDir ser digest ⟨"root", 0, [.file fileHi, .dir "b" 0 []]⟩ KVStore.empty ⟨[]⟩).1 =
          .ok (exampleTree ser digest) ∧
        (Add ser digest KVStore.empty exampleDir ⟨[]⟩).1 =
          .ok (digest (ser (exampleTree ser digest) ++ ser (exampleTree ser digest))) ∧
        (Function.Injective digest → ser { Links := [], Data := .mk [104, 105] } ≠ [] →
          exampleTree ser digest ≠ expectedTree ser digest)) ∧
    (Add lenSer id KVStore.empty exampleDir ⟨[]⟩).2.1.get (lenSer { Links := [], Data := .mk [104, 105] }) =
      some (lenSer { Links := [], Data := .mk [104, 105] }) ∧
    (Add lenSer id KVStore.empty exampleDir ⟨[]⟩).2.1.get (lenSer { Links := [], Data := .nil }) =
      some (lenSer { Links := [], Data := .nil }) ∧
    (Add lenSer id KVStore.empty exampleDir ⟨[]⟩).2.1.get (lenSer (expectedTree lenSer id)) = none ∧
    (Add lenSer id KVStore.empty exampleDir ⟨[]⟩).1 ≠ .ok (lenSer (expectedTree lenSer id)) := by
  refine ⟨?_, by decide, by decide, by decide, by decide⟩
  intro ser digest
  have hwf : allWellFormed [.file fileHi, .dir "b" 0 []] = true := by decide
  refine ⟨?_, ?_, ?_⟩
  · rw [sliceDir_reliable ser digest ⟨"root", 0, [.file fileHi, .dir "b" 0 []]⟩ KVStore.empty
      ⟨[]⟩ reliable_empty hwf]
    simp only [treeOf_example]
  · rw [((Add_spec ser digest exampleDir KVStore.empty ⟨[]⟩).2 reliable_empty).1]
    simp only [exampleDir, addResult, hwf, ↓reduceIte, treeOf_example]
  · intro hinj hne heq
    simp only [exampleTree, expectedTree, Object.mk.injEq, List.cons.injEq, Link.mk.injEq,
      true_and, and_true] at heq
    exact append_self_ne _ hne (hinj heq.1)

/-- Claim C7 (defect of the code).  `Add` on a directory whose only child is a
file of `256*1024 + 1` bytes, from the empty store: for every serialization
and digest `Add` succeeds and the entries of the store are those of the two
chunk blobs and of the tree object; the file's object, whose links list the
chunks, is never handed to `marshalAndPut`.  For an injective serialization
and a collision-free digest its key is absent from the store after `Add`, as
it is with the length-prefixed serialization and the identity as digest,
whereas `Add` on the file as the root stores it. -/
theorem C7_object_of_nested_large_file_is_not_stored :
    (∀ (ser : Object → ByteSeq) (digest : ByteSeq → ByteSeq),
      (∃ r, (Add ser digest KVStore.empty bigDir ⟨[]⟩).1 = .ok r) ∧
      (Add ser digest KVStore.empty bigDir ⟨[]⟩).2.1.entries =
        offerAll ser digest
          [{ Links := [], Data := .mk (List.replicate chunkSize 0) }, { Links := [], Data := .mk [0] },
            bigTree ser digest, bigTree ser digest] [] ∧
      (Function.Injective ser → Function.Injective digest →
        (Add ser digest KVStore.empty bigDir ⟨[]⟩).2.1.get
          (digest (ser (bigObject ser digest))) = none)) ∧
    (Add lenSer id KVStore.empty bigDir ⟨[]⟩).2.1.get (lenSer (bigObject lenSer id)) = none ∧
    (Add lenSer id KVStore.empty (.file bigFile) ⟨[]⟩).2.1.get (lenSer (bigObject lenSer id)) =
      some (lenSer (bigObject lenSer id)) := by
  have hgen : ∀ (ser : Object → ByteSeq) (digest : ByteSeq → ByteSeq),
      (∃ r, (Add ser digest KVStore.empty bigDir ⟨[]⟩).1 = .ok r) ∧
      (Add ser digest KVStore.empty bigDir ⟨[]⟩).2.1.entries =
        offerAll ser digest
          [{ Links := [], Data := .mk (List.replicate chunkSize 0) }, { Links := [], Data := .mk [0] },
            bigTree ser digest, bigTree ser digest] [] ∧
      (Function.Injective ser → Function.Injective digest →
        (Add ser digest KVStore.empty bigDir ⟨[]⟩).2.1.get
          (digest (ser (bigObject ser digest))) = none) := by
    intro ser digest
    obtain ⟨h1, h2⟩ := (Add_spec ser digest bigDir KVStore.empty ⟨[]⟩).2 reliable_empty
    rw [addWrites_bigDir] at h2
    refine ⟨⟨digest (ser (bigTree ser digest) ++ ser (bigTree ser digest)), ?_⟩, h2.2, ?_⟩
    · rw [h1]
      simp only [bigDir, addResult, allWellFormed_bigDir, ↓reduceIte, treeOf_bigDir]
    · intro hser hdig
      unfold KVStore.get
      rw [h2.2]
      apply lookup_offerAll_none
      · rfl
      · intro o ho heq
        have hobj := hser (hdig heq)
        simp only [List.mem_cons, List.mem_singleton, List.not_mem_nil, or_false, or_self] at ho
        rcases ho with h | h | h
        · exact bigObject_ne_blob ser digest _ (h ▸ hobj)
        · exact bigObject_ne_blob ser digest _ (h ▸ hobj)
        · exact bigObject_ne_bigTree ser digest (h ▸ hobj)
  refine ⟨hgen, (hgen lenSer id).2.2 lenSer_injective Function.injective_id, ?_⟩
  obtain ⟨-, h2⟩ := (Add_spec lenSer id (.file bigFile) KVStore.empty ⟨[]⟩).2 reliable_empty
  unfold KVStore.get
  rw [h2.2]
  have h1 : fileObject lenSer id bigFile.Bytes = bigObject lenSer id :=
    fileObject_bigData lenSer id
  exact lookup_offerAll_eq lenSer id Function.injective_id
    (addWrites lenSer id (.file bigFile)) KVStore.empty.entries (by intro kv hkv; cases hkv)
    (bigObject lenSer id) (by simp [addWrites, h1])

/-- Claim C8. On a store whose calls do not fail, running `Add` a second time
on the same node, with the store and the accumulator the first run has left,
returns what the first run returned and leaves the entries of the store as
they were after the first run. -/
theorem C8_Add_is_idempotent (ser : Object → ByteSeq) (digest : ByteSeq → ByteSeq)
    (node : Node) (s : KVStore) (h : Hash) (hs : s.Reliable) :
    (Add ser digest (Add ser digest s node h).2.1 node (Add ser digest s node h).2.2).1 =
        (Add ser digest s node h).1 ∧
      (Add ser digest (Add ser digest s node h).2.1 node (Add ser digest s node h).2.2).2.1.entries =
        (Add ser digest s node h).2.1.entries :=
  Add_twice ser digest node s h hs

/-- Claim C8, at a concrete input: the example directory added twice to the
empty store. -/
theorem C8_Add_is_idempotent_witness :
    KVStore.empty.Reliable ∧
      (Add lenSer id (Add lenSer id KVStore.empty exampleDir ⟨[]⟩).2.1 exampleDir
          (Add lenSer id KVStore.empty exampleDir ⟨[]⟩).2.2).1 =
        (Add lenSer id KVStore.empty exampleDir ⟨[]⟩).1 ∧
      (Add lenSer id (Add lenSer id KVStore.empty exampleDir ⟨[]⟩).2.1 exampleDir
          (Add lenSer id KVStore.empty exampleDir ⟨[]⟩).2.2).2.1.entries =
        (Add lenSer id KVStore.empty exampleDir ⟨[]⟩).2.1.entries :=
  ⟨reliable_empty, C8_Add_is_idempotent lenSer id exampleDir KVStore.empty ⟨[]⟩ reliable_empty⟩

/-- Claim C9 (defect of the code).  Two files whose `Bytes()` are the same
slice are treated alike: `Add` returns the same result and leaves the same
store, and root hashes agree across stores.  But two files with identical
byte content can get different hashes.  The code hands `file.Bytes()` to
`json.Marshal` as it is, and `json.Marshal` encodes a `nil` slice as `null`
and an empty slice as `""`: for two empty files, one with `nil` content and
one with empty content that is not `nil`, every collision-free digest and
every serialization that tells the two blobs apart, the root hashes `Add`
returns differ, whatever the stores; with the length-prefixed serialization
and the identity as digest, adding the second to the store that has received
the first adds a second entry.  Also, because `marshalAndPut` drops the value
of `store.Put`: after an `Add` of `a.txt` that returns a digest while its
writes fail, the `Add` of `copy.txt`, a file with the same content, adds an
entry. -/
theorem C9_identical_content_can_get_different_hashes :
    (∀ (ser : Object → ByteSeq) (digest : ByteSeq → ByteSeq) (f1 f2 : File),
      f1.Bytes = f2.Bytes →
        (∀ s h, Add ser digest s (.file f1) h = Add ser digest s (.file f2) h) ∧
        (∀ s1 h1 s2 h2 r1 r2, (Add ser digest s1 (.file f1) h1).1 = .ok r1 →
          (Add ser digest s2 (.file f2) h2).1 = .ok r2 → r1 = r2)) ∧
    emptyFileNil.Bytes.bytes = emptyFile.Bytes.bytes ∧
    (∀ (ser : Object → ByteSeq) (digest : ByteSeq → ByteSeq),
      Function.Injective digest →
      ser { Links := [], Data := .nil } ≠ ser { Links := [], Data := .mk [] } →
        ∀ s1 h1 s2 h2 r1 r2, (Add ser digest s1 (.file emptyFileNil) h1).1 = .ok r1 →
          (Add ser digest s2 (.file emptyFile) h2).1 = .ok r2 → r1 ≠ r2) ∧
    (Add lenSer id KVStore.empty (.file emptyFileNil) ⟨[]⟩).1 = .ok [0, 0] ∧
    (Add lenSer id KVStore.empty (.file emptyFile) ⟨[]⟩).1 = .ok [0, 0, 0, 0] ∧
    (Add lenSer id KVStore.empty (.file emptyFileNil) ⟨[]⟩).2.1.entries = [([0], [0])] ∧
    (Add lenSer id (Add lenSer id KVStore.empty (.file emptyFileNil) ⟨[]⟩).2.1
      (.file emptyFile)
      (Add lenSer id KVStore.empty (.file emptyFileNil) ⟨[]⟩).2.2).2.1.entries =
        [([0, 0], [0, 0]), ([0], [0])] ∧
    fileHi.Bytes = fileCopy.Bytes ∧
    (Add lenSer id storeFailingWrites (.file fileHi) ⟨[]⟩).1 =
      .ok [0, 2, 104, 105, 0, 2, 104, 105] ∧
    (Add lenSer id storeFailingWrites (.file fileHi) ⟨[]⟩).2.1.entries = [] ∧
    (Add lenSer id (Add lenSer id storeFailingWrites (.file fileHi) ⟨[]⟩).2.1
      (.file fileCopy)
      (Add lenSer id storeFailingWrites (.file fileHi) ⟨[]⟩).2.2).2.1.entries =
        [([0, 2, 104, 105], [0, 2, 104, 105])] := by
  refine ⟨?_, rfl, ?_, by decide, by decide, by decide, by decide, rfl, by decide, by decide,
    by decide⟩
  · intro ser digest f1 f2 hb
    exact ⟨(same_content_same_objects ser digest f1 f2 hb).1,
      (same_content_same_objects ser digest f1 f2 hb).2.2.1⟩
  · intro ser digest hd hne s1 h1 s2 h2 r1 r2 hr1 hr2
    exact Add_small_files_ne ser digest hd emptyFileNil emptyFile (by decide) (by decide) hne
      s1 s2 h1 h2 r1 r2 hr1 hr2

/-- Claim C10 (defect of the code).  Two directories with the same children
(for files: the same `Bytes()` slice), whatever their own names and reported
sizes, are treated alike: `Add` behaves identically on them from the same
store, and tree hashes agree across stores and accumulators.  But two
directories with identical structure and content can get different tree
hashes.  The code hands `file.Bytes()` to `json.Marshal` as it is, and
`json.Marshal` encodes a `nil` slice as `null` and an empty slice as `""`:
for two directories with one empty file of the same name and size, its
content `nil` in one and empty but not `nil` in the other, every collision-free
digest and every injective serialization, the tree hashes `Add` returns
differ, whatever the stores; on stores whose calls do not fail `Add` does
return them. -/
theorem C10_identical_directories_can_get_different_hashes :
    (∀ (ser : Object → ByteSeq) (digest : ByteSeq → ByteSeq) (n1 n2 : String) (z1 z2 : Nat)
        (children : List Node),
      (∀ s h, Add ser digest s (.dir n1 z1 children) h =
        Add ser digest s (.dir n2 z2 children) h) ∧
      (∀ s1 h1 s2 h2 r1 r2, (Add ser digest s1 (.dir n1 z1 children) h1).1 = .ok r1 →
        (Add ser digest s2 (.dir n2 z2 children) h2).1 = .ok r2 → r1 = r2)) ∧
    emptyFileNil.Name = emptyFile.Name ∧ emptyFileNil.Size = emptyFile.Size ∧
    emptyFileNil.Bytes.bytes = emptyFile.Bytes.bytes ∧
    (∀ (ser : Object → ByteSeq) (digest : ByteSeq → ByteSeq),
      Function.Injective digest → Function.Injective ser →
        (∀ s1 h1 s2 h2 r1 r2,
          (Add ser digest s1 (.dir "d" 0 [.file emptyFileNil]) h1).1 = .ok r1 →
          (Add ser digest s2 (.dir "d" 0 [.file emptyFile]) h2).1 = .ok r2 → r1 ≠ r2) ∧
        (∀ s1 h1 s2 h2, s1.Reliable → s2.Reliable →
          ∃ r1 r2, (Add ser digest s1 (.dir "d" 0 [.file emptyFileNil]) h1).1 = .ok r1 ∧
            (Add ser digest s2 (.dir "d" 0 [.file emptyFile]) h2).1 = .ok r2 ∧ r1 ≠ r2)) ∧
    (Add lenSer id KVStore.empty (.dir "d" 0 [.file emptyFileNil]) ⟨[]⟩).1 ≠
      (Add lenSer id KVStore.empty (.dir "d" 0 [.file emptyFile]) ⟨[]⟩).1 := by
  refine ⟨?_, rfl, rfl, rfl, ?_, by decide⟩
  · intro ser digest n1 n2 z1 z2 children
    exact ⟨(same_children_same_tree_hash ser digest n1 n2 z1 z2 children).1,
      (same_children_same_tree_hash ser digest n1 n2 z1 z2 children).2.1⟩
  · intro ser digest hd hs
    have key : ∀ s1 h1 s2 h2 r1 r2,
        (Add ser digest s1 (.dir "d" 0 [.file emptyFileNil]) h1).1 = .ok r1 →
        (Add ser digest s2 (.dir "d" 0 [.file emptyFile]) h2).1 = .ok r2 → r1 ≠ r2 := by
      intro s1 h1 s2 h2 r1 r2 hr1 hr2 heq
      have e1 := Add_ok_eq ser digest _ s1 h1 r1 hr1
      have e2 := Add_ok_eq ser digest _ s2 h2 r2 hr2
      rw [e1, e2] at heq
      have ht := hs (append_self_inj (hd heq))
      have hl := congrArg (fun t => t.Links.map (fun l => l.Hash)) ht
      have hn1 : emptyFileNil.Bytes.length ≤ chunkSize := by decide
      have hn2 : emptyFile.Bytes.length ≤ chunkSize := by decide
      simp only [rootObject, treeOf, linksOf, linkOf, List.map_cons, List.map_nil,
        fileObject_small ser digest _ hn1, fileObject_small ser digest _ hn2,
        fileHash_small ser _ hn1, fileHash_small ser _ hn2, List.cons.injEq, and_true] at hl
      have hb := hs (append_self_inj (hd hl))
      simp [emptyFileNil, emptyFile] at hb
    refine ⟨key, ?_⟩
    intro s1 h1 s2 h2 hs1 hs2
    have a1 := ((Add_spec ser digest (.dir "d" 0 [.file emptyFileNil]) s1 h1).2 hs1).1
    have a2 := ((Add_spec ser digest (.dir "d" 0 [.file emptyFile]) s2 h2).2 hs2).1
    have w1 : allWellFormed [.file emptyFileNil] = true := by decide
    have w2 : allWellFormed [.file emptyFile] = true := by decide
    simp only [addResult, w1, w2, ↓reduceIte] at a1 a2
    exact ⟨_, _, a1, a2, key s1 h1 s2 h2 _ _ a1 a2⟩

/-- Claim C11.  For a collision-free digest and an injective serialization,
and a directory with two entries `a` and `b` of distinct names, anywhere among
its children: whenever `Add` returns a hash for the directory and for the
directory with `a` and `b` swapped, whatever the stores and the accumulators,
the two hashes differ; and on stores whose calls do not fail `Add` returns
such hashes as soon as every node is what it declares. -/
theorem C11_swapping_two_entries_changes_the_hash (ser : Object → ByteSeq)
    (digest : ByteSeq → ByteSeq) (hd : Function.Injective digest) (hs : Function.Injective ser)
    (name : String) (size : Nat) (pre mid post : List Node) (a b : Node)
    (hab : a.Name ≠ b.Name) :
    (∀ s1 h1 s2 h2 r1 r2,
      (Add ser digest s1 (.dir name size (pre ++ a :: mid ++ b :: post)) h1).1 = .ok r1 →
      (Add ser digest s2 (.dir name size (pre ++ b :: mid ++ a :: post)) h2).1 = .ok r2 →
        r1 ≠ r2) ∧
    (∀ s1 h1 s2 h2, s1.Reliable → s2.Reliable →
      allWellFormed (pre ++ a :: mid ++ b :: post) = true →
      allWellFormed (pre ++ b :: mid ++ a :: post) = true →
      ∃ r1 r2,
        (Add ser digest s1 (.dir name size (pre ++ a :: mid ++ b :: post)) h1).1 = .ok r1 ∧
        (Add ser digest s2 (.dir name size (pre ++ b :: mid ++ a :: post)) h2).1 = .ok r2 ∧
        r1 ≠ r2) := by
  have key : ∀ s1 h1 s2 h2 r1 r2,
      (Add ser digest s1 (.dir name size (pre ++ a :: mid ++ b :: post)) h1).1 = .ok r1 →
      (Add ser digest s2 (.dir name size (pre ++ b :: mid ++ a :: post)) h2).1 = .ok r2 →
        r1 ≠ r2 := by
    intro s1 h1 s2 h2 r1 r2 hr1 hr2 heq
    have e1 := Add_ok_eq ser digest _ s1 h1 r1 hr1
    have e2 := Add_ok_eq ser digest _ s2 h2 r2 hr2
    rw [e1, e2] at heq
    simp only [rootObject] at heq
    exact treeOf_swap_ne ser digest pre mid post a b hab (hs (append_self_inj (hd heq)))
  refine ⟨key, ?_⟩
  intro s1 h1 s2 h2 hs1 hs2 hw1 hw2
  have a1 := ((Add_spec ser digest (.dir name size (pre ++ a :: mid ++ b :: post)) s1 h1).2 hs1).1
  have a2 := ((Add_spec ser digest (.dir name size (pre ++ b :: mid ++ a :: post)) s2 h2).2 hs2).1
  simp only [addResult, hw1, hw2, ↓reduceIte] at a1 a2
  exact ⟨_, _, a1, a2, key s1 h1 s2 h2 _ _ a1 a2⟩

/-- Claim C11, at a concrete input: the example directory, a file `a.txt`
and an empty directory `b`, and the same with the two entries swapped, each
added to the empty store. -/
theorem C11_swapping_two_entries_changes_the_hash_witness :
    Function.Injective (id : ByteSeq → ByteSeq) ∧ Function.Injective lenSer ∧
      (Node.file fileHi).Name ≠ (Node.dir "b" 0 []).Name ∧
      ∃ r1 r2,
        (Add lenSer id KVStore.empty
          (.dir "root" 0 ([] ++ .file fileHi :: [] ++ .dir "b" 0 [] :: [])) ⟨[]⟩).1 = .ok r1 ∧
        (Add lenSer id KVStore.empty
          (.dir "root" 0 ([] ++ .dir "b" 0 [] :: [] ++ .file fileHi :: [])) ⟨[]⟩).1 = .ok r2 ∧
        r1 ≠ r2 :=
  ⟨Function.injective_id, lenSer_injective, by decide,
    (C11_swapping_two_entries_changes_the_hash lenSer id Function.injective_id lenSer_injective
      "root" 0 [] [] [] (.file fileHi) (.dir "b" 0 []) (by decide)).2
      KVStore.empty ⟨[]⟩ KVStore.empty ⟨[]⟩ reliable_empty reliable_empty
      (by decide) (by decide)⟩

/-- Claim C12 (defect of the code).  `marshalAndPut` drops the value of
`store.Put`, so a failed write is never returned.  For every store, node and
accumulator: an error `Add` returns on a root node of consistent kind is the
error of a failed existence check, the last store call of `Add`.  On the
two-byte file `a.txt`, from a store without entries whose first two writes
fail with the storage error of code 1: both writes are attempted and fail,
`Add` returns a digest and not that error, and the store holds nothing. -/
theorem C12_failed_write_is_not_returned :
    (∀ (ser : Object → ByteSeq) (digest : ByteSeq → ByteSeq) (s : KVStore) (node : Node)
        (h : Hash) (x : Error),
      (Add ser digest s node h).1 = .err x → ¬ node.Mismatch →
        ∃ pre k, (Add ser digest s node h).2.1.log = s.log ++ pre ++ [StoreOp.hasFailed k x]) ∧
    (Add lenSer id storeFailingWrites (.file fileHi) ⟨[]⟩).1 =
      .ok [0, 2, 104, 105, 0, 2, 104, 105] ∧
    (Add lenSer id storeFailingWrites (.file fileHi) ⟨[]⟩).1 ≠ .err (.storage 1) ∧
    (Add lenSer id storeFailingWrites (.file fileHi) ⟨[]⟩).2.1.log =
      [.has [0, 2, 104, 105] false,
        .putFailed [0, 2, 104, 105] [0, 2, 104, 105] (.storage 1),
        .has [0, 2, 104, 105] false,
        .putFailed [0, 2, 104, 105] [0, 2, 104, 105] (.storage 1)] ∧
    (Add lenSer id storeFailingWrites (.file fileHi) ⟨[]⟩).2.1.entries = [] := by
  refine ⟨?_, by decide, by decide, by decide, by decide⟩
  intro ser digest s node h x hx hm
  obtain ⟨δ, hl, -, b2, -⟩ := Add_log ser digest node s h
  obtain ⟨c, pre, k, -, hd⟩ := b2 x hx hm
  exact ⟨pre, k, by rw [hl, hd, List.append_assoc]⟩

/-- Claim C13.  For every store, node and accumulator, with `δ` the store
calls `Add` makes, in order: if one of them is an existence check that fails
with the error `e`, whichever object it is made for, then `Add` returns
exactly the error `e`, hence no digest, and no store call follows the failed
check.  At a directory with a file and an empty subdirectory, from a store
whose second existence check fails (the one for the subdirectory's object):
`Add` returns that error after three store calls, the failed check being the
last. -/
theorem C13_failed_existence_check_ends_Add :
    (∀ (ser : Object → ByteSeq) (digest : ByteSeq → ByteSeq) (s : KVStore) (node : Node)
        (h : Hash),
      ∃ δ, (Add ser digest s node h).2.1.log = s.log ++ δ ∧
        ∀ pre post k e, δ = pre ++ StoreOp.hasFailed k e :: post →
          (Add ser digest s node h).1 = .err e ∧ post = []) ∧
    (Add lenSer id storeFailingSecondCheck exampleDir ⟨[]⟩).1 = .err (.storage 7) ∧
    (Add lenSer id storeFailingSecondCheck exampleDir ⟨[]⟩).2.1.log =
      [.has [0, 2, 104, 105] false, .put [0, 2, 104, 105] [0, 2, 104, 105],
        .hasFailed [0] (.storage 7)] := by
  refine ⟨?_, by decide, by decide⟩
  intro ser digest s node h
  obtain ⟨δ, hl, b1, -⟩ := Add_log ser digest node s h
  exact ⟨δ, hl, b1⟩

/-- Claim C14.  For every store, node and accumulator: a root node that
reports `FILE` and is not a `File` makes `Add` return the error
`invalidFileType`, one that reports another kind and is not a `Dir` the error
`invalidDirectoryType`, in both cases with the store, its log of calls
included, and the accumulator as they were; on a root node whose kind is
consistent `Add` returns neither of the two errors. -/
theorem C14_Add_rejects_exactly_inconsistent_roots (ser : Object → ByteSeq)
    (digest : ByteSeq → ByteSeq) (s : KVStore) (node : Node) (h : Hash) :
    (node.Type = .FILE ∧ node.asFile = none →
      Add ser digest s node h = (.err .invalidFileType, s, h)) ∧
    (node.Type ≠ .FILE ∧ node.asDir = none →
      Add ser digest s node h = (.err .invalidDirectoryType, s, h)) ∧
    (¬ node.Mismatch →
      (Add ser digest s node h).1 ≠ .err .invalidFileType ∧
        (Add ser digest s node h).1 ≠ .err .invalidDirectoryType) := by
  refine ⟨?_, ?_, ?_⟩
  · rintro ⟨h1, h2⟩
    simp [Add, h1, h2]
  · rintro ⟨h1, h2⟩
    simp [Add, h1, h2]
  · intro hm
    obtain ⟨δ, -, -, b2, -⟩ := Add_log ser digest node s h
    constructor
    · intro hx
      obtain ⟨c, -, -, hc, -⟩ := b2 _ hx hm
      simp at hc
    · intro hx
      obtain ⟨c, -, -, hc, -⟩ := b2 _ hx hm
      simp at hc

/-- Claim C15.  For every store, node and accumulator: every key of the
store before `Add` has the same value after `Add`; with `δ` the store calls
`Add` makes, in order, every write in `δ`, failed or not, comes right after an
existence check of the same key that has found nothing, and no write is made
to a key the store had before `Add`. -/
theorem C15_store_is_append_only (ser : Object → ByteSeq) (digest : ByteSeq → ByteSeq)
    (s : KVStore) (node : Node) (h : Hash) :
    (∀ k v, s.get k = some v → (Add ser digest s node h).2.1.get k = some v) ∧
    ∃ δ, (Add ser digest s node h).2.1.log = s.log ++ δ ∧
      (∀ pre post k v, δ = pre ++ StoreOp.put k v :: post →
        ∃ pre0, pre = pre0 ++ [StoreOp.has k false]) ∧
      (∀ pre post k v e, δ = pre ++ StoreOp.putFailed k v e :: post →
        ∃ pre0, pre = pre0 ++ [StoreOp.has k false]) ∧
      (∀ k v, StoreOp.put k v ∈ δ → s.get k = none) := by
  refine ⟨(Add_entries ser digest node s h).1, ?_⟩
  obtain ⟨δ, hl, -, -, b3, b4, b5, -⟩ := Add_log ser digest node s h
  exact ⟨δ, hl, b3, b4, fun k v hm => (b5 k v hm).1⟩

/-- Claim C16, refuted as stated for every store.  From a store without
entries whose first existence check fails, the first `marshalAndPut` of the
blob of the bytes `hi` returns the error and leaves the store without the
object, and the second call with the same object writes it: the second call
performs a `Put` and the stores after the two calls differ. -/
theorem C16_second_call_writes_after_a_failed_first_call :
    (marshalAndPut lenSer id storeFailingCheck (blob [104, 105]) ⟨[]⟩).1 =
      some (.storage 1) ∧
    (marshalAndPut lenSer id storeFailingCheck (blob [104, 105]) ⟨[]⟩).2.1.entries = [] ∧
    (marshalAndPut lenSer id
      (marshalAndPut lenSer id storeFailingCheck (blob [104, 105]) ⟨[]⟩).2.1 (blob [104, 105])
      (marshalAndPut lenSer id storeFailingCheck (blob [104, 105]) ⟨[]⟩).2.2).2.1.entries =
        [([0, 2, 104, 105], [0, 2, 104, 105])] ∧
    (marshalAndPut lenSer id
      (marshalAndPut lenSer id storeFailingCheck (blob [104, 105]) ⟨[]⟩).2.1 (blob [104, 105])
      (marshalAndPut lenSer id storeFailingCheck (blob [104, 105]) ⟨[]⟩).2.2).2.1.log =
        [.hasFailed [0, 2, 104, 105] (.storage 1),
          .has [0, 2, 104, 105] false, .put [0, 2, 104, 105] [0, 2, 104, 105]] := by
  decide

/-- Claim C16, amended.  For every object, store and accumulator.  If the
store holds an entry under the digest of the object's serialization after the
first `marshalAndPut`, the second call with the same object makes one store
call, an existence check of that key that finds it or fails, hence no `Put`,
and leaves the entries of the store as the first call has left them; the
store does hold such an entry when the first call returns no error and no
write of the store is scheduled to fail.  Whatever the store and whatever the
accumulator held before, the accumulator holds the serialization of the
object alone after each of the two calls, so the digest it gives is the digest
of that serialization both times. -/
theorem C16_marshalAndPut_is_idempotent (ser : Object → ByteSeq) (digest : ByteSeq → ByteSeq)
    (s : KVStore) (obj : Object) (h : Hash) :
    (((marshalAndPut ser digest s obj h).2.1.get (digest (ser obj))).isSome = true →
      (marshalAndPut ser digest (marshalAndPut ser digest s obj h).2.1 obj
          (marshalAndPut ser digest s obj h).2.2).2.1.entries =
        (marshalAndPut ser digest s obj h).2.1.entries ∧
      ((marshalAndPut ser digest (marshalAndPut ser digest s obj h).2.1 obj
          (marshalAndPut ser digest s obj h).2.2).2.1.log =
        (marshalAndPut ser digest s obj h).2.1.log ++ [.has (digest (ser obj)) true] ∨
       ∃ c, (marshalAndPut ser digest (marshalAndPut ser digest s obj h).2.1 obj
          (marshalAndPut ser digest s obj h).2.2).2.1.log =
        (marshalAndPut ser digest s obj h).2.1.log ++
          [.hasFailed (digest (ser obj)) (.storage c)])) ∧
    (s.Writable → (marshalAndPut ser digest s obj h).1 = none →
      ((marshalAndPut ser digest s obj h).2.1.get (digest (ser obj))).isSome = true) ∧
    (marshalAndPut ser digest s obj h).2.2.Sum digest = digest (ser obj) ∧
    (marshalAndPut ser digest (marshalAndPut ser digest s obj h).2.1 obj
        (marshalAndPut ser digest s obj h).2.2).2.2.Sum digest = digest (ser obj) ∧
    (∀ h2 : Hash, (marshalAndPut ser digest s obj h2).2.2.Sum digest = digest (ser obj)) := by
  refine ⟨?_, ?_, ?_, ?_, ?_⟩
  · intro hpres
    constructor
    · rcases marshalAndPut_cases ser digest (marshalAndPut ser digest s obj h).2.1 obj
          (marshalAndPut ser digest s obj h).2.2 with
        ⟨c, -, -, he⟩ | ⟨-, -, -, he⟩ | ⟨-, hn, -, -⟩ | ⟨c, -, hn, -, -⟩
      · exact he
      · exact he
      · rw [hn] at hpres; simp at hpres
      · rw [hn] at hpres; simp at hpres
    · rcases marshalAndPut_cases ser digest (marshalAndPut ser digest s obj h).2.1 obj
          (marshalAndPut ser digest s obj h).2.2 with
        ⟨c, -, hl, -⟩ | ⟨-, -, hl, -⟩ | ⟨-, hn, -, -⟩ | ⟨c, -, hn, -, -⟩
      · exact Or.inr ⟨c, hl⟩
      · exact Or.inl hl
      · rw [hn] at hpres; simp at hpres
      · rw [hn] at hpres; simp at hpres
  · intro hw hok
    have h1 := ((marshalAndPut_writable ser digest s obj h hw).2 hok).2
    unfold KVStore.get
    rw [h1, offerAll_cons, offerAll_nil]
    exact lookup_addEntry_self _ _ _
  · rw [marshalAndPut_hash]
    rfl
  · rw [marshalAndPut_hash]
    rfl
  · intro h2
    rw [marshalAndPut_hash]
    rfl

/-- Claim C16 at the blob of the bytes `hi`, from the empty store, with an
accumulator that holds a byte before the first call. -/
theorem C16_marshalAndPut_is_idempotent_witness :
    ((marshalAndPut lenSer id KVStore.empty (blob [104, 105]) ⟨[9]⟩).2.1.get
      (id (lenSer (blob [104, 105])))).isSome = true ∧
    (marshalAndPut lenSer id (marshalAndPut lenSer id KVStore.empty (blob [104, 105]) ⟨[9]⟩).2.1
        (blob [104, 105])
        (marshalAndPut lenSer id KVStore.empty (blob [104, 105]) ⟨[9]⟩).2.2).2.1.entries =
      (marshalAndPut lenSer id KVStore.empty (blob [104, 105]) ⟨[9]⟩).2.1.entries ∧
    (marshalAndPut lenSer id KVStore.empty (blob [104, 105]) ⟨[9]⟩).2.2.Sum id =
      id (lenSer (blob [104, 105])) :=
  ⟨by decide,
    ((C16_marshalAndPut_is_idempotent lenSer id KVStore.empty (blob [104, 105]) ⟨[9]⟩).1
      (by decide)).1,
    (C16_marshalAndPut_is_idempotent lenSer id KVStore.empty (blob [104, 105]) ⟨[9]⟩).2.2.1⟩

/-- Claim C17.  For every store, node and accumulator, whether `Add` returns
a digest, an error or panics: if every entry of the store is keyed by the
digest of its value before `Add`, so is every entry after `Add`; every entry
of the store after `Add` that was not there before holds the serialization of
an object under the digest of that serialization alone; and with `δ` the
store calls `Add` makes, every write in `δ`, failed or not, has the
serialization of an object as value and the digest of that value as key. -/
theorem C17_store_stays_content_addressed (ser : Object → ByteSeq)
    (digest : ByteSeq → ByteSeq) (s : KVStore) (node : Node) (h : Hash) :
    (ContentAddressed digest s → ContentAddressed digest (Add ser digest s node h).2.1) ∧
    (∀ kv ∈ (Add ser digest s node h).2.1.entries,
      kv ∈ s.entries ∨ ∃ o, kv.2 = ser o ∧ kv.1 = digest kv.2) ∧
    ∃ δ, (Add ser digest s node h).2.1.log = s.log ++ δ ∧
      (∀ k v, StoreOp.put k v ∈ δ → ∃ o, v = ser o ∧ k = digest v) ∧
      (∀ k v e, StoreOp.putFailed k v e ∈ δ → ∃ o, v = ser o ∧ k = digest v) := by
  obtain ⟨-, e2, e3⟩ := Add_entries ser digest node s h
  refine ⟨e3, ?_, ?_⟩
  · intro kv hkv
    rcases e2 kv hkv with h1 | ⟨o, h1⟩
    · exact Or.inl h1
    · exact Or.inr ⟨o, by rw [h1], by rw [h1]⟩
  · obtain ⟨δ, hl, -, -, -, -, b5, b6⟩ := Add_log ser digest node s h
    refine ⟨δ, hl, ?_, ?_⟩
    · intro k v hm
      obtain ⟨-, o, hk, hv⟩ := b5 k v hm
      exact ⟨o, hv, by rw [hk, hv]⟩
    · intro k v e hm
      obtain ⟨o, hk, hv⟩ := b6 k v e hm
      exact ⟨o, hv, by rw [hk, hv]⟩

/-- Claim C18.  For every store and accumulator.  Whenever `sliceFile`
returns the object of a file longer than `256*1024` bytes, its data is the
tag `blob` once per link, `4 * len(links)` bytes.  Whenever `sliceDir` returns
the object of a directory, it has one link per child, with the names of the
children in order, its data is the concatenation over the children in order
of the tag `link` for a child that reports `FILE` and `tree` for any other
(the `nil` slice when there is no child), `4 * len(links)` bytes; the four
bytes at offset `4 * i` are `link` when child `i` is a file and `tree` when it
is a subdirectory, and every child is one of the two; and two such objects
with the same data come from directories whose children have the same kinds,
position by position.  The three tags have 4 bytes and differ from each
other. -/
theorem C18_one_type_tag_per_link (ser : Object → ByteSeq) (digest : ByteSeq → ByteSeq)
    (s : KVStore) (h : Hash) :
    (∀ (file : File) (obj : Object), chunkSize < file.Bytes.length →
      (sliceFile ser digest file s h).1 = .ok obj →
        obj.Data = .mk (obj.Links.map (fun _ => tagBlob)).flatten ∧
          obj.Data.length = 4 * obj.Links.length) ∧
    (∀ (dir : Dir) (t : Object), (sliceDir ser digest dir s h).1 = .ok t →
      t.Links.length = dir.It.length ∧
      t.Links.map Link.Name = dir.It.map Node.Name ∧
      t.Data.bytes =
        (dir.It.map (fun c => if c.Type = .FILE then tagLink else tagTree)).flatten ∧
      (t.Data = .nil ↔ dir.It = []) ∧
      t.Data.length = 4 * t.Links.length ∧
      (∀ (i : Nat) (c : Node), dir.It[i]? = some c →
        ((∃ f, c = .file f) ∨ ∃ name size cs, c = .dir name size cs) ∧
        (∀ f, c = .file f → slice t.Data.bytes (4 * i) (4 * i + 4) = tagLink) ∧
        (∀ name size cs, c = .dir name size cs →
          slice t.Data.bytes (4 * i) (4 * i + 4) = tagTree)) ∧
      (∀ (dir2 : Dir) (s2 : KVStore) (h2 : Hash) (t2 : Object),
        (sliceDir ser digest dir2 s2 h2).1 = .ok t2 → t.Data = t2.Data →
          dir.It.map Node.Type = dir2.It.map Node.Type)) ∧
    tagBlob.length = 4 ∧ tagLink.length = 4 ∧ tagTree.length = 4 ∧
    tagBlob ≠ tagLink ∧ tagBlob ≠ tagTree ∧ tagLink ≠ tagTree := by
  refine ⟨?_, ?_, rfl, rfl, rfl, by decide, by decide, by decide⟩
  · intro file obj hn hok
    rcases sliceFile_ok ser digest file s h with ⟨h1, -⟩ | ⟨e, he⟩
    · rw [h1] at hok
      simp only [Result.ok.injEq] at hok
      subst hok
      rw [fileObject_large ser digest file.Bytes hn]
      have hpos := chunkSize_pos
      have hn2 : chunkSize < file.Bytes.bytes.length := hn
      have hne : windows file.Bytes.bytes 0 ≠ [] := windows_ne_nil _ (by omega)
      generalize windows file.Bytes.bytes 0 = ws at hne
      have hfl : (ws.map (fun _ => tagBlob)).flatten ≠ [] := by
        cases ws with
        | nil => exact absurd rfl hne
        | cons w ws => simp [tagBlob]
      simp only [appendChunks, List.nil_append, List.map_map]
      have hcomp : ((fun (_ : Link) => tagBlob) ∘ chunkLink ser digest) =
          fun (_ : ByteSeq) => tagBlob := rfl
      rw [hcomp, ByteSlice.append_of_ne _ _ hfl]
      refine ⟨rfl, ?_⟩
      rw [ByteSlice.length_mk, ByteSlice.bytes, List.nil_append, blobTags_length,
        List.length_map]
    · rw [he] at hok
      simp at hok
  · intro dir t hok
    obtain ⟨ht, hwf, -⟩ := sliceDir_ok ser digest dir s h t hok
    subst ht
    have hlen : (treeOf ser digest dir.It).Links.length = dir.It.length := by
      simp only [treeOf, linksOf_eq_map, List.length_map]
    have hbytes : (treeOf ser digest dir.It).Data.bytes = tagsOf dir.It := treeData_bytes dir.It
    refine ⟨hlen, treeOf_names ser digest dir.It, hbytes, treeData_eq_nil_iff dir.It, ?_, ?_, ?_⟩
    · rw [hlen, ByteSlice.length_eq, hbytes]
      exact tagsOf_length dir.It
    · intro i c hc
      rw [hbytes]
      have hs := tagsOf_slice dir.It i c hc
      have hmem : c ∈ dir.It := List.mem_iff_getElem?.mpr ⟨i, hc⟩
      have hcw : c.WellFormed = true := allWellFormed_mem dir.It hwf c hmem
      refine ⟨?_, ?_, ?_⟩
      · cases c with
        | file f => exact Or.inl ⟨f, rfl⟩
        | dir name size cs => exact Or.inr ⟨name, size, cs, rfl⟩
        | other d name size => simp [Node.WellFormed] at hcw
      · intro f hf
        subst hf
        exact hs
      · intro name size cs hd
        subst hd
        exact hs
    · intro dir2 s2 h2 t2 hok2 hdata
      obtain ⟨ht2, -, -⟩ := sliceDir_ok ser digest dir2 s2 h2 t2 hok2
      subst ht2
      have hb := congrArg ByteSlice.bytes hdata
      rw [hbytes, show (treeOf ser digest dir2.It).Data.bytes = tagsOf dir2.It from
        treeData_bytes dir2.It] at hb
      exact tagsOf_types dir.It dir2.It hb

/-- Claim C19.  For every store, node and two states `h`, `h2` of the
accumulator: `Add` returns the same result (digest, error or panic) and leaves
the same store, entries and log of calls alike; `sliceFile` returns the same
object, link hashes included, and leaves the same store and accumulator;
`sliceDir` returns the same object and leaves the same store.  Every digest
is computed after the reset `marshalAndPut` starts with. -/
theorem C19_Add_is_independent_of_the_accumulator (ser : Object → ByteSeq)
    (digest : ByteSeq → ByteSeq) (s : KVStore) (node : Node) (h h2 : Hash) :
    (Add ser digest s node h).1 = (Add ser digest s node h2).1 ∧
    (Add ser digest s node h).2.1 = (Add ser digest s node h2).2.1 ∧
    (∀ file : File, sliceFile ser digest file s h = sliceFile ser digest file s h2) ∧
    (∀ dir : Dir, (sliceDir ser digest dir s h).1 = (sliceDir ser digest dir s h2).1 ∧
      (sliceDir ser digest dir s h).2.1 = (sliceDir ser digest dir s h2).2.1) ∧
    (∀ obj : Object, marshalAndPut ser digest s obj h = marshalAndPut ser digest s obj h2) := by
  refine ⟨?_, ?_, fun file => sliceFile_indep ser digest file s h h2,
    fun dir => sliceDir_indep ser digest dir s h h2,
    fun obj => marshalAndPut_indep ser digest s obj h h2⟩
  · cases node with
    | file f =>
      simp only [Add, Node.Type, Node.asFile, ↓reduceIte, addFileToStore]
      rw [sliceFile_indep ser digest f s h h2]
    | dir name size cs =>
      simp only [Add, Node.Type, Node.asDir, reduceCtorEq, ↓reduceIte]
      exact (addDirToStore_indep ser digest ⟨name, size, cs⟩ s h h2).1
    | other d name size =>
      cases d <;> simp [Add, Node.Type, Node.asFile, Node.asDir]
  · cases node with
    | file f =>
      simp only [Add, Node.Type, Node.asFile, ↓reduceIte, addFileToStore]
      rw [sliceFile_indep ser digest f s h h2]
    | dir name size cs =>
      simp only [Add, Node.Type, Node.asDir, reduceCtorEq, ↓reduceIte]
      exact (addDirToStore_indep ser digest ⟨name, size, cs⟩ s h h2).2
    | other d name size =>
      cases d <;> simp [Add, Node.Type, Node.asFile, Node.asDir]

end MerkleDag
